import Mathlib

/-! C-Calculator: a shallow embedding of `calc.c` and `tree.c`.

The calculator reads one line from standard input, parses it by recursive
descent (`expr`, `term`, `factor`, with `match` advancing a one-token
lookahead supplied by `getNextToken`) into a binary tree, and evaluates the
tree with `tree_eval`.

Conventions of the embedding:

* standard input is a list of bytes; `getchar` returns the byte value, or
  `EOF = -1` once the list is exhausted;
* the globals `curToken`, `curAttribute` and the unread input form `State`;
* `int` is a 32-bit two's-complement integer: addition, subtraction,
  multiplication and negation wrap modulo `2^32`, and a division whose divisor
  is zero or whose quotient is not representable faults (as the hardware
  divide instruction does);
* `exit(1)` and a failed `assert` are faults returned through `Except`;
* the mutually recursive parser functions take a recursion budget; `main`
  supplies a budget that is shown to be enough for every input;
* the diagnostic trace written to `stderr` is not modelled.
-/

namespace Calc

/-! ## Machine integers -/

/-- Smallest value of a 32-bit `int`. -/
def INT_MIN : Int := -2147483648

/-- Largest value of a 32-bit `int`. -/
def INT_MAX : Int := 2147483647

/-- Reduce an integer into the 32-bit two's-complement range. -/
def wrap (x : Int) : Int := (x + 2147483648) % 4294967296 - 2147483648

/-- Machine addition of two `int`s. -/
def add32 (a b : Int) : Int := wrap (a + b)

/-- Machine subtraction of two `int`s. -/
def sub32 (a b : Int) : Int := wrap (a - b)

/-- Machine multiplication of two `int`s. -/
def mul32 (a b : Int) : Int := wrap (a * b)

/-- Machine negation of an `int`. -/
def neg32 (a : Int) : Int := wrap (-a)

/-- How a run of the program can stop without a value. -/
inductive Fault
  /-- `exit(1)` in `factor`. -/
  | factorExit
  /-- `exit(1)` in `match`. -/
  | matchExit
  /-- The check `assert(curToken == EOS)` in `main` failed. -/
  | assertEOS
  /-- The check `assert(root != NULL)` in `tree_eval` failed. -/
  | assertRoot
  /-- The divide instruction faulted. -/
  | divideFault
  /-- A literal node whose `attribute` was never assigned was read. -/
  | indeterminate
  /-- The recursion budget of the model was used up. -/
  | outOfFuel
  deriving DecidableEq, Repr

deriving instance DecidableEq for Except

/-- Machine division of two `int`s: truncating, faulting on a zero divisor and
on the one quotient that is not representable. -/
def div32 (a b : Int) : Except Fault Int :=
  if b = 0 then .error .divideFault
  else if a = INT_MIN ∧ b = -1 then .error .divideFault
  else .ok (Int.tdiv a b)

/-! ## Tokens and trees -/

/-- A byte of standard input. -/
abbrev Byte := Fin 256

/-- End-of-line marker, `#define EOS 256` in `calc.c`. -/
def EOS : Int := 256

/-- Modelled from the spec: the token code `NUM` is declared in `tree.h`, which
is not among the sources. The spec's data model makes `Number` a token variant
of its own, distinct from every character token and from `EndOfInput`, so the
code is taken outside the range of `getchar` and different from `EOS`. -/
def NUM : Int := 257

/-- What `getchar` returns at end of file. -/
def EOF : Int := -1

/-- The C library's `isdigit` on the values `getchar` can return. -/
def isdigit (c : Int) : Bool := decide (48 ≤ c) && decide (c ≤ 57)

/-- Modelled from the spec: the struct `tree_t` is declared in `tree.h`, which
is not among the sources; its fields are the four that `tree.c` and `calc.c`
use and that the spec's data model lists. A value is a `tree_t *`: the null
pointer, or a node with its `type`, its `attribute` (the field `attr`, `none`
while unassigned) and its two children. -/
inductive tree_t
  | NULL
  | node (type : Int) (attr : Option Int) (leftChild rightChild : tree_t)
  deriving DecidableEq, Repr

/-- The constructor `mktree` of `tree.c`; it leaves `attribute` unassigned. -/
def mktree (type : Int) (left right : tree_t) : tree_t :=
  .node type none left right

/-- The evaluator `tree_eval` of `tree.c`. -/
def tree_eval : tree_t → Except Fault Int
  | .NULL => .error .assertRoot
  | .node type attr leftChild rightChild =>
    if type = 43 then do
      let leftValue ← tree_eval leftChild
      let rightValue ← tree_eval rightChild
      pure (add32 leftValue rightValue)
    else if type = 45 then do
      let leftValue ← tree_eval leftChild
      match rightChild with
      | .NULL => pure (neg32 leftValue)
      | .node _ _ _ _ =>
        let rightValue ← tree_eval rightChild
        pure (sub32 leftValue rightValue)
    else if type = 42 then do
      let leftValue ← tree_eval leftChild
      let rightValue ← tree_eval rightChild
      pure (mul32 leftValue rightValue)
    else if type = 47 then do
      let leftValue ← tree_eval leftChild
      let rightValue ← tree_eval rightChild
      div32 leftValue rightValue
    else if type = NUM then
      match attr with
      | some v => pure v
      | none => .error .indeterminate
    else pure (-1000000)

/-! ## The scanner -/

/-- The globals shared by scanner and parser, and the unread input. -/
structure State where
  curToken : Int
  curAttribute : Int
  stdin : List Byte
  deriving DecidableEq, Repr

/-- The inner loop of `getNextToken`: `while(isdigit(c = getchar()))`, followed
by `ungetc(c, stdin)`. Returns the accumulated value and the unread input. -/
def scanDigits (value : Int) : List Byte → Int × List Byte
  | [] => (value, [])
  | b :: bs =>
    if isdigit b.val then
      scanDigits (sub32 (add32 (mul32 10 value) b.val) 48) bs
    else (value, b :: bs)

/-- The `while(1)` loop of `getNextToken` over the unread input: the token, the
new `curAttribute` and the input left unread. -/
def scanToken (curAttribute : Int) : List Byte → Int × Int × List Byte
  | [] => (EOF, curAttribute, [])
  | b :: bs =>
    let c : Int := b.val
    if c = 32 ∨ c = 9 then scanToken curAttribute bs
    else if c = 10 then (EOS, curAttribute, bs)
    else if c = 43 then (c, curAttribute, bs)
    else if c = 45 then (c, curAttribute, bs)
    else if c = 42 then (c, curAttribute, bs)
    else if c = 47 then (c, curAttribute, bs)
    else if c = 40 ∨ c = 41 then (c, curAttribute, bs)
    else if isdigit c then
      let r := scanDigits (sub32 c 48) bs
      (NUM, r.1, r.2)
    else (c, curAttribute, bs)

/-- The scanner `getNextToken` of `calc.c`: the token returned and the state
it leaves (`curToken` is assigned by the caller). -/
def getNextToken (st : State) : Int × State :=
  let r := scanToken st.curAttribute st.stdin
  (r.1, { st with curAttribute := r.2.1, stdin := r.2.2 })

/-- The statement `curToken = getNextToken();`. -/
def advance (st : State) : State :=
  let r := getNextToken st
  { r.2 with curToken := r.1 }

/-! ## The parser -/

/-- The function `match` of `calc.c`. -/
def match_ (token : Int) (st : State) : Except Fault State :=
  if st.curToken = token then .ok (advance st)
  else .error .matchExit

mutual

/-- The function `expr` of `calc.c`. -/
def expr : Nat → State → Except Fault (tree_t × State)
  | 0, _ => .error .outOfFuel
  | n + 1, st => do
    let r ← term n st
    expr_loop n r.1 r.2

/-- The `while` loop of `expr`, entered with the tree built so far. -/
def expr_loop : Nat → tree_t → State → Except Fault (tree_t × State)
  | 0, _, _ => .error .outOfFuel
  | n + 1, value, st =>
    if st.curToken = 43 ∨ st.curToken = 45 then
      if st.curToken = 43 then do
        let st1 ← match_ 43 st
        let r ← term n st1
        expr_loop n (mktree 43 value r.1) r.2
      else do
        let st1 ← match_ 45 st
        let r ← term n st1
        expr_loop n (mktree 45 value r.1) r.2
    else pure (value, st)

/-- The function `term` of `calc.c`. -/
def term : Nat → State → Except Fault (tree_t × State)
  | 0, _ => .error .outOfFuel
  | n + 1, st => do
    let r ← factor n st
    term_loop n r.1 r.2

/-- The `while` loop of `term`, entered with the tree built so far. -/
def term_loop : Nat → tree_t → State → Except Fault (tree_t × State)
  | 0, _, _ => .error .outOfFuel
  | n + 1, value, st =>
    if st.curToken = 42 ∨ st.curToken = 47 then
      if st.curToken = 42 then do
        let st1 ← match_ 42 st
        let r ← factor n st1
        term_loop n (mktree 42 value r.1) r.2
      else do
        let st1 ← match_ 47 st
        let r ← factor n st1
        term_loop n (mktree 47 value r.1) r.2
    else pure (value, st)

/-- The function `factor` of `calc.c`. -/
def factor : Nat → State → Except Fault (tree_t × State)
  | 0, _ => .error .outOfFuel
  | n + 1, st =>
    if st.curToken = 40 then do
      let st1 ← match_ 40 st
      let r ← expr n st1
      let st2 ← match_ 41 r.2
      pure (r.1, st2)
    else if st.curToken = 45 then do
      let st1 ← match_ 45 st
      let r ← factor n st1
      pure (mktree 45 r.1 .NULL, r.2)
    else if st.curToken = NUM then do
      let value := tree_t.node NUM (some st.curAttribute) .NULL .NULL
      let st1 ← match_ NUM st
      pure (value, st1)
    else .error .factorExit

end

/-- The state in which `main` starts: the globals are zero. -/
def initial (stdin : List Byte) : State :=
  { curToken := 0, curAttribute := 0, stdin := stdin }

/-- The function `main` of `calc.c` run with recursion budget `fuel`; the
result is the value it prints. -/
def main_fuel (fuel : Nat) (stdin : List Byte) : Except Fault Int := do
  let st := advance (initial stdin)
  let r ← expr fuel st
  if r.2.curToken = EOS then tree_eval r.1
  else .error .assertEOS

/-- The function `main` of `calc.c`: three levels of recursion per input byte
are always enough. -/
def main (stdin : List Byte) : Except Fault Int :=
  main_fuel (3 * stdin.length + 3) stdin

/-- The bytes of a text. -/
def bytes (s : String) : List Byte :=
  s.toList.map (fun c => Fin.ofNat c.toNat)

/-! ## The grammar of a line

`E -> T {(+|-) T}`, `T -> F {(*|/) F}`, `F -> ( E ) | - F | NUM`, with the
blanks that precede each token recorded in the derivation, so that a
derivation determines the characters of the line exactly. -/

/-- A character that the scanner skips. -/
inductive Blank
  | space
  | tab
  deriving DecidableEq, Repr

/-- An additive operator. -/
inductive AddOp
  | plus
  | minus
  deriving DecidableEq, Repr

/-- A multiplicative operator. -/
inductive MulOp
  | times
  | divide
  deriving DecidableEq, Repr

/-- A decimal digit. -/
abbrev Digit := Fin 10

mutual

/-- A derivation of `E -> T {(+|-) T}`. -/
inductive Expression
  | mk (t : Term) (rest : ExpressionTail)

/-- The repetition `{(+|-) T}`. -/
inductive ExpressionTail
  | nil
  | cons (b : List Blank) (op : AddOp) (t : Term) (rest : ExpressionTail)

/-- A derivation of `T -> F {(*|/) F}`. -/
inductive Term
  | mk (f : Factor) (rest : TermTail)

/-- The repetition `{(*|/) F}`. -/
inductive TermTail
  | nil
  | cons (b : List Blank) (op : MulOp) (f : Factor) (rest : TermTail)

/-- A derivation of `F -> ( E ) | - F | NUM`; `b` are the blanks before the
first token, `b2` those before the closing parenthesis. -/
inductive Factor
  | paren (b : List Blank) (e : Expression) (b2 : List Blank)
  | neg (b : List Blank) (f : Factor)
  | num (b : List Blank) (d : Digit) (ds : List Digit)

end

/-- The byte of a blank. -/
def blankByte : Blank → Byte
  | .space => 32
  | .tab => 9

/-- The bytes of a run of blanks. -/
def blanks (b : List Blank) : List Byte := b.map blankByte

/-- The byte of a digit. -/
def digitByte (d : Digit) : Byte := ⟨48 + d.val, by omega⟩

/-- The bytes of a run of digits. -/
def digits (ds : List Digit) : List Byte := ds.map digitByte

/-- The byte of an additive operator. -/
def addByte : AddOp → Byte
  | .plus => 43
  | .minus => 45

/-- The byte of a multiplicative operator. -/
def mulByte : MulOp → Byte
  | .times => 42
  | .divide => 47

/-- The base-10 value of a run of digits, most significant first. -/
def decimalValue (ds : List Digit) : Nat :=
  ds.foldl (fun acc d => 10 * acc + d.val) 0

mutual

/-- The characters of an expression. -/
def renderE : Expression → List Byte
  | .mk t rest => renderT t ++ renderET rest

/-- The characters of the repetition `{(+|-) T}`. -/
def renderET : ExpressionTail → List Byte
  | .nil => []
  | .cons b op t rest => blanks b ++ addByte op :: (renderT t ++ renderET rest)

/-- The characters of a term. -/
def renderT : Term → List Byte
  | .mk f rest => renderF f ++ renderTT rest

/-- The characters of the repetition `{(*|/) F}`. -/
def renderTT : TermTail → List Byte
  | .nil => []
  | .cons b op f rest => blanks b ++ mulByte op :: (renderF f ++ renderTT rest)

/-- The characters of a factor. -/
def renderF : Factor → List Byte
  | .paren b e b2 => blanks b ++ 40 :: (renderE e ++ (blanks b2 ++ [41]))
  | .neg b f => blanks b ++ 45 :: renderF f
  | .num b d ds => blanks b ++ digits (d :: ds)

end

/-! ### The tree of a derivation -/

mutual

/-- The tree of an expression: the tree of its first term, extended to the
left-nested tree of the repetition. -/
def treeE : Expression → tree_t
  | .mk t rest => treeET (treeT t) rest

/-- Extend `value` by the operators of `{(+|-) T}`, nesting to the left. -/
def treeET (value : tree_t) : ExpressionTail → tree_t
  | .nil => value
  | .cons _ op t rest => treeET (mktree (addByte op).val value (treeT t)) rest

/-- The tree of a term. -/
def treeT : Term → tree_t
  | .mk f rest => treeTT (treeF f) rest

/-- Extend `value` by the operators of `{(*|/) F}`, nesting to the left. -/
def treeTT (value : tree_t) : TermTail → tree_t
  | .nil => value
  | .cons _ op f rest => treeTT (mktree (mulByte op).val value (treeF f)) rest

/-- The tree of a factor: parentheses add no node, unary minus adds a node
with no right child, a literal is a leaf holding its machine value. -/
def treeF : Factor → tree_t
  | .paren _ e _ => treeE e
  | .neg _ f => mktree 45 (treeF f) .NULL
  | .num _ d ds => .node NUM (some (wrap (decimalValue (d :: ds)))) .NULL .NULL

end

/-! ### The standard semantics -/

/-- Keep a mathematical integer only if a machine `int` can hold it. -/
def representable (v : Int) : Option Int :=
  if INT_MIN ≤ v ∧ v ≤ INT_MAX then some v else none

/-- The standard meaning of an additive operator on mathematical integers. -/
def applyAdd : AddOp → Int → Int → Option Int
  | .plus, a, b => representable (a + b)
  | .minus, a, b => representable (a - b)

/-- The standard meaning of a multiplicative operator on mathematical
integers: division truncates and has no value on a zero divisor. -/
def applyMul : MulOp → Int → Int → Option Int
  | .times, a, b => representable (a * b)
  | .divide, a, b => if b = 0 then none else representable (Int.tdiv a b)

mutual

/-- The value of an expression in the standard semantics, or `none` when a
divisor is zero or a literal or intermediate value is not representable. -/
def denoteE : Expression → Option Int
  | .mk t rest => (denoteT t).bind (fun v => denoteET v rest)

/-- Fold `{(+|-) T}` into the value so far, from the left. -/
def denoteET (acc : Int) : ExpressionTail → Option Int
  | .nil => some acc
  | .cons _ op t rest =>
    (denoteT t).bind (fun v => (applyAdd op acc v).bind (fun w => denoteET w rest))

/-- The value of a term in the standard semantics. -/
def denoteT : Term → Option Int
  | .mk f rest => (denoteF f).bind (fun v => denoteTT v rest)

/-- Fold `{(*|/) F}` into the value so far, from the left. -/
def denoteTT (acc : Int) : TermTail → Option Int
  | .nil => some acc
  | .cons _ op f rest =>
    (denoteF f).bind (fun v => (applyMul op acc v).bind (fun w => denoteTT w rest))

/-- The value of a factor in the standard semantics. -/
def denoteF : Factor → Option Int
  | .paren _ e _ => denoteE e
  | .neg _ f => (denoteF f).bind (fun v => representable (-v))
  | .num _ d ds => representable (decimalValue (d :: ds))

end

/-! ### Recursion depth of a derivation -/

mutual

/-- Budget with which `expr` parses an expression. -/
def needE : Expression → Nat
  | .mk t rest => 1 + max (needT t) (needET rest)

/-- Budget with which the loop of `expr` parses `{(+|-) T}`. -/
def needET : ExpressionTail → Nat
  | .nil => 1
  | .cons _ _ t rest => 1 + max (needT t) (needET rest)

/-- Budget with which `term` parses a term. -/
def needT : Term → Nat
  | .mk f rest => 1 + max (needF f) (needTT rest)

/-- Budget with which the loop of `term` parses `{(*|/) F}`. -/
def needTT : TermTail → Nat
  | .nil => 1
  | .cons _ _ f rest => 1 + max (needF f) (needTT rest)

/-- Budget with which `factor` parses a factor. -/
def needF : Factor → Nat
  | .paren _ e _ => 1 + needE e
  | .neg _ f => 1 + needF f
  | .num _ _ _ => 1

end

/-- A line holding one well-formed expression: the expression, optional blanks,
a newline, and whatever follows the line. -/
def WellFormedLine (stdin : List Byte) : Prop :=
  ∃ (e : Expression) (b : List Blank) (rest : List Byte),
    stdin = renderE e ++ (blanks b ++ 10 :: rest)

/-! ## Support definitions for the scanner -/

/-- The state after `curToken = getNextToken();` run from attribute `a` and
unread input `inp`. -/
def look (a : Int) (inp : List Byte) : State :=
  advance { curToken := 0, curAttribute := a, stdin := inp }

/-- The token that the scanner returns on the unread input `inp`. -/
def nextToken (inp : List Byte) : Int := (scanToken 0 inp).1

/-- Whether the unread input begins with a digit. -/
def startsWithDigit : List Byte → Bool
  | [] => false
  | b :: _ => isdigit b.val

/-- Whether a byte is a digit character. -/
def isDigitByte (b : Byte) : Bool := isdigit b.val

/-- The value accumulated by `value = 10*value + c - '0'` over a run of digit
bytes, without reduction to the machine range. -/
def accumulate (value : Int) (run : List Byte) : Int :=
  run.foldl (fun acc b => 10 * acc + b.val - 48) value

/-! ## Definitions used in the statements -/

/-- A byte that is one of the operator or parenthesis characters. -/
def IsPunct (b : Byte) : Prop :=
  (b.val : Int) = 43 ∨ (b.val : Int) = 45 ∨ (b.val : Int) = 42 ∨ (b.val : Int) = 47
    ∨ (b.val : Int) = 40 ∨ (b.val : Int) = 41

/-- The unread input `rest` cannot continue a term: it does not begin with a
digit and its next token is neither `*` nor `/`. -/
def StopT (rest : List Byte) : Prop :=
  startsWithDigit rest = false ∧ nextToken rest ≠ 42 ∧ nextToken rest ≠ 47

/-- The unread input `rest` cannot continue an expression. -/
def StopE (rest : List Byte) : Prop :=
  StopT rest ∧ nextToken rest ≠ 43 ∧ nextToken rest ≠ 45

/-- A pointer that is not null. -/
def IsNode : tree_t → Prop
  | .NULL => False
  | .node _ _ _ _ => True

/-- The first two statements of `main`: prime the lookahead and call `expr`. -/
def parseLine (stdin : List Byte) : Except Fault (tree_t × State) :=
  expr (3 * stdin.length + 3) (advance (initial stdin))

/-- The derivation of `2+3*4`, written with a blank on each side of `+`. -/
def sampleSum : Expression :=
  .mk (.mk (.num [] 2 []) .nil)
    (.cons [.space] .plus (.mk (.num [.space] 3 []) (.cons [] .times (.num [] 4 []) .nil)) .nil)

/-- The call `tree_eval t` reaches a call of `tree_eval` on the subtree `s`:
it is `t` itself, or it is reached inside the left child of an operator node,
or inside the right child once the left child has been evaluated. -/
inductive Reaches : tree_t → tree_t → Prop
  | here (t : tree_t) : Reaches t t
  | left (ty : Int) (av : Option Int) (l r s : tree_t) :
      (ty = 43 ∨ ty = 45 ∨ ty = 42 ∨ ty = 47) → Reaches l s →
      Reaches (.node ty av l r) s
  | right (ty : Int) (av : Option Int) (l r s : tree_t) (x : Int) :
      (ty = 43 ∨ ty = 45 ∨ ty = 42 ∨ ty = 47) → tree_eval l = .ok x → IsNode r →
      Reaches r s → Reaches (.node ty av l r) s

/-- The tree that `5/0` parses to. -/
def fiveOverZero : tree_t :=
  mktree 47 (.node NUM (some 5) .NULL .NULL) (.node NUM (some 0) .NULL .NULL)

/-- The repetition `{(+|-) T}` given as a list of blanks, operator and term. -/
def exprTailOfList : List (List Blank × AddOp × Term) → ExpressionTail
  | [] => .nil
  | p :: l => .cons p.1 p.2.1 p.2.2 (exprTailOfList l)

/-- The repetition `{(*|/) F}` given as a list of blanks, operator and factor. -/
def termTailOfList : List (List Blank × MulOp × Factor) → TermTail
  | [] => .nil
  | p :: l => .cons p.1 p.2.1 p.2.2 (termTailOfList l)

/-- The characters of `op2 t2 ... opn tn`. -/
def renderAddends : List (List Blank × AddOp × Term) → List Byte
  | [] => []
  | p :: l => blanks p.1 ++ addByte p.2.1 :: (renderT p.2.2 ++ renderAddends l)

/-- The characters of `op2 f2 ... opn fn`. -/
def renderMultiplicands : List (List Blank × MulOp × Factor) → List Byte
  | [] => []
  | p :: l => blanks p.1 ++ mulByte p.2.1 :: (renderF p.2.2 ++ renderMultiplicands l)

/-- The term `1`. -/
def sampleTerm : Term := .mk (.num [] 1 []) .nil

/-- The repetition `-2-3`. -/
def sampleAddends : List (List Blank × AddOp × Term) :=
  [([], .minus, .mk (.num [] 2 []) .nil), ([], .minus, .mk (.num [] 3 []) .nil)]

/-- The repetition `/4/2`. -/
def sampleMultiplicands : List (List Blank × MulOp × Factor) :=
  [([], .divide, .num [] 4 []), ([], .divide, .num [] 2 [])]

/-- The quotient of `x` by `y` rounded toward zero, in the words of the
specification: the sign of the exact quotient and the whole part of its
magnitude. -/
def quotientTowardZero (x y : Int) : Int :=
  Int.sign x * Int.sign y * ((x.natAbs / y.natAbs : Nat) : Int)

/-- The tree that `(-2147483647-1)` parses to. -/
def mostNegative : tree_t :=
  mktree 45 (mktree 45 (.node NUM (some 2147483647) .NULL .NULL) .NULL)
    (.node NUM (some 1) .NULL .NULL)

/-- The tree that `-1` parses to. -/
def minusOne : tree_t := mktree 45 (.node NUM (some 1) .NULL .NULL) .NULL

/-- The decimal digits of `n`, most significant first, put in front of `acc`;
`fuel` bounds the number of digits produced. -/
def decimalCore : Nat → Nat → List Digit → List Digit
  | 0, _, acc => acc
  | fuel + 1, n, acc =>
    if n / 10 = 0 then ⟨n % 10, Nat.mod_lt n (by decide)⟩ :: acc
    else decimalCore fuel (n / 10) (⟨n % 10, Nat.mod_lt n (by decide)⟩ :: acc)

/-- The decimal digits of `n`, most significant first, without leading zeros
(`0` is written `0`). -/
def decimal (n : Nat) : List Digit := decimalCore (n + 1) n []

/-- The line that holds the literal `N`: a `-` when `N` is negative, the
decimal digits of its magnitude, and a newline. -/
def literalLine (N : Int) : List Byte :=
  (if N < 0 then [45] else []) ++ (digits (decimal N.natAbs) ++ [10])

/-- What is left to parse: the unread bytes, plus one for a lookahead token
that is not the end-of-file value. -/
def remaining (st : State) : Nat :=
  st.stdin.length + (if st.curToken = EOF then 0 else 1)

/-- A fault that the parser functions can raise. -/
def ParseFault (e : Fault) : Prop :=
  e = .factorExit ∨ e = .matchExit ∨ e = .outOfFuel

/-- The result `r` of a parser function is not a used-up budget, and a
successful result leaves at least `k` less to parse than `m`. -/
def Within (m k : Nat) (r : Except Fault (tree_t × State)) : Prop :=
  r ≠ .error .outOfFuel ∧ ∀ t st2, r = .ok (t, st2) → remaining st2 + k ≤ m

/-- The root is a binary node: its type is one of `+`, `-`, `*`, `/` and both
children are present. -/
def IsBinary : tree_t → Prop
  | .NULL => False
  | .node ty _ l r => (ty = 43 ∨ ty = 45 ∨ ty = 42 ∨ ty = 47) ∧ IsNode l ∧ IsNode r

/-- The root is a unary minus node: its type is `-`, the left child is present
and the right child is null. -/
def IsUnaryMinus : tree_t → Prop
  | .NULL => False
  | .node ty _ l r => ty = 45 ∧ IsNode l ∧ r = .NULL

/-- The root is a literal node: its type is `NUM` and both children are null. -/
def IsLiteral : tree_t → Prop
  | .NULL => False
  | .node ty _ l r => ty = NUM ∧ l = .NULL ∧ r = .NULL

/-- Exactly one of the three node shapes holds at the root. -/
def NodeShape (t : tree_t) : Prop :=
  (IsBinary t ∧ ¬ IsUnaryMinus t ∧ ¬ IsLiteral t)
    ∨ (¬ IsBinary t ∧ IsUnaryMinus t ∧ ¬ IsLiteral t)
    ∨ (¬ IsBinary t ∧ ¬ IsUnaryMinus t ∧ IsLiteral t)

/-- The node-shape invariant holds at every node of the tree. -/
def WellShaped : tree_t → Prop
  | .NULL => True
  | .node ty av l r => NodeShape (.node ty av l r) ∧ WellShaped l ∧ WellShaped r

/-- A type that one of the `case` labels of `tree_eval` handles. -/
def KnownType (ty : Int) : Prop :=
  ty = 43 ∨ ty = 45 ∨ ty = 42 ∨ ty = 47 ∨ ty = NUM

/-- The tree that `2147483647+1` parses to. -/
def overflowingSum : tree_t :=
  mktree 43 (.node NUM (some 2147483647) .NULL .NULL) (.node NUM (some 1) .NULL .NULL)

/-- The expression `e` wrapped in `k` pairs of parentheses. -/
def parenthesized : Nat → Expression → Expression
  | 0, e => e
  | k + 1, e => .mk (.mk (.paren [] (parenthesized k e) []) .nil) .nil

/-- Two results of a parser function agree up to `R`: the same fault, or the
same tree with final states related by `R`. -/
def Sim (R : State → State → Prop) (r r2 : Except Fault (tree_t × State)) : Prop :=
  match r, r2 with
  | .ok p, .ok q => p.1 = q.1 ∧ R p.2 q.2
  | .error e, .error e2 => e = e2
  | _, _ => False

/-- The place between `p` and `q` is not inside a run of digits, when
`prevDigit` tells whether the character before `p` is a digit. -/
def boundaryAfter (prevDigit : Bool) : List Byte → List Byte → Prop
  | [], q => ¬ (prevDigit = true ∧ startsWithDigit q = true)
  | y :: p, q => boundaryAfter (isdigit y.val) p q

/-- The place between `p` and `q` is not inside a run of digits: `p` does not
end with a digit or `q` does not begin with one. -/
def Boundary (p q : List Byte) : Prop := boundaryAfter false p q

/-- The input `inp2` is `inp` itself, or `inp` with the blanks `b` inserted at
a place that is not inside a run of digits. -/
def Inserted (b : List Blank) (inp inp2 : List Byte) : Prop :=
  inp = inp2 ∨ ∃ p q, Boundary p q ∧ inp = p ++ q ∧ inp2 = p ++ (blanks b ++ q)

/-- Two states with the same lookahead and attribute whose unread inputs
differ by the inserted blanks `b`. -/
def InsertedState (b : List Blank) (s s2 : State) : Prop :=
  s.curToken = s2.curToken ∧ s.curAttribute = s2.curAttribute
    ∧ Inserted b s.stdin s2.stdin

/-- Two states of runs on inputs that agree up to and including their first
newline and continue with `rest1` and `rest2`: the same lookahead and
attribute, and either the same unread part of the line, or the newline has
been scanned and only what follows the line is unread. -/
def SameLine (rest1 rest2 : List Byte) (s s2 : State) : Prop :=
  s.curToken = s2.curToken ∧ s.curAttribute = s2.curAttribute
    ∧ ((∃ u, (10 : Byte) ∉ u ∧ s.stdin = u ++ 10 :: rest1 ∧ s2.stdin = u ++ 10 :: rest2)
      ∨ (s.curToken = EOS ∧ s.stdin = rest1 ∧ s2.stdin = rest2))

/-- The first `k` tokens that successive calls of `getNextToken` return, each
with the value of `curAttribute` after the call. -/
def tokenStream : Nat → State → List (Int × Int)
  | 0, _ => []
  | k + 1, st =>
    ((getNextToken st).1, (getNextToken st).2.curAttribute)
      :: tokenStream k (getNextToken st).2

/-- The whole input is exactly one well-formed expression followed by a
newline: the expression, optional blanks, the newline, and nothing after it. -/
def ExactlyOneLine (stdin : List Byte) : Prop :=
  ∃ (e : Expression) (b : List Blank), stdin = renderE e ++ (blanks b ++ [10])

/-- Sequencing of two steps of `tree_eval_flow`: after the step `a` has
returned a value the run goes on with `f` on that value and the two records are
joined; a fault in `a` ends the run with the record made so far. -/
def flowBind (a : Bool × Except Fault Int) (f : Int → Bool × Except Fault Int) :
    Bool × Except Fault Int :=
  match a.2 with
  | .error e => (a.1, .error e)
  | .ok v => (a.1 || (f v).1, (f v).2)

/-- The evaluator `tree_eval` of `tree.c` once more, run with a record of its
control flow: next to what the run returns, the Boolean tells whether some call
left the `switch` by the `default` branch and went on to `return -1000000;`. -/
def tree_eval_flow : tree_t → Bool × Except Fault Int
  | .NULL => (false, .error .assertRoot)
  | .node type attr leftChild rightChild =>
    if type = 43 then
      flowBind (tree_eval_flow leftChild) fun leftValue =>
      flowBind (tree_eval_flow rightChild) fun rightValue =>
      (false, .ok (add32 leftValue rightValue))
    else if type = 45 then
      flowBind (tree_eval_flow leftChild) fun leftValue =>
      match rightChild with
      | .NULL => (false, .ok (neg32 leftValue))
      | .node _ _ _ _ =>
        flowBind (tree_eval_flow rightChild) fun rightValue =>
        (false, .ok (sub32 leftValue rightValue))
    else if type = 42 then
      flowBind (tree_eval_flow leftChild) fun leftValue =>
      flowBind (tree_eval_flow rightChild) fun rightValue =>
      (false, .ok (mul32 leftValue rightValue))
    else if type = 47 then
      flowBind (tree_eval_flow leftChild) fun leftValue =>
      flowBind (tree_eval_flow rightChild) fun rightValue =>
      (false, div32 leftValue rightValue)
    else if type = NUM then
      match attr with
      | some v => (false, .ok v)
      | none => (false, .error .indeterminate)
    else (true, .ok (-1000000))

/-- A tree whose root has a type that no `case` label of `tree_eval` handles. -/
def strayNode : tree_t := mktree 0 .NULL .NULL

/-! ## Machine arithmetic -/

theorem wrap_of_representable {v : Int} (h1 : INT_MIN ≤ v) (h2 : v ≤ INT_MAX) :
    wrap v = v := by
  unfold INT_MIN at h1
  unfold INT_MAX at h2
  unfold wrap
  omega

theorem wrap_wrap (v : Int) : wrap (wrap v) = wrap v := by
  unfold wrap
  omega

theorem wrap_range (v : Int) : INT_MIN ≤ wrap v ∧ wrap v ≤ INT_MAX := by
  unfold wrap INT_MIN INT_MAX
  omega

theorem digit_step (v c : Int) :
    sub32 (add32 (mul32 10 v) c) 48 = wrap (10 * v + c - 48) := by
  unfold sub32 add32 mul32 wrap
  omega

theorem wrap_step (v c : Int) :
    wrap (10 * wrap v + c - 48) = wrap (10 * v + c - 48) := by
  unfold wrap
  omega

theorem representable_eq_some {v w : Int} (h : representable v = some w) :
    w = v ∧ INT_MIN ≤ v ∧ v ≤ INT_MAX := by
  unfold representable at h
  split at h
  · rename_i hr
    exact ⟨(Option.some.inj h).symm, hr.1, hr.2⟩
  · exact absurd h (by simp)

/-! ## The scanner on blanks, operators and digit runs -/

theorem blankByte_val (x : Blank) :
    ((blankByte x).val : Int) = 32 ∨ ((blankByte x).val : Int) = 9 := by
  cases x
  · left; rfl
  · right; rfl

theorem digitByte_val (d : Digit) : ((digitByte d).val : Int) = 48 + (d.val : Int) := by
  simp [digitByte]

theorem isdigit_digitByte (d : Digit) : isdigit (digitByte d).val = true := by
  have h := d.isLt
  simp [isdigit, digitByte]
  omega

theorem scanToken_blanks (a : Int) (b : List Blank) (inp : List Byte) :
    scanToken a (blanks b ++ inp) = scanToken a inp := by
  induction b with
  | nil => rfl
  | cons x xs ih =>
    have hx := blankByte_val x
    show scanToken a (blankByte x :: (blanks xs ++ inp)) = _
    rw [scanToken]
    simp only [hx, if_true]
    exact ih

theorem scanDigits_rest (v : Int) (inp : List Byte) :
    (scanDigits v inp).2 = inp.dropWhile isDigitByte := by
  induction inp generalizing v with
  | nil => rfl
  | cons b bs ih =>
    rw [scanDigits]
    by_cases h : isdigit b.val = true
    · rw [if_pos h, ih, List.dropWhile_cons_of_pos (by simpa [isDigitByte] using h)]
    · rw [if_neg h, List.dropWhile_cons_of_neg (by simpa [isDigitByte] using h)]

theorem scanDigits_value (v : Int) (inp : List Byte) :
    (scanDigits (wrap v) inp).1 = wrap (accumulate v (inp.takeWhile isDigitByte)) := by
  induction inp generalizing v with
  | nil => rfl
  | cons b bs ih =>
    rw [scanDigits]
    by_cases h : isdigit b.val = true
    · rw [if_pos h, List.takeWhile_cons_of_pos (by simpa [isDigitByte] using h),
        digit_step, wrap_step, ih]
      rfl
    · rw [if_neg h, List.takeWhile_cons_of_neg (by simpa [isDigitByte] using h)]
      rfl

theorem isDigitByte_digitByte (d : Digit) : isDigitByte (digitByte d) = true :=
  isdigit_digitByte d

theorem takeWhile_digits (ds : List Digit) (rest : List Byte)
    (h : startsWithDigit rest = false) :
    (digits ds ++ rest).takeWhile isDigitByte = digits ds := by
  induction ds with
  | nil =>
    cases rest with
    | nil => rfl
    | cons b bs => exact List.takeWhile_cons_of_neg (by simpa [startsWithDigit, isDigitByte] using h)
  | cons d ds ih =>
    show List.takeWhile isDigitByte (digitByte d :: (digits ds ++ rest)) = _
    rw [List.takeWhile_cons_of_pos (isDigitByte_digitByte d), ih]
    rfl

theorem dropWhile_digits (ds : List Digit) (rest : List Byte)
    (h : startsWithDigit rest = false) :
    (digits ds ++ rest).dropWhile isDigitByte = rest := by
  induction ds with
  | nil =>
    cases rest with
    | nil => rfl
    | cons b bs => exact List.dropWhile_cons_of_neg (by simpa [startsWithDigit, isDigitByte] using h)
  | cons d ds ih =>
    show List.dropWhile isDigitByte (digitByte d :: (digits ds ++ rest)) = _
    rw [List.dropWhile_cons_of_pos (isDigitByte_digitByte d), ih]

theorem accumulate_digits (ds : List Digit) (v : Nat) :
    accumulate (v : Int) (digits ds)
      = ((ds.foldl (fun acc d => 10 * acc + d.val) v : Nat) : Int) := by
  induction ds generalizing v with
  | nil => rfl
  | cons d ds ih =>
    show accumulate (10 * (v : Int) + ((digitByte d).val : Int) - 48) (digits ds) = _
    rw [digitByte_val]
    have : 10 * (v : Int) + (48 + (d.val : Int)) - 48 = ((10 * v + d.val : Nat) : Int) := by
      push_cast
      ring
    rw [this, ih]
    rfl

theorem accumulate_digits_zero (ds : List Digit) :
    accumulate 0 (digits ds) = (decimalValue ds : Int) := by
  have h := accumulate_digits ds 0
  simpa [decimalValue] using h

theorem scanToken_digit (a : Int) (b : Byte) (bs : List Byte) (h : isdigit b.val = true) :
    scanToken a (b :: bs)
      = (NUM, wrap (accumulate 0 (b :: bs.takeWhile isDigitByte)),
          bs.dropWhile isDigitByte) := by
  have hb : (48 : Int) ≤ b.val ∧ (b.val : Int) ≤ 57 := by
    simpa [isdigit] using h
  rw [scanToken]
  have h1 : ¬ ((b.val : Int) = 32 ∨ (b.val : Int) = 9) := by omega
  have h2 : ¬ ((b.val : Int) = 10) := by omega
  have h3 : ¬ ((b.val : Int) = 43) := by omega
  have h4 : ¬ ((b.val : Int) = 45) := by omega
  have h5 : ¬ ((b.val : Int) = 42) := by omega
  have h6 : ¬ ((b.val : Int) = 47) := by omega
  have h7 : ¬ ((b.val : Int) = 40 ∨ (b.val : Int) = 41) := by omega
  simp only [h1, h2, h3, h4, h5, h6, h7, if_false, h, if_true]
  have hs : sub32 (b.val : Int) 48 = wrap ((b.val : Int) - 48) := rfl
  rw [hs, scanDigits_value, scanDigits_rest]
  have ha : accumulate 0 (b :: bs.takeWhile isDigitByte)
      = accumulate ((b.val : Int) - 48) (bs.takeWhile isDigitByte) := by
    show accumulate (10 * 0 + (b.val : Int) - 48) _ = _
    simp
  rw [ha]

theorem scanToken_digits (a : Int) (d : Digit) (ds : List Digit) (rest : List Byte)
    (h : startsWithDigit rest = false) :
    scanToken a (digits (d :: ds) ++ rest)
      = (NUM, wrap (decimalValue (d :: ds)), rest) := by
  show scanToken a (digitByte d :: (digits ds ++ rest)) = _
  rw [scanToken_digit a _ _ (isdigit_digitByte d), takeWhile_digits ds rest h,
    dropWhile_digits ds rest h]
  have : digitByte d :: digits ds = digits (d :: ds) := rfl
  rw [this, accumulate_digits_zero]

theorem scanToken_punct (a : Int) (b : Byte) (bs : List Byte) (h : IsPunct b) :
    scanToken a (b :: bs) = ((b.val : Int), a, bs) := by
  unfold IsPunct at h
  rw [scanToken]
  have h1 : ¬ ((b.val : Int) = 32 ∨ (b.val : Int) = 9) := by omega
  have h2 : ¬ ((b.val : Int) = 10) := by omega
  simp only [h1, h2, if_false]
  split_ifs <;> first | rfl | omega

theorem scanToken_newline (a : Int) (bs : List Byte) :
    scanToken a (10 :: bs) = (EOS, a, bs) := by
  rfl

theorem advance_eq_look (st : State) : advance st = look st.curAttribute st.stdin := rfl

theorem look_eq (a : Int) (inp : List Byte) :
    look a inp = ⟨(scanToken a inp).1, (scanToken a inp).2.1, (scanToken a inp).2.2⟩ := rfl

theorem scanToken_token (a : Int) (inp : List Byte) :
    (scanToken a inp).1 = nextToken inp := by
  unfold nextToken
  induction inp with
  | nil => rfl
  | cons b bs ih =>
    rw [scanToken, scanToken]
    split_ifs <;> first | rfl | exact ih

theorem look_curToken (a : Int) (inp : List Byte) :
    (look a inp).curToken = nextToken inp := scanToken_token a inp

theorem look_blanks (a : Int) (b : List Blank) (inp : List Byte) :
    look a (blanks b ++ inp) = look a inp := by
  rw [look_eq, look_eq, scanToken_blanks]

theorem look_punct (a : Int) (b : Byte) (bs : List Byte) (h : IsPunct b) :
    look a (b :: bs) = ⟨(b.val : Int), a, bs⟩ := by
  rw [look_eq, scanToken_punct a b bs h]

theorem look_newline (a : Int) (bs : List Byte) : look a (10 :: bs) = ⟨EOS, a, bs⟩ := rfl

theorem look_digits (a : Int) (d : Digit) (ds : List Digit) (rest : List Byte)
    (h : startsWithDigit rest = false) :
    look a (digits (d :: ds) ++ rest) = ⟨NUM, wrap (decimalValue (d :: ds)), rest⟩ := by
  rw [look_eq, scanToken_digits a d ds rest h]

theorem nextToken_blanks (b : List Blank) (inp : List Byte) :
    nextToken (blanks b ++ inp) = nextToken inp := by
  unfold nextToken
  rw [scanToken_blanks]

theorem nextToken_punct (b : Byte) (bs : List Byte) (h : IsPunct b) :
    nextToken (b :: bs) = (b.val : Int) := by
  unfold nextToken
  rw [scanToken_punct 0 b bs h]

/-! ## The parser accepts every derivation -/

theorem isdigit_blankByte (x : Blank) : isdigit (blankByte x).val = false := by
  cases x <;> rfl

theorem startsWithDigit_blanks_cons (b : List Blank) (x : Byte) (r : List Byte)
    (h : isdigit x.val = false) : startsWithDigit (blanks b ++ x :: r) = false := by
  cases b with
  | nil => exact h
  | cons y ys => exact isdigit_blankByte y

theorem isPunct_addByte (op : AddOp) : IsPunct (addByte op) := by
  cases op
  · left; rfl
  · right; left; rfl

theorem isPunct_mulByte (op : MulOp) : IsPunct (mulByte op) := by
  cases op
  · right; right; left; rfl
  · right; right; right; left; rfl

theorem isdigit_of_isPunct {x : Byte} (h : IsPunct x) : isdigit x.val = false := by
  unfold IsPunct at h
  simp only [isdigit, Bool.and_eq_false_imp, decide_eq_true_eq, decide_eq_false_iff_not]
  omega

theorem startsWithDigit_renderTT (tl : TermTail) (rest : List Byte)
    (h : startsWithDigit rest = false) : startsWithDigit (renderTT tl ++ rest) = false := by
  cases tl with
  | nil => simpa [renderTT] using h
  | cons b op f tl2 =>
    rw [renderTT, List.append_assoc, List.cons_append]
    exact startsWithDigit_blanks_cons b _ _ (isdigit_of_isPunct (isPunct_mulByte op))

theorem stopT_renderET (tl : ExpressionTail) (rest : List Byte) (h : StopE rest) :
    StopT (renderET tl ++ rest) := by
  cases tl with
  | nil => simpa [renderET] using h.1
  | cons b op t tl2 =>
    rw [renderET, List.append_assoc, List.cons_append]
    refine ⟨startsWithDigit_blanks_cons b _ _ (isdigit_of_isPunct (isPunct_addByte op)), ?_, ?_⟩
    · rw [nextToken_blanks, nextToken_punct _ _ (isPunct_addByte op)]
      cases op <;> decide
    · rw [nextToken_blanks, nextToken_punct _ _ (isPunct_addByte op)]
      cases op <;> decide

theorem stopE_close (b : List Blank) (rest : List Byte) :
    StopE (blanks b ++ 41 :: rest) := by
  have hp : IsPunct (41 : Byte) := by
    right; right; right; right; right; rfl
  have ht : nextToken (blanks b ++ 41 :: rest) = 41 := by
    rw [nextToken_blanks, nextToken_punct _ _ hp]
    rfl
  refine ⟨⟨startsWithDigit_blanks_cons b _ _ (isdigit_of_isPunct hp), ?_, ?_⟩, ?_, ?_⟩ <;>
    rw [ht] <;> decide

theorem stopE_newline (b : List Blank) (rest : List Byte) :
    StopE (blanks b ++ 10 :: rest) := by
  have ht : nextToken (blanks b ++ 10 :: rest) = EOS := by
    rw [nextToken_blanks]
    rfl
  refine ⟨⟨startsWithDigit_blanks_cons b _ _ (by rfl), ?_, ?_⟩, ?_, ?_⟩ <;>
    rw [ht] <;> decide

theorem look_paren_open (a : Int) (b : List Blank) (r : List Byte) :
    look a (blanks b ++ 40 :: r) = ⟨40, a, r⟩ := by
  rw [look_blanks, look_punct a 40 r (by right; right; right; right; left; rfl)]
  rfl

theorem look_paren_close (a : Int) (b : List Blank) (r : List Byte) :
    look a (blanks b ++ 41 :: r) = ⟨41, a, r⟩ := by
  rw [look_blanks, look_punct a 41 r (by right; right; right; right; right; rfl)]
  rfl

theorem look_minus (a : Int) (b : List Blank) (r : List Byte) :
    look a (blanks b ++ 45 :: r) = ⟨45, a, r⟩ := by
  rw [look_blanks, look_punct a 45 r (by right; left; rfl)]
  rfl

theorem look_addByte (a : Int) (b : List Blank) (op : AddOp) (r : List Byte) :
    look a (blanks b ++ addByte op :: r) = ⟨((addByte op).val : Int), a, r⟩ := by
  rw [look_blanks, look_punct a _ r (isPunct_addByte op)]

theorem look_mulByte (a : Int) (b : List Blank) (op : MulOp) (r : List Byte) :
    look a (blanks b ++ mulByte op :: r) = ⟨((mulByte op).val : Int), a, r⟩ := by
  rw [look_blanks, look_punct a _ r (isPunct_mulByte op)]

theorem look_blanks_newline (a : Int) (b : List Blank) (r : List Byte) :
    look a (blanks b ++ 10 :: r) = ⟨EOS, a, r⟩ := by
  rw [look_blanks, look_newline]

theorem match_look (tok a : Int) (r : List Byte) :
    match_ tok ⟨tok, a, r⟩ = .ok (look a r) := by
  simp [match_, advance_eq_look]

mutual

theorem expr_complete : ∀ (e : Expression) (n : Nat) (a : Int) (rest : List Byte),
    needE e ≤ n → StopE rest →
    ∃ a2, expr n (look a (renderE e ++ rest)) = .ok (treeE e, look a2 rest)
  | .mk t tl, n, a, rest, hn, hs => by
    rw [needE] at hn
    obtain ⟨m, rfl⟩ : ∃ m, n = m + 1 := ⟨n - 1, by omega⟩
    obtain ⟨a1, h1⟩ := term_complete t m a (renderET tl ++ rest) (by omega)
      (stopT_renderET tl rest hs)
    obtain ⟨a2, h2⟩ := exprTail_complete tl m a1 (treeT t) rest (by omega) hs
    refine ⟨a2, ?_⟩
    rw [renderE, List.append_assoc, expr, h1]
    simpa [bind, Except.bind, treeE] using h2

theorem exprTail_complete : ∀ (tl : ExpressionTail) (n : Nat) (a : Int) (value : tree_t)
    (rest : List Byte), needET tl ≤ n → StopE rest →
    ∃ a2, expr_loop n value (look a (renderET tl ++ rest))
      = .ok (treeET value tl, look a2 rest)
  | .nil, n, a, value, rest, hn, hs => by
    rw [needET] at hn
    obtain ⟨m, rfl⟩ : ∃ m, n = m + 1 := ⟨n - 1, by omega⟩
    refine ⟨a, ?_⟩
    have h43 := hs.2.1
    have h45 := hs.2.2
    rw [← look_curToken a rest] at h43 h45
    rw [renderET, List.nil_append, expr_loop]
    simp [h43, h45, treeET, pure, Except.pure]
  | .cons b op t tl, n, a, value, rest, hn, hs => by
    rw [needET] at hn
    obtain ⟨m, rfl⟩ : ∃ m, n = m + 1 := ⟨n - 1, by omega⟩
    obtain ⟨a1, h1⟩ := term_complete t m a (renderET tl ++ rest) (by omega)
      (stopT_renderET tl rest hs)
    obtain ⟨a2, h2⟩ := exprTail_complete tl m a1
      (mktree (addByte op).val value (treeT t)) rest (by omega) hs
    refine ⟨a2, ?_⟩
    rw [renderET, List.append_assoc, List.cons_append, List.append_assoc, look_addByte,
      expr_loop]
    cases op with
    | plus =>
      have hb : ((addByte AddOp.plus).val : Int) = 43 := rfl
      rw [hb] at h2 ⊢
      simp only [true_or, if_true, match_look, bind, Except.bind, h1]
      simpa [treeET] using h2
    | minus =>
      have hb : ((addByte AddOp.minus).val : Int) = 45 := rfl
      rw [hb] at h2 ⊢
      have hne : ¬ ((45 : Int) = 43) := by decide
      simp only [or_true, if_true, hne, if_false, match_look, bind, Except.bind, h1]
      simpa [treeET] using h2

theorem term_complete : ∀ (t : Term) (n : Nat) (a : Int) (rest : List Byte),
    needT t ≤ n → StopT rest →
    ∃ a2, term n (look a (renderT t ++ rest)) = .ok (treeT t, look a2 rest)
  | .mk f tl, n, a, rest, hn, hs => by
    rw [needT] at hn
    obtain ⟨m, rfl⟩ : ∃ m, n = m + 1 := ⟨n - 1, by omega⟩
    obtain ⟨a1, h1⟩ := factor_complete f m a (renderTT tl ++ rest) (by omega)
      (startsWithDigit_renderTT tl rest hs.1)
    obtain ⟨a2, h2⟩ := termTail_complete tl m a1 (treeF f) rest (by omega) hs
    refine ⟨a2, ?_⟩
    rw [renderT, List.append_assoc, term, h1]
    simpa [bind, Except.bind, treeT] using h2

theorem termTail_complete : ∀ (tl : TermTail) (n : Nat) (a : Int) (value : tree_t)
    (rest : List Byte), needTT tl ≤ n → StopT rest →
    ∃ a2, term_loop n value (look a (renderTT tl ++ rest))
      = .ok (treeTT value tl, look a2 rest)
  | .nil, n, a, value, rest, hn, hs => by
    rw [needTT] at hn
    obtain ⟨m, rfl⟩ : ∃ m, n = m + 1 := ⟨n - 1, by omega⟩
    refine ⟨a, ?_⟩
    have h42 := hs.2.1
    have h47 := hs.2.2
    rw [← look_curToken a rest] at h42 h47
    rw [renderTT, List.nil_append, term_loop]
    simp [h42, h47, treeTT, pure, Except.pure]
  | .cons b op f tl, n, a, value, rest, hn, hs => by
    rw [needTT] at hn
    obtain ⟨m, rfl⟩ : ∃ m, n = m + 1 := ⟨n - 1, by omega⟩
    obtain ⟨a1, h1⟩ := factor_complete f m a (renderTT tl ++ rest) (by omega)
      (startsWithDigit_renderTT tl rest hs.1)
    obtain ⟨a2, h2⟩ := termTail_complete tl m a1
      (mktree (mulByte op).val value (treeF f)) rest (by omega) hs
    refine ⟨a2, ?_⟩
    rw [renderTT, List.append_assoc, List.cons_append, List.append_assoc, look_mulByte,
      term_loop]
    cases op with
    | times =>
      have hb : ((mulByte MulOp.times).val : Int) = 42 := rfl
      rw [hb] at h2 ⊢
      simp only [true_or, if_true, match_look, bind, Except.bind, h1]
      simpa [treeTT] using h2
    | divide =>
      have hb : ((mulByte MulOp.divide).val : Int) = 47 := rfl
      rw [hb] at h2 ⊢
      have hne : ¬ ((47 : Int) = 42) := by decide
      simp only [or_true, if_true, hne, if_false, match_look, bind, Except.bind, h1]
      simpa [treeTT] using h2

theorem factor_complete : ∀ (f : Factor) (n : Nat) (a : Int) (rest : List Byte),
    needF f ≤ n → startsWithDigit rest = false →
    ∃ a2, factor n (look a (renderF f ++ rest)) = .ok (treeF f, look a2 rest)
  | .paren b e b2, n, a, rest, hn, hs => by
    rw [needF] at hn
    obtain ⟨m, rfl⟩ : ∃ m, n = m + 1 := ⟨n - 1, by omega⟩
    obtain ⟨a1, h1⟩ := expr_complete e m a (blanks b2 ++ 41 :: rest) (by omega)
      (stopE_close b2 rest)
    refine ⟨a1, ?_⟩
    have hr : renderF (.paren b e b2) ++ rest
        = blanks b ++ 40 :: (renderE e ++ (blanks b2 ++ 41 :: rest)) := by
      simp [renderF]
    rw [hr, look_paren_open, factor]
    simp only [if_true, match_look, bind, Except.bind, h1, look_paren_close, treeF, pure,
      Except.pure]
  | .neg b f, n, a, rest, hn, hs => by
    rw [needF] at hn
    obtain ⟨m, rfl⟩ : ∃ m, n = m + 1 := ⟨n - 1, by omega⟩
    obtain ⟨a1, h1⟩ := factor_complete f m a rest (by omega) hs
    refine ⟨a1, ?_⟩
    have hr : renderF (.neg b f) ++ rest = blanks b ++ 45 :: (renderF f ++ rest) := by
      simp [renderF]
    have hne : ¬ ((45 : Int) = 40) := by decide
    rw [hr, look_minus, factor]
    simp only [hne, if_false, if_true, match_look, bind, Except.bind, h1, treeF, pure,
      Except.pure]
  | .num b d ds, n, a, rest, hn, hs => by
    rw [needF] at hn
    obtain ⟨m, rfl⟩ : ∃ m, n = m + 1 := ⟨n - 1, by omega⟩
    refine ⟨wrap (decimalValue (d :: ds)), ?_⟩
    have hr : renderF (.num b d ds) ++ rest = blanks b ++ (digits (d :: ds) ++ rest) := by
      simp [renderF]
    have h40 : ¬ (NUM = 40) := by decide
    have h45 : ¬ (NUM = 45) := by decide
    rw [hr, look_blanks, look_digits a d ds rest hs, factor]
    simp only [h40, h45, if_false, if_true, match_look, bind, Except.bind, treeF, pure,
      Except.pure]

end

/-! ## The evaluator on the tree of a derivation -/

theorem isNode_mktree (ty : Int) (l r : tree_t) : IsNode (mktree ty l r) := trivial

mutual

theorem isNode_treeE : ∀ e : Expression, IsNode (treeE e)
  | .mk t tl => by
    rw [treeE]
    exact isNode_treeET tl _ (isNode_treeT t)

theorem isNode_treeET : ∀ (tl : ExpressionTail) (value : tree_t), IsNode value →
    IsNode (treeET value tl)
  | .nil, value, h => by
    rw [treeET]
    exact h
  | .cons _ op t tl, value, _ => by
    rw [treeET]
    exact isNode_treeET tl _ (isNode_mktree _ _ _)

theorem isNode_treeT : ∀ t : Term, IsNode (treeT t)
  | .mk f tl => by
    rw [treeT]
    exact isNode_treeTT tl _ (isNode_treeF f)

theorem isNode_treeTT : ∀ (tl : TermTail) (value : tree_t), IsNode value →
    IsNode (treeTT value tl)
  | .nil, value, h => by
    rw [treeTT]
    exact h
  | .cons _ op f tl, value, _ => by
    rw [treeTT]
    exact isNode_treeTT tl _ (isNode_mktree _ _ _)

theorem isNode_treeF : ∀ f : Factor, IsNode (treeF f)
  | .paren _ e _ => by
    rw [treeF]
    exact isNode_treeE e
  | .neg _ f => by
    rw [treeF]
    exact isNode_mktree _ _ _
  | .num _ d ds => by
    rw [treeF]
    trivial

end

theorem tree_eval_add (l r : tree_t) (x y : Int) (hl : tree_eval l = .ok x)
    (hr : tree_eval r = .ok y) : tree_eval (mktree 43 l r) = .ok (add32 x y) := by
  rw [mktree, tree_eval]
  simp [hl, hr, bind, Except.bind, pure, Except.pure]

theorem tree_eval_sub (l r : tree_t) (x y : Int) (hl : tree_eval l = .ok x)
    (hr : tree_eval r = .ok y) (hn : IsNode r) :
    tree_eval (mktree 45 l r) = .ok (sub32 x y) := by
  cases r with
  | NULL => exact absurd hn (by simp [IsNode])
  | node ty av rl rr =>
    rw [mktree, tree_eval]
    simp [hl, hr, bind, Except.bind, pure, Except.pure]

theorem tree_eval_neg (l : tree_t) (x : Int) (hl : tree_eval l = .ok x) :
    tree_eval (mktree 45 l .NULL) = .ok (neg32 x) := by
  rw [mktree, tree_eval]
  simp [hl, bind, Except.bind, pure, Except.pure]

theorem tree_eval_mul (l r : tree_t) (x y : Int) (hl : tree_eval l = .ok x)
    (hr : tree_eval r = .ok y) : tree_eval (mktree 42 l r) = .ok (mul32 x y) := by
  rw [mktree, tree_eval]
  simp [hl, hr, bind, Except.bind, pure, Except.pure]

theorem tree_eval_div (l r : tree_t) (x y : Int) (hl : tree_eval l = .ok x)
    (hr : tree_eval r = .ok y) : tree_eval (mktree 47 l r) = div32 x y := by
  rw [mktree, tree_eval]
  simp [hl, hr, bind, Except.bind]

theorem tree_eval_num (v : Int) :
    tree_eval (.node NUM (some v) .NULL .NULL) = .ok v := by
  rw [tree_eval]
  simp [NUM, pure, Except.pure]

theorem tree_eval_addByte (op : AddOp) (l r : tree_t) (x y w : Int)
    (hl : tree_eval l = .ok x) (hr : tree_eval r = .ok y) (hn : IsNode r)
    (hw : applyAdd op x y = some w) :
    tree_eval (mktree (addByte op).val l r) = .ok w := by
  cases op with
  | plus =>
    obtain ⟨rfl, h1, h2⟩ := representable_eq_some hw
    have hb : ((addByte AddOp.plus).val : Int) = 43 := rfl
    rw [hb, tree_eval_add l r x y hl hr, add32, wrap_of_representable h1 h2]
  | minus =>
    obtain ⟨rfl, h1, h2⟩ := representable_eq_some hw
    have hb : ((addByte AddOp.minus).val : Int) = 45 := rfl
    rw [hb, tree_eval_sub l r x y hl hr hn, sub32, wrap_of_representable h1 h2]

theorem tree_eval_mulByte (op : MulOp) (l r : tree_t) (x y w : Int)
    (hl : tree_eval l = .ok x) (hr : tree_eval r = .ok y)
    (hw : applyMul op x y = some w) :
    tree_eval (mktree (mulByte op).val l r) = .ok w := by
  cases op with
  | times =>
    obtain ⟨rfl, h1, h2⟩ := representable_eq_some hw
    have hb : ((mulByte MulOp.times).val : Int) = 42 := rfl
    rw [hb, tree_eval_mul l r x y hl hr, mul32, wrap_of_representable h1 h2]
  | divide =>
    have hb : ((mulByte MulOp.divide).val : Int) = 47 := rfl
    rw [hb, tree_eval_div l r x y hl hr]
    have hw2 : (if y = 0 then none else representable (Int.tdiv x y)) = some w := hw
    by_cases hy : y = 0
    · rw [if_pos hy] at hw2
      exact absurd hw2 (by simp)
    · rw [if_neg hy] at hw2
      obtain ⟨rfl, h1, h2⟩ := representable_eq_some hw2
      unfold div32
      rw [if_neg hy]
      have hq : ¬ (x = INT_MIN ∧ y = -1) := by
        rintro ⟨rfl, rfl⟩
        revert h2
        decide
      rw [if_neg hq]

mutual

theorem eval_treeE : ∀ (e : Expression) (v : Int), denoteE e = some v →
    tree_eval (treeE e) = .ok v
  | .mk t tl, v, h => by
    rw [denoteE] at h
    obtain ⟨u, hu, hv⟩ := Option.bind_eq_some.mp h
    rw [treeE]
    exact eval_treeET tl u (treeT t) v (eval_treeT t u hu) hv

theorem eval_treeET : ∀ (tl : ExpressionTail) (acc : Int) (value : tree_t) (v : Int),
    tree_eval value = .ok acc → denoteET acc tl = some v →
    tree_eval (treeET value tl) = .ok v
  | .nil, acc, value, v, hval, h => by
    rw [denoteET] at h
    rw [treeET, hval, Option.some.inj h]
  | .cons _ op t tl, acc, value, v, hval, h => by
    rw [denoteET] at h
    obtain ⟨u, hu, h2⟩ := Option.bind_eq_some.mp h
    obtain ⟨w, hw, hv⟩ := Option.bind_eq_some.mp h2
    rw [treeET]
    exact eval_treeET tl w _ v
      (tree_eval_addByte op value (treeT t) acc u w hval (eval_treeT t u hu)
        (isNode_treeT t) hw) hv

theorem eval_treeT : ∀ (t : Term) (v : Int), denoteT t = some v →
    tree_eval (treeT t) = .ok v
  | .mk f tl, v, h => by
    rw [denoteT] at h
    obtain ⟨u, hu, hv⟩ := Option.bind_eq_some.mp h
    rw [treeT]
    exact eval_treeTT tl u (treeF f) v (eval_treeF f u hu) hv

theorem eval_treeTT : ∀ (tl : TermTail) (acc : Int) (value : tree_t) (v : Int),
    tree_eval value = .ok acc → denoteTT acc tl = some v →
    tree_eval (treeTT value tl) = .ok v
  | .nil, acc, value, v, hval, h => by
    rw [denoteTT] at h
    rw [treeTT, hval, Option.some.inj h]
  | .cons _ op f tl, acc, value, v, hval, h => by
    rw [denoteTT] at h
    obtain ⟨u, hu, h2⟩ := Option.bind_eq_some.mp h
    obtain ⟨w, hw, hv⟩ := Option.bind_eq_some.mp h2
    rw [treeTT]
    exact eval_treeTT tl w _ v
      (tree_eval_mulByte op value (treeF f) acc u w hval (eval_treeF f u hu) hw) hv

theorem eval_treeF : ∀ (f : Factor) (v : Int), denoteF f = some v →
    tree_eval (treeF f) = .ok v
  | .paren _ e _, v, h => by
    rw [denoteF] at h
    rw [treeF]
    exact eval_treeE e v h
  | .neg _ f, v, h => by
    rw [denoteF] at h
    obtain ⟨u, hu, hv⟩ := Option.bind_eq_some.mp h
    obtain ⟨rfl, h1, h2⟩ := representable_eq_some hv
    rw [treeF, tree_eval_neg _ u (eval_treeF f u hu), neg32, wrap_of_representable h1 h2]
  | .num _ d ds, v, h => by
    rw [denoteF] at h
    obtain ⟨rfl, h1, h2⟩ := representable_eq_some h
    rw [treeF, tree_eval_num, wrap_of_representable h1 h2]

end

/-! ## The recursion budget of `main` covers every derivation -/

theorem length_blanks (b : List Blank) : (blanks b).length = b.length := by
  simp [blanks]

mutual

theorem needE_le : ∀ e : Expression, needE e ≤ 3 * (renderE e).length + 3
  | .mk t tl => by
    have h1 := needT_le t
    have h2 := needET_le tl
    rw [needE, renderE, List.length_append]
    omega

theorem needET_le : ∀ tl : ExpressionTail, needET tl ≤ 3 * (renderET tl).length + 1
  | .nil => by
    rw [needET]
    omega
  | .cons b op t tl => by
    have h1 := needT_le t
    have h2 := needET_le tl
    rw [needET, renderET, List.length_append, List.length_cons, List.length_append]
    omega

theorem needT_le : ∀ t : Term, needT t ≤ 3 * (renderT t).length + 2
  | .mk f tl => by
    have h1 := needF_le f
    have h2 := needTT_le tl
    rw [needT, renderT, List.length_append]
    omega

theorem needTT_le : ∀ tl : TermTail, needTT tl ≤ 3 * (renderTT tl).length + 1
  | .nil => by
    rw [needTT]
    omega
  | .cons b op f tl => by
    have h1 := needF_le f
    have h2 := needTT_le tl
    rw [needTT, renderTT, List.length_append, List.length_cons, List.length_append]
    omega

theorem needF_le : ∀ f : Factor, needF f ≤ 3 * (renderF f).length
  | .paren b e b2 => by
    have h1 := needE_le e
    rw [needF, renderF, List.length_append, List.length_cons, List.length_append,
      List.length_append, List.length_singleton]
    omega
  | .neg b f => by
    have h1 := needF_le f
    rw [needF, renderF, List.length_append, List.length_cons]
    omega
  | .num b d ds => by
    rw [needF, renderF, List.length_append, digits, List.map_cons, List.length_cons]
    omega

end

/-! ## The whole run -/

theorem main_eq (stdin : List Byte) :
    main stdin = (parseLine stdin).bind
      (fun r => if r.2.curToken = EOS then tree_eval r.1 else .error .assertEOS) := rfl

theorem parseLine_eq (stdin : List Byte) :
    parseLine stdin = expr (3 * stdin.length + 3) (look 0 stdin) := rfl

theorem parseLine_complete (e : Expression) (b : List Blank) (rest : List Byte) :
    ∃ a2, parseLine (renderE e ++ (blanks b ++ 10 :: rest)) = .ok (treeE e, ⟨EOS, a2, rest⟩) := by
  have hlen : needE e ≤ 3 * (renderE e ++ (blanks b ++ 10 :: rest)).length + 3 := by
    have h1 := needE_le e
    rw [List.length_append]
    omega
  obtain ⟨a2, h2⟩ := expr_complete e _ 0 (blanks b ++ 10 :: rest) hlen (stopE_newline b rest)
  exact ⟨a2, by rw [parseLine_eq, h2, look_blanks_newline]⟩

theorem main_of_parseLine {stdin : List Byte} {t : tree_t} {a : Int} {rest : List Byte}
    (h : parseLine stdin = .ok (t, ⟨EOS, a, rest⟩)) : main stdin = tree_eval t := by
  rw [main_eq, h]
  simp [Except.bind]

/-- C1: a line that is a well-formed expression of the grammar, with optional
blanks before each token and before the newline, whose standard value `v`
exists (no zero divisor, every literal and intermediate value representable)
makes `main` succeed with exactly `v`; the standard value folds `*` and `/`
inside a term before `+` and `-`, folds each repetition from the left, negates
for unary minus and truncates division. Whatever follows the newline does not
matter. -/
theorem main_wellformed (e : Expression) (b : List Blank) (rest : List Byte) (v : Int)
    (h : denoteE e = some v) :
    main (renderE e ++ (blanks b ++ 10 :: rest)) = .ok v := by
  obtain ⟨a2, h2⟩ := parseLine_complete e b rest
  rw [main_of_parseLine h2]
  exact eval_treeE e v h

/-- Witness of C1: the line `2 + 3*4` followed by a tab and a newline yields 14. -/
theorem main_wellformed_witness :
    denoteE sampleSum = some 14
      ∧ main (renderE sampleSum ++ (blanks [.tab] ++ 10 :: [])) = .ok 14 :=
  ⟨by decide, main_wellformed sampleSum [.tab] [] 14 (by decide)⟩

/-! ## Division by zero -/

theorem tree_eval_left_error (ty : Int) (av : Option Int) (l r : tree_t) (e : Fault)
    (hty : ty = 43 ∨ ty = 45 ∨ ty = 42 ∨ ty = 47) (hl : tree_eval l = .error e) :
    tree_eval (.node ty av l r) = .error e := by
  cases av <;> rcases hty with rfl | rfl | rfl | rfl <;> rw [tree_eval] <;>
    simp [hl, bind, Except.bind]

theorem tree_eval_right_error (ty : Int) (av : Option Int) (l r : tree_t) (x : Int)
    (e : Fault) (hty : ty = 43 ∨ ty = 45 ∨ ty = 42 ∨ ty = 47) (hl : tree_eval l = .ok x)
    (hn : IsNode r) (hr : tree_eval r = .error e) :
    tree_eval (.node ty av l r) = .error e := by
  cases r with
  | NULL => exact absurd hn (by simp [IsNode])
  | node rt ra rl rr =>
    cases av <;> rcases hty with rfl | rfl | rfl | rfl <;> rw [tree_eval] <;>
      simp [hl, hr, bind, Except.bind]

theorem tree_eval_reaches_error {t s : tree_t} (h : Reaches t s) (e : Fault)
    (hs : tree_eval s = .error e) : tree_eval t = .error e := by
  induction h with
  | here t => exact hs
  | left ty av l r s hty _ ih => exact tree_eval_left_error ty av l r e hty (ih hs)
  | right ty av l r s x hty hl hn _ ih =>
    exact tree_eval_right_error ty av l r x e hty hl hn (ih hs)

theorem tree_eval_zero_divisor (av : Option Int) (l r : tree_t)
    (hr : tree_eval r = .ok 0) :
    (∃ e, tree_eval (.node 47 av l r) = .error e)
      ∧ ∀ x, tree_eval l = .ok x → tree_eval (.node 47 av l r) = .error .divideFault := by
  constructor
  · cases hl : tree_eval l with
    | error e => exact ⟨e, tree_eval_left_error 47 av l r e (by simp) hl⟩
    | ok x =>
      refine ⟨.divideFault, ?_⟩
      cases av <;> rw [tree_eval] <;> simp [hl, hr, bind, Except.bind, div32]
  · intro x hl
    cases av <;> rw [tree_eval] <;> simp [hl, hr, bind, Except.bind, div32]

/-- C3: if the evaluation of a tree reaches a `/` node whose right subtree
evaluates to zero, `tree_eval` returns no integer at all, in particular not the
sentinel -1000000, and it stops with the arithmetic fault of the division
whenever the left operand of that node has a value. -/
theorem tree_eval_division_by_zero (t l r : tree_t) (av : Option Int)
    (h : Reaches t (.node 47 av l r)) (hr : tree_eval r = .ok 0) :
    (∀ v, tree_eval t ≠ .ok v) ∧ tree_eval t ≠ .ok (-1000000)
      ∧ ∀ x, tree_eval l = .ok x → tree_eval t = .error .divideFault := by
  obtain ⟨⟨e, he⟩, hd⟩ := tree_eval_zero_divisor av l r hr
  have ht := tree_eval_reaches_error h e he
  refine ⟨?_, ?_, ?_⟩
  · intro v hv
    rw [ht] at hv
    exact Except.noConfusion hv
  · intro hv
    rw [ht] at hv
    exact Except.noConfusion hv
  · intro x hl
    exact tree_eval_reaches_error h _ (hd x hl)

/-- Witness of C3: the line `5/0` parses to a `/` node over the literals 5 and
0, and evaluating it stops with the division fault. -/
theorem tree_eval_division_by_zero_witness :
    parseLine (bytes "5/0\n") = .ok (fiveOverZero, ⟨EOS, 0, []⟩)
      ∧ main (bytes "5/0\n") = .error .divideFault
      ∧ (∀ v, tree_eval fiveOverZero ≠ .ok v) ∧ tree_eval fiveOverZero ≠ .ok (-1000000)
      ∧ ∀ x, tree_eval (.node NUM (some 5) .NULL .NULL) = .ok x →
          tree_eval fiveOverZero = .error .divideFault :=
  ⟨by decide, by decide,
    tree_eval_division_by_zero fiveOverZero _ _ none (Reaches.here _) (by decide)⟩

/-! ## Associativity and precedence -/

theorem renderET_ofList (l : List (List Blank × AddOp × Term)) :
    renderET (exprTailOfList l) = renderAddends l := by
  induction l with
  | nil => rw [exprTailOfList, renderET, renderAddends]
  | cons p l ih => rw [exprTailOfList, renderET, renderAddends, ih]

theorem renderTT_ofList (l : List (List Blank × MulOp × Factor)) :
    renderTT (termTailOfList l) = renderMultiplicands l := by
  induction l with
  | nil => rw [termTailOfList, renderTT, renderMultiplicands]
  | cons p l ih => rw [termTailOfList, renderTT, renderMultiplicands, ih]

theorem treeET_ofList (l : List (List Blank × AddOp × Term)) (value : tree_t) :
    treeET value (exprTailOfList l)
      = l.foldl (fun acc p => mktree (addByte p.2.1).val acc (treeT p.2.2)) value := by
  induction l generalizing value with
  | nil => rw [exprTailOfList, treeET, List.foldl_nil]
  | cons p l ih => rw [exprTailOfList, treeET, List.foldl_cons, ih]

theorem treeTT_ofList (l : List (List Blank × MulOp × Factor)) (value : tree_t) :
    treeTT value (termTailOfList l)
      = l.foldl (fun acc p => mktree (mulByte p.2.1).val acc (treeF p.2.2)) value := by
  induction l generalizing value with
  | nil => rw [termTailOfList, treeTT, List.foldl_nil]
  | cons p l ih => rw [termTailOfList, treeTT, List.foldl_cons, ih]

/-- C4: for terms `t1 op2 t2 ... opn tn` joined by `+` and `-`, `expr` returns
the tree nested to the left, `(..((t1 op2 t2) op3 t3)..) opn tn`, and `term`
does the same for factors joined by `*` and `/`, whenever the recursion budget
is what `main` supplies for these characters and the input that follows cannot
continue the expression; and the lines `1-2-3` and `8/4/2` evaluate to -4 and
to 1. -/
theorem left_associative (t1 : Term) (ts : List (List Blank × AddOp × Term))
    (f1 : Factor) (fs : List (List Blank × MulOp × Factor))
    (n : Nat) (a : Int) (rest : List Byte)
    (hn : 3 * (renderT t1 ++ renderAddends ts).length + 3 ≤ n)
    (hm : 3 * (renderF f1 ++ renderMultiplicands fs).length + 3 ≤ n)
    (hs : StopE rest) :
    (∃ a2, expr n (look a (renderT t1 ++ (renderAddends ts ++ rest)))
        = .ok (ts.foldl (fun acc p => mktree (addByte p.2.1).val acc (treeT p.2.2))
            (treeT t1), look a2 rest))
      ∧ (∃ a2, term n (look a (renderF f1 ++ (renderMultiplicands fs ++ rest)))
        = .ok (fs.foldl (fun acc p => mktree (mulByte p.2.1).val acc (treeF p.2.2))
            (treeF f1), look a2 rest))
      ∧ main (bytes "1-2-3\n") = .ok (-4) ∧ main (bytes "8/4/2\n") = .ok 1 := by
  refine ⟨?_, ?_, by decide, by decide⟩
  · have hneed := needE_le (.mk t1 (exprTailOfList ts))
    rw [renderE, renderET_ofList] at hneed
    obtain ⟨a2, h2⟩ := expr_complete (.mk t1 (exprTailOfList ts)) n a rest
      (le_trans hneed hn) hs
    rw [renderE, renderET_ofList, treeE, treeET_ofList, List.append_assoc] at h2
    exact ⟨a2, h2⟩
  · have hneed := needT_le (.mk f1 (termTailOfList fs))
    rw [renderT, renderTT_ofList] at hneed
    obtain ⟨a2, h2⟩ := term_complete (.mk f1 (termTailOfList fs)) n a rest
      (by omega) hs.1
    rw [renderT, renderTT_ofList, treeT, treeTT_ofList, List.append_assoc] at h2
    exact ⟨a2, h2⟩

/-- Witness of C4: the terms `1`, `-2`, `-3` and the factors `8`, `/4`, `/2`
before a newline, with budget 30. -/
theorem left_associative_witness :
    (∃ a2, expr 30 (look 0 (renderT sampleTerm
          ++ (renderAddends sampleAddends ++ (blanks [] ++ 10 :: []))))
        = .ok (sampleAddends.foldl
            (fun acc p => mktree (addByte p.2.1).val acc (treeT p.2.2)) (treeT sampleTerm),
            look a2 (blanks [] ++ 10 :: [])))
      ∧ (∃ a2, term 30 (look 0 (renderF (.num [] 8 [])
          ++ (renderMultiplicands sampleMultiplicands ++ (blanks [] ++ 10 :: []))))
        = .ok (sampleMultiplicands.foldl
            (fun acc p => mktree (mulByte p.2.1).val acc (treeF p.2.2))
            (treeF (.num [] 8 [])), look a2 (blanks [] ++ 10 :: [])))
      ∧ main (bytes "1-2-3\n") = .ok (-4) ∧ main (bytes "8/4/2\n") = .ok 1 :=
  left_associative sampleTerm sampleAddends (.num [] 8 []) sampleMultiplicands
    30 0 (blanks [] ++ 10 :: []) (by decide) (by decide) (stopE_newline [] [])

/-- C5: for all factors `a`, `b`, `c`, the line `a+b*c` parses to the `+` node
over `a` and the `*` node over `b` and `c`, while `(a+b)*c` parses to the `*`
node over the `+` node of `a` and `b`, and over `c`; the lines `2+3*4` and
`(2+3)*4` evaluate to 14 and to 20. -/
theorem precedence (fa fb fc : Factor) (rest : List Byte) :
    (∃ a2, parseLine (renderF fa ++ 43 :: (renderF fb ++ 42 :: (renderF fc ++ 10 :: rest)))
        = .ok (mktree 43 (treeF fa) (mktree 42 (treeF fb) (treeF fc)), ⟨EOS, a2, rest⟩))
      ∧ (∃ a2, parseLine (40 :: (renderF fa ++ 43 :: (renderF fb
            ++ 41 :: 42 :: (renderF fc ++ 10 :: rest))))
        = .ok (mktree 42 (mktree 43 (treeF fa) (treeF fb)) (treeF fc), ⟨EOS, a2, rest⟩))
      ∧ main (bytes "2+3*4\n") = .ok 14 ∧ main (bytes "(2+3)*4\n") = .ok 20 := by
  refine ⟨?_, ?_, by decide, by decide⟩
  · obtain ⟨a2, h2⟩ := parseLine_complete
      (.mk (.mk fa .nil) (.cons [] .plus (.mk fb (.cons [] .times fc .nil)) .nil)) [] rest
    refine ⟨a2, ?_⟩
    simpa [renderE, renderET, renderT, renderTT, treeE, treeET, treeT, treeTT, blanks,
      addByte, mulByte] using h2
  · obtain ⟨a2, h2⟩ := parseLine_complete
      (.mk (.mk (.paren [] (.mk (.mk fa .nil) (.cons [] .plus (.mk fb .nil) .nil)) [])
        (.cons [] .times fc .nil)) .nil) [] rest
    refine ⟨a2, ?_⟩
    simpa [renderE, renderET, renderT, renderTT, renderF, treeE, treeET, treeT, treeTT,
      treeF, blanks, addByte, mulByte] using h2

/-- C6: with `-` as lookahead, `factor` consumes it, parses one further factor
and returns the `-` node over that factor's tree with no right child; so the
line `-a*b` parses to the `*` node over the negation of `a` and over `b`, and
`-a+b` to the `+` node over the negation of `a` and over `b`; the lines `-5+3`,
`--5` and `-(2+3)` evaluate to -2, 5 and -5. -/
theorem unary_minus (fa fb : Factor) (n : Nat) (a : Int) (inp rest : List Byte) :
    factor (n + 1) ⟨45, a, inp⟩
        = (match factor n (look a inp) with
          | .ok r => .ok (mktree 45 r.1 .NULL, r.2)
          | .error e => .error e)
      ∧ (∃ a2, parseLine (45 :: (renderF fa ++ 42 :: (renderF fb ++ 10 :: rest)))
        = .ok (mktree 42 (mktree 45 (treeF fa) .NULL) (treeF fb), ⟨EOS, a2, rest⟩))
      ∧ (∃ a2, parseLine (45 :: (renderF fa ++ 43 :: (renderF fb ++ 10 :: rest)))
        = .ok (mktree 43 (mktree 45 (treeF fa) .NULL) (treeF fb), ⟨EOS, a2, rest⟩))
      ∧ main (bytes "-5+3\n") = .ok (-2) ∧ main (bytes "--5\n") = .ok 5
      ∧ main (bytes "-(2+3)\n") = .ok (-5) := by
  refine ⟨?_, ?_, ?_, by decide, by decide, by decide⟩
  · have hne : ¬ ((45 : Int) = 40) := by decide
    rw [factor]
    simp only [hne, if_false, if_true, match_look, bind, Except.bind]
    cases factor n (look a inp) <;> rfl
  · obtain ⟨a2, h2⟩ := parseLine_complete
      (.mk (.mk (.neg [] fa) (.cons [] .times fb .nil)) .nil) [] rest
    refine ⟨a2, ?_⟩
    simpa [renderE, renderET, renderT, renderTT, renderF, treeE, treeET, treeT, treeTT,
      treeF, blanks, mulByte] using h2
  · obtain ⟨a2, h2⟩ := parseLine_complete
      (.mk (.mk (.neg [] fa) .nil) (.cons [] .plus (.mk fb .nil) .nil)) [] rest
    refine ⟨a2, ?_⟩
    simpa [renderE, renderET, renderT, renderTT, renderF, treeE, treeET, treeT, treeTT,
      treeF, blanks, addByte] using h2

/-! ## Division -/

theorem tdiv_eq_quotientTowardZero (x y : Int) : Int.tdiv x y = quotientTowardZero x y := by
  unfold quotientTowardZero
  obtain ⟨m, rfl | rfl⟩ := Int.eq_nat_or_neg x <;>
    obtain ⟨k, rfl | rfl⟩ := Int.eq_nat_or_neg y <;>
    rcases Nat.eq_zero_or_pos m with rfl | hm <;>
    rcases Nat.eq_zero_or_pos k with rfl | hk <;>
    simp [Int.sign_eq_one_of_pos, Int.sign_eq_neg_one_of_neg, Int.ofNat_tdiv, *] <;>
    exact Int.tdiv_eq_ediv (Int.ofNat_nonneg m) (Int.ofNat_nonneg k)

set_option maxRecDepth 100000 in
/-- Counterexample to C7 as stated: the operands -2147483648 and -1 have a
non-zero divisor, yet `tree_eval` of the `/` node does not return their
quotient rounded toward zero (2147483648 is not a machine `int`); the line
holding `(-2147483647-1)` divided by `-1` reaches this node and stops with the
division fault. -/
theorem division_counterexample :
    parseLine (bytes "(-2147483647-1)/-1\n")
        = .ok (mktree 47 mostNegative minusOne, ⟨EOS, 1, []⟩)
      ∧ tree_eval mostNegative = .ok (-2147483648) ∧ tree_eval minusOne = .ok (-1)
      ∧ tree_eval (mktree 47 mostNegative minusOne)
          ≠ .ok (quotientTowardZero (-2147483648) (-1))
      ∧ main (bytes "(-2147483647-1)/-1\n") = .error .divideFault := by
  refine ⟨by decide, by decide, by decide, ?_, by decide⟩
  have h : tree_eval (mktree 47 mostNegative minusOne) = .error .divideFault := by decide
  rw [h]
  exact fun hc => Except.noConfusion hc

/-- C7, amended: for every pair of operand values with a non-zero divisor,
other than -2147483648 divided by -1, `tree_eval` of a `/` node returns the
quotient of the left value by the right value rounded toward zero; the lines
`7/2` and `-7/2` evaluate to 3 and to -3. -/
theorem division_truncates (l r : tree_t) (x y : Int)
    (hl : tree_eval l = .ok x) (hr : tree_eval r = .ok y) (hy : y ≠ 0)
    (hxy : ¬ (x = INT_MIN ∧ y = -1)) :
    tree_eval (mktree 47 l r) = .ok (quotientTowardZero x y)
      ∧ main (bytes "7/2\n") = .ok 3 ∧ main (bytes "-7/2\n") = .ok (-3) := by
  refine ⟨?_, by decide, by decide⟩
  rw [tree_eval_div l r x y hl hr, div32, if_neg hy, if_neg hxy, tdiv_eq_quotientTowardZero]

/-- Witness of C7: -7 divided by 2 is -3. -/
theorem division_truncates_witness :
    tree_eval (mktree 47 (mktree 45 (.node NUM (some 7) .NULL .NULL) .NULL)
        (.node NUM (some 2) .NULL .NULL)) = .ok (quotientTowardZero (-7) 2)
      ∧ main (bytes "7/2\n") = .ok 3 ∧ main (bytes "-7/2\n") = .ok (-3) :=
  division_truncates (mktree 45 (.node NUM (some 7) .NULL .NULL) .NULL)
    (.node NUM (some 2) .NULL .NULL) (-7) 2 (by decide) (by decide) (by decide) (by decide)

/-! ## The scanner on numbers -/

theorem getNextToken_eq (st : State) :
    getNextToken st
      = ((scanToken st.curAttribute st.stdin).1,
          { st with curAttribute := (scanToken st.curAttribute st.stdin).2.1,
                    stdin := (scanToken st.curAttribute st.stdin).2.2 }) := rfl

theorem getNextToken_token (st : State) :
    (getNextToken st).1 = (scanToken st.curAttribute st.stdin).1 := rfl

theorem getNextToken_curToken (st : State) :
    (getNextToken st).2.curToken = st.curToken := rfl

theorem getNextToken_curAttribute (st : State) :
    (getNextToken st).2.curAttribute = (scanToken st.curAttribute st.stdin).2.1 := rfl

theorem getNextToken_stdin (st : State) :
    (getNextToken st).2.stdin = (scanToken st.curAttribute st.stdin).2.2 := rfl

set_option maxRecDepth 100000 in
/-- Counterexample to C9 as stated: on the ten-digit run `2147483648` the
scanner returns `NUM` with the attribute -2147483648, which is negative and is
not the base-10 value of the run. -/
theorem scan_number_counterexample :
    getNextToken (initial (bytes "2147483648\n"))
        = (NUM, ⟨0, -2147483648, bytes "\n"⟩)
      ∧ ¬ (0 ≤ (getNextToken (initial (bytes "2147483648\n"))).2.curAttribute)
      ∧ (getNextToken (initial (bytes "2147483648\n"))).2.curAttribute
          ≠ (decimalValue [2, 1, 4, 7, 4, 8, 3, 6, 4, 8] : Int)
      ∧ bytes "2147483648\n" = digits [2, 1, 4, 7, 4, 8, 3, 6, 4, 8] ++ [10] := by
  decide

/-- C9, amended: when the next non-blank characters of the input are a run of
one or more digits, ended by a character that is not a digit or by the end of
the input, `getNextToken` returns `NUM` and leaves the input at the end of the
run; `curAttribute` is the base-10 value of the whole run, and is
non-negative, exactly when that value is at most 2147483647, whatever the
length of the run. -/
theorem scan_number (st : State) (b : List Blank) (d : Digit) (ds : List Digit)
    (rest : List Byte) (hin : st.stdin = blanks b ++ (digits (d :: ds) ++ rest))
    (hrest : startsWithDigit rest = false) :
    (getNextToken st).1 = NUM
      ∧ (getNextToken st).2.stdin = rest
      ∧ (getNextToken st).2.curToken = st.curToken
      ∧ ((getNextToken st).2.curAttribute = (decimalValue (d :: ds) : Int)
          ↔ (decimalValue (d :: ds) : Int) ≤ INT_MAX)
      ∧ ((decimalValue (d :: ds) : Int) ≤ INT_MAX → 0 ≤ (getNextToken st).2.curAttribute) := by
  have hs : scanToken st.curAttribute st.stdin
      = (NUM, wrap (decimalValue (d :: ds)), rest) := by
    rw [hin, scanToken_blanks]
    exact scanToken_digits st.curAttribute d ds rest hrest
  have hv : (0 : Int) ≤ (decimalValue (d :: ds) : Int) := Int.ofNat_nonneg _
  have hlow : INT_MIN ≤ (decimalValue (d :: ds) : Int) := by
    unfold INT_MIN
    omega
  have hup := (wrap_range (decimalValue (d :: ds))).2
  have hfix : (decimalValue (d :: ds) : Int) ≤ INT_MAX →
      wrap (decimalValue (d :: ds)) = (decimalValue (d :: ds) : Int) :=
    fun h => wrap_of_representable hlow h
  generalize wrap (decimalValue (d :: ds) : Int) = w at hs hup hfix
  generalize (decimalValue (d :: ds) : Int) = v at hv hup hfix
  rw [getNextToken_token, getNextToken_stdin, getNextToken_curToken,
    getNextToken_curAttribute, hs]
  refine ⟨rfl, rfl, rfl, ?_, ?_⟩
  · show w = v ↔ v ≤ INT_MAX
    constructor
    · intro h
      rw [← h]
      exact hup
    · exact hfix
  · intro h
    show 0 ≤ w
    rw [hfix h]
    exact hv

/-- Witness of C9: two blanks, the run `0042` and a `+`. -/
theorem scan_number_witness :
    (getNextToken ⟨0, 0, blanks [.space, .tab] ++ (digits [0, 0, 4, 2] ++ [43])⟩).1 = NUM
      ∧ (getNextToken ⟨0, 0, blanks [.space, .tab] ++ (digits [0, 0, 4, 2] ++ [43])⟩).2.stdin
          = [43]
      ∧ (getNextToken ⟨0, 0, blanks [.space, .tab]
            ++ (digits [0, 0, 4, 2] ++ [43])⟩).2.curToken = 0
      ∧ ((getNextToken ⟨0, 0, blanks [.space, .tab]
            ++ (digits [0, 0, 4, 2] ++ [43])⟩).2.curAttribute
            = (decimalValue [0, 0, 4, 2] : Int)
          ↔ (decimalValue [0, 0, 4, 2] : Int) ≤ INT_MAX)
      ∧ ((decimalValue [0, 0, 4, 2] : Int) ≤ INT_MAX →
          0 ≤ (getNextToken ⟨0, 0, blanks [.space, .tab]
            ++ (digits [0, 0, 4, 2] ++ [43])⟩).2.curAttribute) :=
  scan_number ⟨0, 0, blanks [.space, .tab] ++ (digits [0, 0, 4, 2] ++ [43])⟩
    [.space, .tab] 0 [0, 4, 2] [43] rfl (by decide)

theorem startsWithDigit_dropWhile (l : List Byte) :
    startsWithDigit (l.dropWhile isDigitByte) = false := by
  induction l with
  | nil => rfl
  | cons x xs ih =>
    by_cases h : isDigitByte x = true
    · rw [List.dropWhile_cons_of_pos h]
      exact ih
    · rw [List.dropWhile_cons_of_neg h]
      simpa [startsWithDigit, isDigitByte] using h

/-- C10: when the scanner meets a digit after optional blanks it returns `NUM`
and leaves as unread input exactly what follows the maximal run of digits: the
blanks, the run and the unread input make up the input it started from, the
unread input does not begin with a digit (so a run is never split into two
`NUM` tokens), and its first character is the first non-digit after the run,
read first by the next call; the line `12+3` scans as `NUM` with attribute 12,
`+`, `NUM` with attribute 3, and `EOS`. -/
theorem maximal_munch (c a : Int) (b : List Blank) (d : Digit) (more : List Byte) :
    (getNextToken ⟨c, a, blanks b ++ digitByte d :: more⟩).1 = NUM
      ∧ (getNextToken ⟨c, a, blanks b ++ digitByte d :: more⟩).2.stdin
          = more.dropWhile isDigitByte
      ∧ blanks b ++ digitByte d :: (more.takeWhile isDigitByte
          ++ (getNextToken ⟨c, a, blanks b ++ digitByte d :: more⟩).2.stdin)
          = blanks b ++ digitByte d :: more
      ∧ startsWithDigit (getNextToken ⟨c, a, blanks b ++ digitByte d :: more⟩).2.stdin = false
      ∧ (getNextToken ⟨c, a, blanks b ++ digitByte d :: more⟩).2.stdin.head?
          = more.find? (fun x => !isDigitByte x)
      ∧ advance (initial (bytes "12+3\n")) = ⟨NUM, 12, bytes "+3\n"⟩
      ∧ advance ⟨NUM, 12, bytes "+3\n"⟩ = ⟨43, 12, bytes "3\n"⟩
      ∧ advance ⟨43, 12, bytes "3\n"⟩ = ⟨NUM, 3, bytes "\n"⟩
      ∧ advance ⟨NUM, 3, bytes "\n"⟩ = ⟨EOS, 3, []⟩ := by
  have hs : scanToken a (blanks b ++ digitByte d :: more)
      = (NUM, wrap (accumulate 0 (digitByte d :: more.takeWhile isDigitByte)),
          more.dropWhile isDigitByte) := by
    rw [scanToken_blanks, scanToken_digit a _ _ (isdigit_digitByte d)]
  have hg : (getNextToken ⟨c, a, blanks b ++ digitByte d :: more⟩).2.stdin
      = more.dropWhile isDigitByte := by
    rw [getNextToken_stdin]
    show (scanToken a (blanks b ++ digitByte d :: more)).2.2 = _
    rw [hs]
  refine ⟨?_, hg, ?_, ?_, ?_, by decide, by decide, by decide, by decide⟩
  · rw [getNextToken_token]
    show (scanToken a (blanks b ++ digitByte d :: more)).1 = _
    rw [hs]
  · rw [hg, List.takeWhile_append_dropWhile]
  · rw [hg]
    exact startsWithDigit_dropWhile more
  · rw [hg]
    clear hs hg
    induction more with
    | nil => rfl
    | cons x xs ih =>
      by_cases h : isDigitByte x = true
      · rw [List.dropWhile_cons_of_pos h, List.find?_cons_of_neg _ (by simp [h])]
        exact ih
      · rw [List.dropWhile_cons_of_neg h, List.find?_cons_of_pos _ (by simpa using h)]
        rfl

/-! ## Literals -/

theorem decimalCore_cons (fuel n : Nat) (acc : List Digit) (h : 0 < fuel ∨ acc ≠ []) :
    ∃ d ds, decimalCore fuel n acc = d :: ds := by
  induction fuel generalizing n acc with
  | zero =>
    rcases h with h | h
    · omega
    · cases acc with
      | nil => exact absurd rfl h
      | cons x xs => exact ⟨x, xs, rfl⟩
  | succ k ih =>
    rw [decimalCore]
    split_ifs
    · exact ⟨_, _, rfl⟩
    · exact ih _ _ (Or.inr (by simp))

theorem decimalCore_value (fuel n : Nat) (acc : List Digit) (h : n < fuel) :
    (decimalCore fuel n acc).foldl (fun a d => 10 * a + d.val) 0
      = acc.foldl (fun a d => 10 * a + d.val) n := by
  induction fuel generalizing n acc with
  | zero => omega
  | succ k ih =>
    rw [decimalCore]
    split_ifs with h0
    · rw [List.foldl_cons]
      have : 10 * 0 + n % 10 = n := by omega
      show List.foldl (fun a d => 10 * a + d.val) (10 * 0 + n % 10) acc = _
      rw [this]
    · rw [ih (n / 10) _ (by omega), List.foldl_cons]
      have : 10 * (n / 10) + n % 10 = n := by omega
      show List.foldl (fun a d => 10 * a + d.val) (10 * (n / 10) + n % 10) acc = _
      rw [this]

theorem decimal_cons (n : Nat) :
    ∃ d ds, decimal n = d :: ds ∧ decimalValue (d :: ds) = n := by
  obtain ⟨d, ds, h⟩ := decimalCore_cons (n + 1) n [] (Or.inl (by omega))
  refine ⟨d, ds, h, ?_⟩
  have hv := decimalCore_value (n + 1) n [] (by omega)
  rw [h] at hv
  exact hv

theorem neg32_wrap_magnitude (N : Int) (h1 : INT_MIN ≤ N) (h2 : N < 0) :
    neg32 (wrap (N.natAbs : Int)) = N := by
  have hn : (N.natAbs : Int) = -N := by omega
  rw [hn]
  unfold INT_MIN at h1
  unfold neg32 wrap
  omega

/-- C8: for every representable integer `N`, the line made of the decimal
digits of its magnitude, preceded by a single `-` when `N` is negative, is
parsed and evaluated to exactly `N`; this includes the most negative integer,
written as unary minus applied to the literal 2147483648, under the
wrap-around arithmetic of the machine. -/
theorem literal_round_trip (N : Int) (h1 : INT_MIN ≤ N) (h2 : N ≤ INT_MAX) :
    main (literalLine N) = .ok N := by
  obtain ⟨d, ds, hd, hv⟩ := decimal_cons N.natAbs
  by_cases hneg : N < 0
  · obtain ⟨a2, hp⟩ := parseLine_complete
      (.mk (.mk (.neg [] (.num [] d ds)) .nil) .nil) [] []
    have hline : literalLine N
        = renderE (.mk (.mk (.neg [] (.num [] d ds)) .nil) .nil) ++ (blanks [] ++ 10 :: []) := by
      simp [literalLine, hneg, hd, renderE, renderET, renderT, renderTT, renderF, blanks]
    rw [hline, main_of_parseLine hp, treeE, treeET, treeT, treeTT, treeF, treeF,
      tree_eval_neg _ _ (tree_eval_num _), hv, neg32_wrap_magnitude N h1 hneg]
  · obtain ⟨a2, hp⟩ := parseLine_complete (.mk (.mk (.num [] d ds) .nil) .nil) [] []
    have hline : literalLine N
        = renderE (.mk (.mk (.num [] d ds) .nil) .nil) ++ (blanks [] ++ 10 :: []) := by
      simp [literalLine, hneg, hd, renderE, renderET, renderT, renderTT, renderF, blanks]
    have hn : (N.natAbs : Int) = N := by omega
    rw [hline, main_of_parseLine hp, treeE, treeET, treeT, treeTT, treeF, tree_eval_num, hv,
      hn, wrap_of_representable h1 h2]

set_option maxRecDepth 100000 in
/-- Witness of C8: the most negative integer, whose line is `-2147483648`. -/
theorem literal_round_trip_witness :
    literalLine (-2147483648) = bytes "-2147483648\n"
      ∧ main (literalLine (-2147483648)) = .ok (-2147483648) :=
  ⟨by decide, literal_round_trip (-2147483648) (by decide) (by decide)⟩

/-! ## One step of each parser function -/

theorem match_eq (token : Int) (st : State) :
    match_ token st = if st.curToken = token then .ok (advance st) else .error .matchExit :=
  rfl

theorem expr_succ (n : Nat) (st : State) :
    expr (n + 1) st
      = (match term n st with
        | .error e => .error e
        | .ok r => expr_loop n r.1 r.2) := by
  rw [expr]
  cases term n st <;> rfl

theorem term_succ (n : Nat) (st : State) :
    term (n + 1) st
      = (match factor n st with
        | .error e => .error e
        | .ok r => term_loop n r.1 r.2) := by
  rw [term]
  cases factor n st <;> rfl

theorem expr_loop_succ (n : Nat) (value : tree_t) (st : State) :
    expr_loop (n + 1) value st
      = if st.curToken = 43 then
          (match term n (advance st) with
          | .error e => .error e
          | .ok r => expr_loop n (mktree 43 value r.1) r.2)
        else if st.curToken = 45 then
          (match term n (advance st) with
          | .error e => .error e
          | .ok r => expr_loop n (mktree 45 value r.1) r.2)
        else .ok (value, st) := by
  rw [expr_loop]
  by_cases h43 : st.curToken = 43
  · simp only [h43, true_or, if_true, match_eq, bind, Except.bind]
    cases term n (advance st) <;> rfl
  · by_cases h45 : st.curToken = 45
    · have hne : ¬ ((45 : Int) = 43) := by decide
      simp only [h45, hne, or_true, if_true, if_false, match_eq, bind, Except.bind]
      cases term n (advance st) <;> rfl
    · simp only [h43, h45, or_self, if_false]
      rfl

theorem term_loop_succ (n : Nat) (value : tree_t) (st : State) :
    term_loop (n + 1) value st
      = if st.curToken = 42 then
          (match factor n (advance st) with
          | .error e => .error e
          | .ok r => term_loop n (mktree 42 value r.1) r.2)
        else if st.curToken = 47 then
          (match factor n (advance st) with
          | .error e => .error e
          | .ok r => term_loop n (mktree 47 value r.1) r.2)
        else .ok (value, st) := by
  rw [term_loop]
  by_cases h42 : st.curToken = 42
  · simp only [h42, true_or, if_true, match_eq, bind, Except.bind]
    cases factor n (advance st) <;> rfl
  · by_cases h47 : st.curToken = 47
    · have hne : ¬ ((47 : Int) = 42) := by decide
      simp only [h47, hne, or_true, if_true, if_false, match_eq, bind, Except.bind]
      cases factor n (advance st) <;> rfl
    · simp only [h42, h47, or_self, if_false]
      rfl

theorem factor_succ (n : Nat) (st : State) :
    factor (n + 1) st
      = if st.curToken = 40 then
          (match expr n (advance st) with
          | .error e => .error e
          | .ok r =>
            if r.2.curToken = 41 then .ok (r.1, advance r.2) else .error .matchExit)
        else if st.curToken = 45 then
          (match factor n (advance st) with
          | .error e => .error e
          | .ok r => .ok (mktree 45 r.1 .NULL, r.2))
        else if st.curToken = NUM then
          .ok (.node NUM (some st.curAttribute) .NULL .NULL, advance st)
        else .error .factorExit := by
  rw [factor]
  by_cases h40 : st.curToken = 40
  · simp only [h40, if_true, match_eq, bind, Except.bind]
    cases expr n (advance st) with
    | error e => rfl
    | ok r =>
      by_cases h41 : r.2.curToken = 41
      · simp only [h41, if_true]
        rfl
      · simp only [h41, if_false]
  · by_cases h45 : st.curToken = 45
    · have hne : ¬ ((45 : Int) = 40) := by decide
      simp only [h45, hne, if_true, if_false, match_eq, bind, Except.bind]
      cases factor n (advance st) <;> rfl
    · by_cases hnum : st.curToken = NUM
      · have hne1 : ¬ (NUM = 40) := by decide
        have hne2 : ¬ (NUM = 45) := by decide
        simp only [hnum, hne1, hne2, if_true, if_false, match_eq, bind, Except.bind]
        rfl
      · simp only [h40, h45, hnum, if_false]

/-! ## What the scanner's token says about the input -/

theorem scanToken_cons_cases (a : Int) (y : Byte) (ys : List Byte) :
    (((y.val : Int) = 32 ∨ (y.val : Int) = 9) ∧ scanToken a (y :: ys) = scanToken a ys)
      ∨ ((y.val : Int) = 10 ∧ scanToken a (y :: ys) = (EOS, a, ys))
      ∨ (isdigit y.val = true ∧ scanToken a (y :: ys)
          = (NUM, wrap (accumulate 0 (y :: ys.takeWhile isDigitByte)),
              ys.dropWhile isDigitByte))
      ∨ (isdigit y.val = false ∧ scanToken a (y :: ys) = ((y.val : Int), a, ys)) := by
  by_cases hb : (y.val : Int) = 32 ∨ (y.val : Int) = 9
  · left
    refine ⟨hb, ?_⟩
    rw [scanToken]
    simp only [hb, if_true]
  · by_cases hn : (y.val : Int) = 10
    · right; left
      refine ⟨hn, ?_⟩
      have hb2 : ¬ ((10 : Int) = 32 ∨ (10 : Int) = 9) := by decide
      rw [scanToken]
      simp only [hn, hb2, if_true, if_false]
    · by_cases hd : isdigit y.val = true
      · right; right; left
        exact ⟨hd, scanToken_digit a y ys hd⟩
      · right; right; right
        have hd2 : isdigit y.val = false := by simpa using hd
        refine ⟨hd2, ?_⟩
        rw [scanToken]
        simp only [hb, hn, hd2, if_false]
        split_ifs <;> first | rfl | simp_all

theorem byte_val_nonneg (y : Byte) : (0 : Int) ≤ (y.val : Int) := Int.ofNat_nonneg _

theorem byte_val_lt (y : Byte) : (y.val : Int) < 256 := by
  have := y.isLt
  omega

theorem byte_eq_of_val {x y : Byte} (h : (y.val : Int) = (x.val : Int)) : y = x :=
  Fin.ext (by exact_mod_cast h)

theorem blank_of_val (y : Byte) (h : (y.val : Int) = 32 ∨ (y.val : Int) = 9) :
    ∃ x : Blank, y = blankByte x := by
  rcases h with h | h
  · exact ⟨.space, byte_eq_of_val h⟩
  · exact ⟨.tab, byte_eq_of_val h⟩

theorem digit_of_isdigit (y : Byte) (h : isdigit y.val = true) :
    ∃ d : Digit, y = digitByte d := by
  have hb : (48 : Int) ≤ y.val ∧ (y.val : Int) ≤ 57 := by
    simpa [isdigit] using h
  refine ⟨⟨y.val - 48, by omega⟩, ?_⟩
  apply Fin.ext
  show y.val = 48 + (y.val - 48)
  omega

theorem split_digits (l : List Byte) :
    ∃ ds rest, l = digits ds ++ rest ∧ startsWithDigit rest = false := by
  induction l with
  | nil => exact ⟨[], [], rfl, rfl⟩
  | cons y ys ih =>
    by_cases h : isdigit y.val = true
    · obtain ⟨d, rfl⟩ := digit_of_isdigit y h
      obtain ⟨ds, rest, rfl, hr⟩ := ih
      exact ⟨d :: ds, rest, rfl, hr⟩
    · exact ⟨[], y :: ys, rfl, by simpa [startsWithDigit] using h⟩

theorem nextToken_cons_blank (x : Blank) (ys : List Byte) :
    nextToken (blankByte x :: ys) = nextToken ys :=
  nextToken_blanks [x] ys

theorem nextToken_inv_byte (x : Byte) (inp : List Byte)
    (h : nextToken inp = (x.val : Int)) : ∃ b inp2, inp = blanks b ++ x :: inp2 := by
  induction inp with
  | nil =>
    have h0 := byte_val_nonneg x
    have : nextToken [] = -1 := rfl
    omega
  | cons y ys ih =>
    unfold nextToken at h ih
    rcases scanToken_cons_cases 0 y ys with ⟨hb, he⟩ | ⟨_, he⟩ | ⟨_, he⟩ | ⟨_, he⟩
    · obtain ⟨w, rfl⟩ := blank_of_val y hb
      rw [he] at h
      obtain ⟨b, inp2, rfl⟩ := ih h
      exact ⟨w :: b, inp2, rfl⟩
    · rw [he] at h
      have h1 := byte_val_lt x
      have : EOS = 256 := rfl
      simp only at h
      omega
    · rw [he] at h
      have h1 := byte_val_lt x
      have : NUM = 257 := rfl
      simp only at h
      omega
    · rw [he] at h
      exact ⟨[], ys, by rw [byte_eq_of_val h]; rfl⟩

theorem nextToken_inv_newline (inp : List Byte) (h : nextToken inp = EOS) :
    ∃ b inp2, inp = blanks b ++ 10 :: inp2 := by
  induction inp with
  | nil => exact absurd h (by decide)
  | cons y ys ih =>
    unfold nextToken at h ih
    rcases scanToken_cons_cases 0 y ys with ⟨hb, he⟩ | ⟨hn, he⟩ | ⟨_, he⟩ | ⟨_, he⟩
    · obtain ⟨w, rfl⟩ := blank_of_val y hb
      rw [he] at h
      obtain ⟨b, inp2, rfl⟩ := ih h
      exact ⟨w :: b, inp2, rfl⟩
    · have hy : y = 10 := byte_eq_of_val hn
      exact ⟨[], ys, by rw [hy]; rfl⟩
    · rw [he] at h
      exact absurd (show NUM = EOS from h) (by decide)
    · rw [he] at h
      have h1 := byte_val_lt y
      have : EOS = 256 := rfl
      simp only at h
      omega

theorem nextToken_inv_num (inp : List Byte) (h : nextToken inp = NUM) :
    ∃ b d ds rest, inp = blanks b ++ (digits (d :: ds) ++ rest)
      ∧ startsWithDigit rest = false := by
  induction inp with
  | nil => exact absurd h (by decide)
  | cons y ys ih =>
    unfold nextToken at h ih
    rcases scanToken_cons_cases 0 y ys with ⟨hb, he⟩ | ⟨_, he⟩ | ⟨hd, _⟩ | ⟨_, he⟩
    · obtain ⟨w, rfl⟩ := blank_of_val y hb
      rw [he] at h
      obtain ⟨b, d, ds, rest, rfl, hr⟩ := ih h
      exact ⟨w :: b, d, ds, rest, rfl, hr⟩
    · rw [he] at h
      exact absurd (show EOS = NUM from h) (by decide)
    · obtain ⟨d, rfl⟩ := digit_of_isdigit y hd
      obtain ⟨ds, rest, rfl, hr⟩ := split_digits ys
      exact ⟨[], d, ds, rest, rfl, hr⟩
    · rw [he] at h
      have h1 := byte_val_lt y
      have : NUM = 257 := rfl
      simp only at h
      omega

/-! ## Termination measure -/

theorem scanToken_remaining (a : Int) (inp : List Byte) :
    (scanToken a inp).2.2.length + (if (scanToken a inp).1 = EOF then 0 else 1)
      ≤ inp.length := by
  induction inp with
  | nil => exact Nat.le_refl 0
  | cons y ys ih =>
    rcases scanToken_cons_cases a y ys with ⟨_, he⟩ | ⟨_, he⟩ | ⟨_, he⟩ | ⟨_, he⟩
    · rw [he, List.length_cons]
      omega
    · rw [he, List.length_cons]
      have : ¬ (EOS = EOF) := by decide
      simp only [this, if_false]
      omega
    · rw [he, List.length_cons]
      have : ¬ (NUM = EOF) := by decide
      have hl : (List.dropWhile isDigitByte ys).length ≤ ys.length :=
        (List.dropWhile_sublist _).length_le
      simp only [this, if_false]
      omega
    · rw [he, List.length_cons]
      have h0 := byte_val_nonneg y
      have : ¬ ((y.val : Int) = EOF) := by
        unfold EOF
        omega
      simp only [this, if_false]
      omega

theorem remaining_look (a : Int) (inp : List Byte) : remaining (look a inp) ≤ inp.length := by
  rw [look_eq]
  exact scanToken_remaining a inp

theorem remaining_advance (st : State) (h : st.curToken ≠ EOF) :
    remaining (advance st) + 1 ≤ remaining st := by
  rw [advance_eq_look]
  have h1 := remaining_look st.curAttribute st.stdin
  have h2 : remaining st = st.stdin.length + 1 := by
    unfold remaining
    rw [if_neg h]
  omega

/-! ## The parser stops only in `factor` or `match` -/

theorem expr_zero (st : State) : expr 0 st = .error .outOfFuel := by
  rw [expr]

theorem expr_loop_zero (value : tree_t) (st : State) :
    expr_loop 0 value st = .error .outOfFuel := by
  rw [expr_loop]

theorem term_zero (st : State) : term 0 st = .error .outOfFuel := by
  rw [term]

theorem term_loop_zero (value : tree_t) (st : State) :
    term_loop 0 value st = .error .outOfFuel := by
  rw [term_loop]

theorem factor_zero (st : State) : factor 0 st = .error .outOfFuel := by
  rw [factor]

theorem parse_faults (n : Nat) :
    (∀ st e, expr n st = .error e → ParseFault e)
      ∧ (∀ value st e, expr_loop n value st = .error e → ParseFault e)
      ∧ (∀ st e, term n st = .error e → ParseFault e)
      ∧ (∀ value st e, term_loop n value st = .error e → ParseFault e)
      ∧ (∀ st e, factor n st = .error e → ParseFault e) := by
  induction n with
  | zero =>
    refine ⟨?_, ?_, ?_, ?_, ?_⟩
    · intro st e h
      rw [expr_zero] at h
      cases h
      exact Or.inr (Or.inr rfl)
    · intro value st e h
      rw [expr_loop_zero] at h
      cases h
      exact Or.inr (Or.inr rfl)
    · intro st e h
      rw [term_zero] at h
      cases h
      exact Or.inr (Or.inr rfl)
    · intro value st e h
      rw [term_loop_zero] at h
      cases h
      exact Or.inr (Or.inr rfl)
    · intro st e h
      rw [factor_zero] at h
      cases h
      exact Or.inr (Or.inr rfl)
  | succ n ih =>
    obtain ⟨ihE, ihEL, ihT, ihTL, ihF⟩ := ih
    refine ⟨?_, ?_, ?_, ?_, ?_⟩
    · intro st e h
      rw [expr_succ] at h
      cases ht : term n st with
      | error e2 =>
        rw [ht] at h
        cases h
        exact ihT st _ ht
      | ok r =>
        rw [ht] at h
        exact ihEL _ _ _ h
    · intro value st e h
      rw [expr_loop_succ] at h
      split_ifs at h
      · cases ht : term n (advance st) with
        | error e2 =>
          rw [ht] at h
          cases h
          exact ihT _ _ ht
        | ok r =>
          rw [ht] at h
          exact ihEL _ _ _ h
      · cases ht : term n (advance st) with
        | error e2 =>
          rw [ht] at h
          cases h
          exact ihT _ _ ht
        | ok r =>
          rw [ht] at h
          exact ihEL _ _ _ h
    · intro st e h
      rw [term_succ] at h
      cases ht : factor n st with
      | error e2 =>
        rw [ht] at h
        cases h
        exact ihF st _ ht
      | ok r =>
        rw [ht] at h
        exact ihTL _ _ _ h
    · intro value st e h
      rw [term_loop_succ] at h
      split_ifs at h
      · cases ht : factor n (advance st) with
        | error e2 =>
          rw [ht] at h
          cases h
          exact ihF _ _ ht
        | ok r =>
          rw [ht] at h
          exact ihTL _ _ _ h
      · cases ht : factor n (advance st) with
        | error e2 =>
          rw [ht] at h
          cases h
          exact ihF _ _ ht
        | ok r =>
          rw [ht] at h
          exact ihTL _ _ _ h
    · intro st e h
      rw [factor_succ] at h
      split_ifs at h
      · cases ht : expr n (advance st) with
        | error e2 =>
          rw [ht] at h
          cases h
          exact ihE _ _ ht
        | ok r =>
          rw [ht] at h
          dsimp only at h
          split_ifs at h
          cases h
          exact Or.inr (Or.inl rfl)
      · cases ht : factor n (advance st) with
        | error e2 =>
          rw [ht] at h
          cases h
          exact ihF _ _ ht
        | ok r =>
          rw [ht] at h
          cases h
      · cases h
        exact Or.inl rfl

/-! ## The recursion budget of `main` is enough for every input -/

theorem within_error (m k : Nat) (e : Fault) (h : e ≠ .outOfFuel) :
    Within m k (.error e) :=
  ⟨fun hc => h (by cases hc; rfl), fun _ _ hc => (by cases hc)⟩

theorem within_ok (m k : Nat) (t : tree_t) (st : State) (h : remaining st + k ≤ m) :
    Within m k (.ok (t, st)) :=
  ⟨fun hc => (by cases hc), fun _ _ hc => (by cases hc; exact h)⟩

theorem within_of_error {m k : Nat} {r : Except Fault (tree_t × State)} {e : Fault}
    (hw : Within m k r) (he : r = .error e) (m2 k2 : Nat) : Within m2 k2 (.error e) :=
  within_error m2 k2 e (fun hc => hw.1 (by rw [he, hc]))

theorem within_mono {m k m2 k2 : Nat} {r : Except Fault (tree_t × State)}
    (hw : Within m k r) (h : m + k2 ≤ m2 + k) : Within m2 k2 r :=
  ⟨hw.1, fun t st2 hr => (by have := hw.2 t st2 hr; omega)⟩

theorem parse_terminates (n : Nat) :
    (∀ st, 3 * remaining st + 3 ≤ n → Within (remaining st) 1 (expr n st))
      ∧ (∀ value st, 3 * remaining st + 1 ≤ n →
          Within (remaining st) 0 (expr_loop n value st))
      ∧ (∀ st, 3 * remaining st + 2 ≤ n → Within (remaining st) 1 (term n st))
      ∧ (∀ value st, 3 * remaining st + 1 ≤ n →
          Within (remaining st) 0 (term_loop n value st))
      ∧ (∀ st, 3 * remaining st + 1 ≤ n → Within (remaining st) 1 (factor n st)) := by
  induction n with
  | zero =>
    refine ⟨?_, ?_, ?_, ?_, ?_⟩ <;> intros <;> omega
  | succ n ih =>
    obtain ⟨ihE, ihEL, ihT, ihTL, ihF⟩ := ih
    have loopE : ∀ (c : Int) (value : tree_t) (st : State), st.curToken ≠ EOF →
        3 * remaining st + 1 ≤ n + 1 →
        Within (remaining st) 0
          (match term n (advance st) with
          | .error e => .error e
          | .ok r => expr_loop n (mktree c value r.1) r.2) := by
      intro c value st hne hn
      have hadv := remaining_advance st hne
      have hT := ihT (advance st) (by omega)
      cases ht : term n (advance st) with
      | error e => exact within_of_error hT ht _ _
      | ok r =>
        have hr := hT.2 r.1 r.2 ht
        exact within_mono (ihEL (mktree c value r.1) r.2 (by omega)) (by omega)
    have loopT : ∀ (c : Int) (value : tree_t) (st : State), st.curToken ≠ EOF →
        3 * remaining st + 1 ≤ n + 1 →
        Within (remaining st) 0
          (match factor n (advance st) with
          | .error e => .error e
          | .ok r => term_loop n (mktree c value r.1) r.2) := by
      intro c value st hne hn
      have hadv := remaining_advance st hne
      have hF := ihF (advance st) (by omega)
      cases ht : factor n (advance st) with
      | error e => exact within_of_error hF ht _ _
      | ok r =>
        have hr := hF.2 r.1 r.2 ht
        exact within_mono (ihTL (mktree c value r.1) r.2 (by omega)) (by omega)
    refine ⟨?_, ?_, ?_, ?_, ?_⟩
    · intro st hn
      rw [expr_succ]
      have hT := ihT st (by omega)
      cases ht : term n st with
      | error e => exact within_of_error hT ht _ _
      | ok r =>
        have hr := hT.2 r.1 r.2 ht
        exact within_mono (ihEL r.1 r.2 (by omega)) (by omega)
    · intro value st hn
      rw [expr_loop_succ]
      split_ifs with h43 h45
      · exact loopE 43 value st (by rw [h43]; decide) hn
      · exact loopE 45 value st (by rw [h45]; decide) hn
      · exact within_ok _ _ _ _ (Nat.le_refl _)
    · intro st hn
      rw [term_succ]
      have hF := ihF st (by omega)
      cases ht : factor n st with
      | error e => exact within_of_error hF ht _ _
      | ok r =>
        have hr := hF.2 r.1 r.2 ht
        exact within_mono (ihTL r.1 r.2 (by omega)) (by omega)
    · intro value st hn
      rw [term_loop_succ]
      split_ifs with h42 h47
      · exact loopT 42 value st (by rw [h42]; decide) hn
      · exact loopT 47 value st (by rw [h47]; decide) hn
      · exact within_ok _ _ _ _ (Nat.le_refl _)
    · intro st hn
      rw [factor_succ]
      split_ifs with h40 h45 hnum
      · have hadv := remaining_advance st (by rw [h40]; decide)
        have hE := ihE (advance st) (by omega)
        cases ht : expr n (advance st) with
        | error e => exact within_of_error hE ht _ _
        | ok r =>
          have hr := hE.2 r.1 r.2 ht
          dsimp only
          split_ifs with h41
          · have hadv2 := remaining_advance r.2 (by rw [h41]; decide)
            exact within_ok _ _ _ _ (by omega)
          · exact within_error _ _ _ (by decide)
      · have hadv := remaining_advance st (by rw [h45]; decide)
        have hF := ihF (advance st) (by omega)
        cases ht : factor n (advance st) with
        | error e => exact within_of_error hF ht _ _
        | ok r =>
          have hr := hF.2 r.1 r.2 ht
          exact within_ok _ _ _ _ (by omega)
      · have hadv := remaining_advance st (by rw [hnum]; decide)
        exact within_ok _ _ _ _ (by omega)
      · exact within_error _ _ _ (by decide)

theorem parseLine_within (stdin : List Byte) : Within stdin.length 1 (parseLine stdin) := by
  rw [parseLine_eq]
  have h := remaining_look 0 stdin
  exact within_mono ((parse_terminates _).1 (look 0 stdin) (by omega)) (by omega)

/-! ## Every successful parse has a derivation -/

theorem advance_mk (c a : Int) (inp : List Byte) : advance ⟨c, a, inp⟩ = look a inp := rfl

theorem look_inv_byte (x : Byte) (hx : IsPunct x) (a : Int) (inp : List Byte)
    (h : (look a inp).curToken = (x.val : Int)) :
    ∃ b inp2, inp = blanks b ++ x :: inp2 ∧ look a inp = ⟨(x.val : Int), a, inp2⟩ := by
  rw [look_curToken] at h
  obtain ⟨b, inp2, rfl⟩ := nextToken_inv_byte x inp h
  exact ⟨b, inp2, rfl, by rw [look_blanks, look_punct a x inp2 hx]⟩

theorem look_inv_num (a : Int) (inp : List Byte) (h : (look a inp).curToken = NUM) :
    ∃ b d ds rest, inp = blanks b ++ (digits (d :: ds) ++ rest)
      ∧ look a inp = ⟨NUM, wrap (decimalValue (d :: ds)), rest⟩ := by
  rw [look_curToken] at h
  obtain ⟨b, d, ds, rest, rfl, hr⟩ := nextToken_inv_num inp h
  exact ⟨b, d, ds, rest, rfl, by rw [look_blanks, look_digits a d ds rest hr]⟩

theorem isPunct_40 : IsPunct (40 : Byte) := by
  right; right; right; right; left; rfl

theorem isPunct_41 : IsPunct (41 : Byte) := by
  right; right; right; right; right; rfl

theorem isPunct_42 : IsPunct (42 : Byte) := by
  right; right; left; rfl

theorem isPunct_43 : IsPunct (43 : Byte) := by
  left; rfl

theorem isPunct_45 : IsPunct (45 : Byte) := by
  right; left; rfl

theorem isPunct_47 : IsPunct (47 : Byte) := by
  right; right; right; left; rfl

theorem parse_sound (n : Nat) :
    (∀ a inp t st2, expr n (look a inp) = .ok (t, st2) →
        ∃ e rest a2, inp = renderE e ++ rest ∧ t = treeE e ∧ st2 = look a2 rest)
      ∧ (∀ a inp value t st2, expr_loop n value (look a inp) = .ok (t, st2) →
        ∃ tl rest a2, inp = renderET tl ++ rest ∧ t = treeET value tl ∧ st2 = look a2 rest)
      ∧ (∀ a inp t st2, term n (look a inp) = .ok (t, st2) →
        ∃ e rest a2, inp = renderT e ++ rest ∧ t = treeT e ∧ st2 = look a2 rest)
      ∧ (∀ a inp value t st2, term_loop n value (look a inp) = .ok (t, st2) →
        ∃ tl rest a2, inp = renderTT tl ++ rest ∧ t = treeTT value tl ∧ st2 = look a2 rest)
      ∧ (∀ a inp t st2, factor n (look a inp) = .ok (t, st2) →
        ∃ f rest a2, inp = renderF f ++ rest ∧ t = treeF f ∧ st2 = look a2 rest) := by
  induction n with
  | zero =>
    refine ⟨?_, ?_, ?_, ?_, ?_⟩
    · intro a inp t st2 h
      rw [expr_zero] at h
      cases h
    · intro a inp value t st2 h
      rw [expr_loop_zero] at h
      cases h
    · intro a inp t st2 h
      rw [term_zero] at h
      cases h
    · intro a inp value t st2 h
      rw [term_loop_zero] at h
      cases h
    · intro a inp t st2 h
      rw [factor_zero] at h
      cases h
  | succ n ih =>
    obtain ⟨ihE, ihEL, ihT, ihTL, ihF⟩ := ih
    have loopE : ∀ (x : Byte) (op : AddOp), addByte op = x → IsPunct x →
        ∀ a inp value t st2, (look a inp).curToken = (x.val : Int) →
        (match term n (advance (look a inp)) with
          | .error e => Except.error e
          | .ok r => expr_loop n (mktree (x.val : Int) value r.1) r.2) = .ok (t, st2) →
        ∃ tl rest a2, inp = renderET tl ++ rest ∧ t = treeET value tl
          ∧ st2 = look a2 rest := by
      intro x op hop hx a inp value t st2 htok h
      obtain ⟨b, inp2, rfl, hl⟩ := look_inv_byte x hx a inp htok
      rw [hl, advance_mk] at h
      cases ht : term n (look a inp2) with
      | error e2 =>
        rw [ht] at h
        cases h
      | ok r =>
        obtain ⟨t0, s0⟩ := r
        rw [ht] at h
        obtain ⟨t1, rest1, a1, rfl, rfl, rfl⟩ := ihT a inp2 t0 s0 ht
        obtain ⟨tl, rest, a2, rfl, rfl, rfl⟩ := ihEL a1 rest1 _ t st2 h
        refine ⟨.cons b op t1 tl, rest, a2, ?_, ?_, rfl⟩
        · rw [renderET, hop]
          simp only [List.append_assoc, List.cons_append]
        · rw [treeET, hop]
    have loopT : ∀ (x : Byte) (op : MulOp), mulByte op = x → IsPunct x →
        ∀ a inp value t st2, (look a inp).curToken = (x.val : Int) →
        (match factor n (advance (look a inp)) with
          | .error e => Except.error e
          | .ok r => term_loop n (mktree (x.val : Int) value r.1) r.2) = .ok (t, st2) →
        ∃ tl rest a2, inp = renderTT tl ++ rest ∧ t = treeTT value tl
          ∧ st2 = look a2 rest := by
      intro x op hop hx a inp value t st2 htok h
      obtain ⟨b, inp2, rfl, hl⟩ := look_inv_byte x hx a inp htok
      rw [hl, advance_mk] at h
      cases ht : factor n (look a inp2) with
      | error e2 =>
        rw [ht] at h
        cases h
      | ok r =>
        obtain ⟨t0, s0⟩ := r
        rw [ht] at h
        obtain ⟨f1, rest1, a1, rfl, rfl, rfl⟩ := ihF a inp2 t0 s0 ht
        obtain ⟨tl, rest, a2, rfl, rfl, rfl⟩ := ihTL a1 rest1 _ t st2 h
        refine ⟨.cons b op f1 tl, rest, a2, ?_, ?_, rfl⟩
        · rw [renderTT, hop]
          simp only [List.append_assoc, List.cons_append]
        · rw [treeTT, hop]
    refine ⟨?_, ?_, ?_, ?_, ?_⟩
    · intro a inp t st2 h
      rw [expr_succ] at h
      cases ht : term n (look a inp) with
      | error e2 =>
        rw [ht] at h
        cases h
      | ok r =>
        obtain ⟨t0, s0⟩ := r
        rw [ht] at h
        obtain ⟨t1, rest1, a1, rfl, rfl, rfl⟩ := ihT a inp t0 s0 ht
        obtain ⟨tl, rest, a2, rfl, rfl, rfl⟩ := ihEL a1 rest1 _ t st2 h
        exact ⟨.mk t1 tl, rest, a2, by rw [renderE, List.append_assoc], by rw [treeE], rfl⟩
    · intro a inp value t st2 h
      rw [expr_loop_succ] at h
      split_ifs at h with h43 h45
      · exact loopE 43 .plus rfl isPunct_43 a inp value t st2 h43 h
      · exact loopE 45 .minus rfl isPunct_45 a inp value t st2 h45 h
      · cases h
        exact ⟨ExpressionTail.nil, inp, a, by rw [renderET, List.nil_append], by rw [treeET],
          rfl⟩
    · intro a inp t st2 h
      rw [term_succ] at h
      cases ht : factor n (look a inp) with
      | error e2 =>
        rw [ht] at h
        cases h
      | ok r =>
        obtain ⟨t0, s0⟩ := r
        rw [ht] at h
        obtain ⟨f1, rest1, a1, rfl, rfl, rfl⟩ := ihF a inp t0 s0 ht
        obtain ⟨tl, rest, a2, rfl, rfl, rfl⟩ := ihTL a1 rest1 _ t st2 h
        exact ⟨.mk f1 tl, rest, a2, by rw [renderT, List.append_assoc], by rw [treeT], rfl⟩
    · intro a inp value t st2 h
      rw [term_loop_succ] at h
      split_ifs at h with h42 h47
      · exact loopT 42 .times rfl isPunct_42 a inp value t st2 h42 h
      · exact loopT 47 .divide rfl isPunct_47 a inp value t st2 h47 h
      · cases h
        exact ⟨TermTail.nil, inp, a, by rw [renderTT, List.nil_append], by rw [treeTT], rfl⟩
    · intro a inp t st2 h
      rw [factor_succ] at h
      split_ifs at h with h40 h45 hnum
      · obtain ⟨b, inp2, rfl, hl⟩ := look_inv_byte 40 isPunct_40 a inp h40
        rw [hl, advance_mk] at h
        cases ht : expr n (look a inp2) with
        | error e2 =>
          rw [ht] at h
          cases h
        | ok r =>
          obtain ⟨t0, s0⟩ := r
          rw [ht] at h
          obtain ⟨e, rest1, a1, rfl, rfl, rfl⟩ := ihE a inp2 t0 s0 ht
          dsimp only at h
          split_ifs at h with h41
          obtain ⟨b2, rest, rfl, hl2⟩ := look_inv_byte 41 isPunct_41 a1 rest1 h41
          rw [hl2, advance_mk] at h
          cases h
          refine ⟨.paren b e b2, rest, a1, ?_, by rw [treeF], rfl⟩
          rw [renderF]
          simp only [List.append_assoc, List.cons_append, List.nil_append]
      · obtain ⟨b, inp2, rfl, hl⟩ := look_inv_byte 45 isPunct_45 a inp h45
        rw [hl, advance_mk] at h
        cases ht : factor n (look a inp2) with
        | error e2 =>
          rw [ht] at h
          cases h
        | ok r =>
          obtain ⟨t0, s0⟩ := r
          rw [ht] at h
          obtain ⟨f1, rest, a1, rfl, rfl, rfl⟩ := ihF a inp2 t0 s0 ht
          cases h
          refine ⟨.neg b f1, rest, a1, ?_, by rw [treeF], rfl⟩
          rw [renderF]
          simp only [List.append_assoc, List.cons_append]
      · obtain ⟨b, d, ds, rest, rfl, hl⟩ := look_inv_num a inp hnum
        rw [hl, advance_mk] at h
        cases h
        refine ⟨.num b d ds, rest, _, ?_, by rw [treeF], rfl⟩
        rw [renderF, List.append_assoc]

/-! ## Malformed lines -/

theorem wellFormed_of_parseLine {stdin : List Byte} {t : tree_t} {st : State}
    (hp : parseLine stdin = .ok (t, st)) (heos : st.curToken = EOS) :
    WellFormedLine stdin := by
  rw [parseLine_eq] at hp
  obtain ⟨e, rest, a2, rfl, _, rfl⟩ := (parse_sound _).1 0 stdin t st hp
  rw [look_curToken] at heos
  obtain ⟨b, rest2, rfl⟩ := nextToken_inv_newline rest heos
  exact ⟨e, b, rest2, rfl⟩

theorem not_wellFormed_of_error {stdin : List Byte} {e : Fault}
    (hp : parseLine stdin = .error e) : ¬ WellFormedLine stdin := by
  rintro ⟨ex, b, rest, rfl⟩
  obtain ⟨a2, h2⟩ := parseLine_complete ex b rest
  rw [h2] at hp
  cases hp

theorem main_of_parse_error {stdin : List Byte} {e : Fault}
    (hp : parseLine stdin = .error e) : main stdin = .error e := by
  rw [main_eq, hp]
  rfl

theorem main_of_trailing {stdin : List Byte} {t : tree_t} {st : State}
    (hp : parseLine stdin = .ok (t, st)) (heos : st.curToken ≠ EOS) :
    main stdin = .error .assertEOS := by
  rw [main_eq, hp]
  simp [Except.bind, heos]

set_option maxRecDepth 100000 in
/-- Counterexample to C2 as stated: the input made of the line `2+3` and the
line `4+` is not exactly one well-formed expression followed by a newline, yet
the run does not stop abnormally: `expr` returns with the lookahead `EOS` and
the second line unread, `tree_eval` is called and the value 5 is reported. -/
theorem malformed_rejected_counterexample :
    ¬ ExactlyOneLine (bytes "2+3\n4+\n")
      ∧ parseLine (bytes "2+3\n4+\n")
          = .ok (mktree 43 (.node NUM (some 2) .NULL .NULL) (.node NUM (some 3) .NULL .NULL),
            ⟨EOS, 3, bytes "4+\n"⟩)
      ∧ main (bytes "2+3\n4+\n") = .ok 5 := by
  have hp : parseLine (bytes "2+3\n4+\n")
      = .ok (mktree 43 (.node NUM (some 2) .NULL .NULL) (.node NUM (some 3) .NULL .NULL),
        ⟨EOS, 3, bytes "4+\n"⟩) := by decide
  refine ⟨?_, hp, by decide⟩
  rintro ⟨e, b, h⟩
  obtain ⟨a2, h2⟩ := parseLine_complete e b []
  rw [← h, hp] at h2
  injection h2 with h3
  have h4 := congrArg (fun q : tree_t × State => q.2.stdin) h3
  dsimp only at h4
  exact absurd h4 (by decide)

/-- C2, amended: an input whose first line is not one well-formed expression
followed by optional blanks and the newline (what follows the first newline is
not looked at) makes the run stop before `tree_eval` is called: the parser
stops with `exit` in `factor` or in `match`, or it returns and the check
`curToken == EOS` in `main` fails; the lines `2+`, `(2+3`, `2 3` and `2+a` stop
in `factor`, in `match`, at the check and in `factor`. -/
theorem malformed_rejected (stdin : List Byte) (h : ¬ WellFormedLine stdin) :
    ((parseLine stdin = .error .factorExit ∧ main stdin = .error .factorExit)
        ∨ (parseLine stdin = .error .matchExit ∧ main stdin = .error .matchExit)
        ∨ (∃ t st, parseLine stdin = .ok (t, st) ∧ st.curToken ≠ EOS
            ∧ main stdin = .error .assertEOS))
      ∧ main (bytes "2+\n") = .error .factorExit
      ∧ main (bytes "(2+3\n") = .error .matchExit
      ∧ main (bytes "2 3\n") = .error .assertEOS
      ∧ main (bytes "2+a\n") = .error .factorExit := by
  refine ⟨?_, by decide, by decide, by decide, by decide⟩
  cases hp : parseLine stdin with
  | error e =>
    have hf := (parse_faults _).1 _ e (by rw [← parseLine_eq]; exact hp)
    have hw := (parseLine_within stdin).1
    rcases hf with rfl | rfl | rfl
    · exact Or.inl ⟨rfl, main_of_parse_error hp⟩
    · exact Or.inr (Or.inl ⟨rfl, main_of_parse_error hp⟩)
    · exact absurd hp hw
  | ok r =>
    obtain ⟨t, st⟩ := r
    by_cases heos : st.curToken = EOS
    · exact absurd (wellFormed_of_parseLine hp heos) h
    · exact Or.inr (Or.inr ⟨t, st, rfl, heos, main_of_trailing hp heos⟩)

/-- Witness of C2: the line `2+` is not well formed, and stops in `factor`. -/
theorem malformed_rejected_witness :
    ¬ WellFormedLine (bytes "2+\n")
      ∧ ((parseLine (bytes "2+\n") = .error .factorExit
            ∧ main (bytes "2+\n") = .error .factorExit)
        ∨ (parseLine (bytes "2+\n") = .error .matchExit
            ∧ main (bytes "2+\n") = .error .matchExit)
        ∨ (∃ t st, parseLine (bytes "2+\n") = .ok (t, st) ∧ st.curToken ≠ EOS
            ∧ main (bytes "2+\n") = .error .assertEOS))
      ∧ main (bytes "2+\n") = .error .factorExit
      ∧ main (bytes "(2+3\n") = .error .matchExit
      ∧ main (bytes "2 3\n") = .error .assertEOS
      ∧ main (bytes "2+a\n") = .error .factorExit :=
  ⟨not_wellFormed_of_error (by decide : parseLine (bytes "2+\n") = .error .factorExit),
    malformed_rejected (bytes "2+\n")
      (not_wellFormed_of_error (by decide : parseLine (bytes "2+\n") = .error .factorExit))⟩

/-! ## The shape of the trees the parser builds -/

theorem not_null_of_isNode {t : tree_t} (h : IsNode t) : t ≠ .NULL := by
  intro hc
  rw [hc] at h
  exact h

theorem wellShaped_literal (v : Option Int) :
    WellShaped (.node NUM v .NULL .NULL) := by
  refine ⟨Or.inr (Or.inr ⟨?_, ?_, ?_⟩), trivial, trivial⟩
  · rintro ⟨_, h, _⟩
    exact h
  · rintro ⟨_, h, _⟩
    exact h
  · exact ⟨rfl, rfl, rfl⟩

theorem wellShaped_unary (l : tree_t) (hn : IsNode l) (hl : WellShaped l) :
    WellShaped (mktree 45 l .NULL) := by
  refine ⟨Or.inr (Or.inl ⟨?_, ?_, ?_⟩), hl, trivial⟩
  · rintro ⟨_, _, h⟩
    exact h
  · exact ⟨rfl, hn, rfl⟩
  · rintro ⟨h, _, _⟩
    exact absurd h (by decide)

theorem wellShaped_binary (ty : Int) (l r : tree_t)
    (hty : ty = 43 ∨ ty = 45 ∨ ty = 42 ∨ ty = 47) (hnl : IsNode l) (hnr : IsNode r)
    (hl : WellShaped l) (hr : WellShaped r) : WellShaped (mktree ty l r) := by
  refine ⟨Or.inl ⟨⟨hty, hnl, hnr⟩, ?_, ?_⟩, hl, hr⟩
  · rintro ⟨_, _, h⟩
    exact not_null_of_isNode hnr h
  · rintro ⟨_, h, _⟩
    exact not_null_of_isNode hnl h

theorem parse_shape (n : Nat) :
    (∀ st t st2, expr n st = .ok (t, st2) → IsNode t ∧ WellShaped t)
      ∧ (∀ value st t st2, expr_loop n value st = .ok (t, st2) →
          IsNode value ∧ WellShaped value → IsNode t ∧ WellShaped t)
      ∧ (∀ st t st2, term n st = .ok (t, st2) → IsNode t ∧ WellShaped t)
      ∧ (∀ value st t st2, term_loop n value st = .ok (t, st2) →
          IsNode value ∧ WellShaped value → IsNode t ∧ WellShaped t)
      ∧ (∀ st t st2, factor n st = .ok (t, st2) → IsNode t ∧ WellShaped t) := by
  induction n with
  | zero =>
    refine ⟨?_, ?_, ?_, ?_, ?_⟩
    · intro st t st2 h
      rw [expr_zero] at h
      cases h
    · intro value st t st2 h
      rw [expr_loop_zero] at h
      cases h
    · intro st t st2 h
      rw [term_zero] at h
      cases h
    · intro value st t st2 h
      rw [term_loop_zero] at h
      cases h
    · intro st t st2 h
      rw [factor_zero] at h
      cases h
  | succ n ih =>
    obtain ⟨ihE, ihEL, ihT, ihTL, ihF⟩ := ih
    refine ⟨?_, ?_, ?_, ?_, ?_⟩
    · intro st t st2 h
      rw [expr_succ] at h
      cases ht : term n st with
      | error e2 =>
        rw [ht] at h
        cases h
      | ok r =>
        obtain ⟨t0, s0⟩ := r
        rw [ht] at h
        exact ihEL t0 s0 t st2 h (ihT st t0 s0 ht)
    · intro value st t st2 h hv
      rw [expr_loop_succ] at h
      split_ifs at h with h43 h45
      · cases ht : term n (advance st) with
        | error e2 =>
          rw [ht] at h
          cases h
        | ok r =>
          obtain ⟨t0, s0⟩ := r
          rw [ht] at h
          have h0 := ihT _ t0 s0 ht
          exact ihEL _ s0 t st2 h
            ⟨isNode_mktree _ _ _,
              wellShaped_binary 43 value t0 (by decide) hv.1 h0.1 hv.2 h0.2⟩
      · cases ht : term n (advance st) with
        | error e2 =>
          rw [ht] at h
          cases h
        | ok r =>
          obtain ⟨t0, s0⟩ := r
          rw [ht] at h
          have h0 := ihT _ t0 s0 ht
          exact ihEL _ s0 t st2 h
            ⟨isNode_mktree _ _ _,
              wellShaped_binary 45 value t0 (by decide) hv.1 h0.1 hv.2 h0.2⟩
      · cases h
        exact hv
    · intro st t st2 h
      rw [term_succ] at h
      cases ht : factor n st with
      | error e2 =>
        rw [ht] at h
        cases h
      | ok r =>
        obtain ⟨t0, s0⟩ := r
        rw [ht] at h
        exact ihTL t0 s0 t st2 h (ihF st t0 s0 ht)
    · intro value st t st2 h hv
      rw [term_loop_succ] at h
      split_ifs at h with h42 h47
      · cases ht : factor n (advance st) with
        | error e2 =>
          rw [ht] at h
          cases h
        | ok r =>
          obtain ⟨t0, s0⟩ := r
          rw [ht] at h
          have h0 := ihF _ t0 s0 ht
          exact ihTL _ s0 t st2 h
            ⟨isNode_mktree _ _ _,
              wellShaped_binary 42 value t0 (by decide) hv.1 h0.1 hv.2 h0.2⟩
      · cases ht : factor n (advance st) with
        | error e2 =>
          rw [ht] at h
          cases h
        | ok r =>
          obtain ⟨t0, s0⟩ := r
          rw [ht] at h
          have h0 := ihF _ t0 s0 ht
          exact ihTL _ s0 t st2 h
            ⟨isNode_mktree _ _ _,
              wellShaped_binary 47 value t0 (by decide) hv.1 h0.1 hv.2 h0.2⟩
      · cases h
        exact hv
    · intro st t st2 h
      rw [factor_succ] at h
      split_ifs at h with h40 h45 hnum
      · cases ht : expr n (advance st) with
        | error e2 =>
          rw [ht] at h
          cases h
        | ok r =>
          obtain ⟨t0, s0⟩ := r
          rw [ht] at h
          dsimp only at h
          split_ifs at h
          cases h
          exact ihE _ _ _ ht
      · cases ht : factor n (advance st) with
        | error e2 =>
          rw [ht] at h
          cases h
        | ok r =>
          obtain ⟨t0, s0⟩ := r
          rw [ht] at h
          cases h
          have h0 := ihF _ t0 s0 ht
          exact ⟨isNode_mktree _ _ _, wellShaped_unary t0 h0.1 h0.2⟩
      · cases h
        exact ⟨trivial, wellShaped_literal _⟩

/-- C12: every tree returned by `expr`, `term` or `factor` is a node, and at
each of its nodes exactly one of the three shapes holds: binary (type `+`,
`-`, `*` or `/`, both children present), unary minus (type `-`, left child
present, right child null), or literal (type `NUM`, both children null). -/
theorem parser_tree_shape (n : Nat) (st st2 : State) (t : tree_t)
    (h : expr n st = .ok (t, st2) ∨ term n st = .ok (t, st2)
      ∨ factor n st = .ok (t, st2)) :
    IsNode t ∧ WellShaped t := by
  rcases h with h | h | h
  · exact (parse_shape n).1 st t st2 h
  · exact (parse_shape n).2.2.1 st t st2 h
  · exact (parse_shape n).2.2.2.2 st t st2 h

/-- Witness of C12: the tree that `expr` returns on the line `-2*(3+4)`. -/
theorem parser_tree_shape_witness :
    expr 30 (look 0 (bytes "-2*(3+4)\n"))
        = .ok (mktree 42 (mktree 45 (.node NUM (some 2) .NULL .NULL) .NULL)
            (mktree 43 (.node NUM (some 3) .NULL .NULL) (.node NUM (some 4) .NULL .NULL)),
          ⟨EOS, 4, []⟩)
      ∧ IsNode (mktree 42 (mktree 45 (.node NUM (some 2) .NULL .NULL) .NULL)
            (mktree 43 (.node NUM (some 3) .NULL .NULL) (.node NUM (some 4) .NULL .NULL)))
      ∧ WellShaped (mktree 42 (mktree 45 (.node NUM (some 2) .NULL .NULL) .NULL)
            (mktree 43 (.node NUM (some 3) .NULL .NULL) (.node NUM (some 4) .NULL .NULL))) :=
  ⟨by decide, parser_tree_shape 30 (look 0 (bytes "-2*(3+4)\n")) ⟨EOS, 4, []⟩ _
    (Or.inl (by decide))⟩

/-! ## The evaluator equations -/

theorem tree_eval_node_add (av : Option Int) (l r : tree_t) (x y : Int)
    (hl : tree_eval l = .ok x) (hr : tree_eval r = .ok y) :
    tree_eval (.node 43 av l r) = .ok (add32 x y) := by
  cases av <;> rw [tree_eval] <;> simp [hl, hr, bind, Except.bind, pure, Except.pure]

theorem tree_eval_node_mul (av : Option Int) (l r : tree_t) (x y : Int)
    (hl : tree_eval l = .ok x) (hr : tree_eval r = .ok y) :
    tree_eval (.node 42 av l r) = .ok (mul32 x y) := by
  cases av <;> rw [tree_eval] <;> simp [hl, hr, bind, Except.bind, pure, Except.pure]

theorem tree_eval_node_sub (av : Option Int) (l r : tree_t) (x y : Int)
    (hl : tree_eval l = .ok x) (hr : tree_eval r = .ok y) (hn : IsNode r) :
    tree_eval (.node 45 av l r) = .ok (sub32 x y) := by
  cases r with
  | NULL => exact absurd hn (by simp [IsNode])
  | node rt ra rl rr =>
    cases av <;> rw [tree_eval] <;> simp [hl, hr, bind, Except.bind, pure, Except.pure]

theorem tree_eval_node_neg (av : Option Int) (l : tree_t) (x : Int)
    (hl : tree_eval l = .ok x) : tree_eval (.node 45 av l .NULL) = .ok (neg32 x) := by
  cases av <;> rw [tree_eval] <;> simp [hl, bind, Except.bind, pure, Except.pure]

theorem tree_eval_node_div (av : Option Int) (l r : tree_t) (x y : Int)
    (hl : tree_eval l = .ok x) (hr : tree_eval r = .ok y) :
    tree_eval (.node 47 av l r) = div32 x y := by
  cases av <;> rw [tree_eval] <;> simp [hl, hr, bind, Except.bind]

set_option maxRecDepth 100000 in
/-- Counterexample to C13 as stated: the tree of `2147483647+1` satisfies the
node-shape invariant and its children evaluate to 2147483647 and 1, yet the
`+` node does not yield their sum: it yields -2147483648. -/
theorem evaluator_equations_counterexample :
    parseLine (bytes "2147483647+1\n") = .ok (overflowingSum, ⟨EOS, 1, []⟩)
      ∧ WellShaped overflowingSum
      ∧ tree_eval (.node NUM (some 2147483647) .NULL .NULL) = .ok 2147483647
      ∧ tree_eval (.node NUM (some 1) .NULL .NULL) = .ok 1
      ∧ tree_eval overflowingSum ≠ .ok (2147483647 + 1)
      ∧ tree_eval overflowingSum = .ok (-2147483648) := by
  refine ⟨by decide, ?_, by decide, by decide, by decide, by decide⟩
  exact wellShaped_binary 43 _ _ (by decide) trivial trivial (wellShaped_literal _)
    (wellShaped_literal _)

/-- C13, amended: a literal node yields its stored attribute; for children
that evaluate to `x` and `y`, a `+` or `*` node yields the sum or product, a
`-` node with a right child the difference and a `-` node with no right child
the negation, each whenever that value is representable in `int` (in general
it is that value reduced modulo 2^32 into the range of `int`); a `/` node with
a non-zero right value, other than -2147483648 divided by -1, yields the
quotient rounded toward zero. -/
theorem evaluator_equations (av : Option Int) (l r : tree_t) (x y v : Int)
    (hl : tree_eval l = .ok x) (hr : tree_eval r = .ok y) (hn : IsNode r) :
    tree_eval (.node NUM (some v) .NULL .NULL) = .ok v
      ∧ tree_eval (.node 43 av l r) = .ok (wrap (x + y))
      ∧ (INT_MIN ≤ x + y → x + y ≤ INT_MAX → tree_eval (.node 43 av l r) = .ok (x + y))
      ∧ tree_eval (.node 42 av l r) = .ok (wrap (x * y))
      ∧ (INT_MIN ≤ x * y → x * y ≤ INT_MAX → tree_eval (.node 42 av l r) = .ok (x * y))
      ∧ tree_eval (.node 45 av l r) = .ok (wrap (x - y))
      ∧ (INT_MIN ≤ x - y → x - y ≤ INT_MAX → tree_eval (.node 45 av l r) = .ok (x - y))
      ∧ tree_eval (.node 45 av l .NULL) = .ok (wrap (-x))
      ∧ (INT_MIN ≤ -x → -x ≤ INT_MAX → tree_eval (.node 45 av l .NULL) = .ok (-x))
      ∧ (y ≠ 0 → ¬ (x = INT_MIN ∧ y = -1) →
          tree_eval (.node 47 av l r) = .ok (quotientTowardZero x y)) := by
  have hadd := tree_eval_node_add av l r x y hl hr
  have hmul := tree_eval_node_mul av l r x y hl hr
  have hsub := tree_eval_node_sub av l r x y hl hr hn
  have hneg := tree_eval_node_neg av l x hl
  refine ⟨tree_eval_num v, hadd, ?_, hmul, ?_, hsub, ?_, hneg, ?_, ?_⟩
  · intro h1 h2
    rw [hadd, add32, wrap_of_representable h1 h2]
  · intro h1 h2
    rw [hmul, mul32, wrap_of_representable h1 h2]
  · intro h1 h2
    rw [hsub, sub32, wrap_of_representable h1 h2]
  · intro h1 h2
    rw [hneg, neg32, wrap_of_representable h1 h2]
  · intro hy hxy
    rw [tree_eval_node_div av l r x y hl hr, div32, if_neg hy, if_neg hxy,
      tdiv_eq_quotientTowardZero]

/-- Witness of C13: the children 7 and 2 under each operator. -/
theorem evaluator_equations_witness :
    tree_eval (.node NUM (some 9) .NULL .NULL) = .ok 9
      ∧ tree_eval (.node 43 none (.node NUM (some 7) .NULL .NULL)
          (.node NUM (some 2) .NULL .NULL)) = .ok (wrap (7 + 2))
      ∧ (INT_MIN ≤ 7 + 2 → 7 + 2 ≤ INT_MAX →
          tree_eval (.node 43 none (.node NUM (some 7) .NULL .NULL)
            (.node NUM (some 2) .NULL .NULL)) = .ok (7 + 2))
      ∧ tree_eval (.node 42 none (.node NUM (some 7) .NULL .NULL)
          (.node NUM (some 2) .NULL .NULL)) = .ok (wrap (7 * 2))
      ∧ (INT_MIN ≤ 7 * 2 → 7 * 2 ≤ INT_MAX →
          tree_eval (.node 42 none (.node NUM (some 7) .NULL .NULL)
            (.node NUM (some 2) .NULL .NULL)) = .ok (7 * 2))
      ∧ tree_eval (.node 45 none (.node NUM (some 7) .NULL .NULL)
          (.node NUM (some 2) .NULL .NULL)) = .ok (wrap (7 - 2))
      ∧ (INT_MIN ≤ 7 - 2 → 7 - 2 ≤ INT_MAX →
          tree_eval (.node 45 none (.node NUM (some 7) .NULL .NULL)
            (.node NUM (some 2) .NULL .NULL)) = .ok (7 - 2))
      ∧ tree_eval (.node 45 none (.node NUM (some 7) .NULL .NULL) .NULL) = .ok (wrap (-7))
      ∧ (INT_MIN ≤ -7 → -7 ≤ INT_MAX →
          tree_eval (.node 45 none (.node NUM (some 7) .NULL .NULL) .NULL) = .ok (-7))
      ∧ ((2 : Int) ≠ 0 → ¬ ((7 : Int) = INT_MIN ∧ (2 : Int) = -1) →
          tree_eval (.node 47 none (.node NUM (some 7) .NULL .NULL)
            (.node NUM (some 2) .NULL .NULL)) = .ok (quotientTowardZero 7 2)) :=
  evaluator_equations none (.node NUM (some 7) .NULL .NULL) (.node NUM (some 2) .NULL .NULL)
    7 2 9 (by decide) (by decide) trivial

/-! ## Assertion and default branch of the evaluator -/

theorem knownType_of_nodeShape {ty : Int} {av : Option Int} {l r : tree_t}
    (h : NodeShape (.node ty av l r)) : KnownType ty := by
  rcases h with ⟨⟨hty, _, _⟩, _, _⟩ | ⟨_, ⟨hty, _, _⟩, _⟩ | ⟨_, _, ⟨hty, _, _⟩⟩
  · rcases hty with h | h | h | h
    · exact Or.inl h
    · exact Or.inr (Or.inl h)
    · exact Or.inr (Or.inr (Or.inl h))
    · exact Or.inr (Or.inr (Or.inr (Or.inl h)))
  · exact Or.inr (Or.inl hty)
  · exact Or.inr (Or.inr (Or.inr (Or.inr hty)))

theorem isNode_left_of_operator {ty : Int} {av : Option Int} {l r : tree_t}
    (h : NodeShape (.node ty av l r)) (hty : ty = 43 ∨ ty = 45 ∨ ty = 42 ∨ ty = 47) :
    IsNode l := by
  rcases h with ⟨⟨_, hl, _⟩, _, _⟩ | ⟨_, ⟨_, hl, _⟩, _⟩ | ⟨_, _, ⟨hnum, _, _⟩⟩
  · exact hl
  · exact hl
  · rw [hnum] at hty
    exact absurd hty (by decide)

theorem wellShaped_reaches {t s : tree_t} (h : Reaches t s) (hn : IsNode t)
    (hw : WellShaped t) : IsNode s ∧ WellShaped s := by
  induction h with
  | here t => exact ⟨hn, hw⟩
  | left ty av l r s hty _ ih =>
    exact ih (isNode_left_of_operator hw.1 hty) hw.2.1
  | right ty av l r s x hty _ hnr _ ih =>
    exact ih hnr hw.2.2

theorem tree_eval_no_assert (t : tree_t) (hn : IsNode t) (hw : WellShaped t) :
    tree_eval t ≠ .error .assertRoot := by
  induction t with
  | NULL => exact absurd hn (by simp [IsNode])
  | node ty av l r ihl ihr =>
    obtain ⟨hs, hwl, hwr⟩ := hw
    rcases hs with ⟨⟨hty, hnl, hnr⟩, _, _⟩ | ⟨_, ⟨hty, hnl, hr⟩, _⟩ | ⟨_, _, ⟨hty, _, _⟩⟩
    · have h1 := ihl hnl hwl
      have h2 := ihr hnr hwr
      cases hl : tree_eval l with
      | error e =>
        rw [tree_eval_left_error ty av l r e hty hl]
        rw [hl] at h1
        exact h1
      | ok x =>
        cases hr : tree_eval r with
        | error e =>
          rw [tree_eval_right_error ty av l r x e hty hl hnr hr]
          rw [hr] at h2
          exact h2
        | ok y =>
          rcases hty with rfl | rfl | rfl | rfl
          · rw [tree_eval_node_add av l r x y hl hr]
            exact fun hc => Except.noConfusion hc
          · rw [tree_eval_node_sub av l r x y hl hr hnr]
            exact fun hc => Except.noConfusion hc
          · rw [tree_eval_node_mul av l r x y hl hr]
            exact fun hc => Except.noConfusion hc
          · rw [tree_eval_node_div av l r x y hl hr, div32]
            split_ifs <;> intro hc <;> cases hc
    · have h1 := ihl hnl hwl
      subst hr
      subst hty
      cases hl : tree_eval l with
      | error e =>
        rw [tree_eval_left_error 45 av l .NULL e (by decide) hl]
        rw [hl] at h1
        exact h1
      | ok x =>
        rw [tree_eval_node_neg av l x hl]
        exact fun hc => Except.noConfusion hc
    · subst hty
      cases av <;> rw [tree_eval] <;> simp [NUM, pure, Except.pure]

theorem parseLine_shape {stdin : List Byte} {t : tree_t} {st : State}
    (hp : parseLine stdin = .ok (t, st)) : IsNode t ∧ WellShaped t :=
  (parse_shape _).1 _ t st hp

/-! ## The lookahead is advanced by `match` alone -/

theorem rejected_of_not_wellFormed (stdin : List Byte) (h : ¬ WellFormedLine stdin) :
    main stdin = .error .factorExit ∨ main stdin = .error .matchExit
      ∨ main stdin = .error .assertEOS := by
  cases hp : parseLine stdin with
  | error e =>
    have hf := (parse_faults _).1 _ e (by rw [← parseLine_eq]; exact hp)
    have hw := (parseLine_within stdin).1
    rcases hf with rfl | rfl | rfl
    · exact Or.inl (main_of_parse_error hp)
    · exact Or.inr (Or.inl (main_of_parse_error hp))
    · exact absurd hp hw
  | ok r =>
    obtain ⟨t, st⟩ := r
    by_cases heos : st.curToken = EOS
    · exact absurd (wellFormed_of_parseLine hp heos) h
    · exact Or.inr (Or.inr (main_of_trailing hp heos))

theorem newline_mem_of_wellFormed {stdin : List Byte} (h : WellFormedLine stdin) :
    (10 : Byte) ∈ stdin := by
  obtain ⟨e, b, rest, rfl⟩ := h
  simp

/-- C19: an input that contains no newline character is always rejected, also
when its characters form a well-formed expression: the scanner returns `EOS`
only when it meets a newline and returns the end-of-file value as a token of
its own, so the run stops in `factor`, in `match` or at the check
`curToken == EOS`; the input `2+3` ending at end of file stops at the check. -/
theorem no_newline_rejected (stdin : List Byte) (a : Int) (h : (10 : Byte) ∉ stdin) :
    (main stdin = .error .factorExit ∨ main stdin = .error .matchExit
        ∨ main stdin = .error .assertEOS)
      ∧ (scanToken a stdin).1 ≠ EOS
      ∧ scanToken a [] = (EOF, a, [])
      ∧ parseLine (bytes "2+3")
          = .ok (mktree 43 (.node NUM (some 2) .NULL .NULL) (.node NUM (some 3) .NULL .NULL),
            ⟨EOF, 3, []⟩)
      ∧ main (bytes "2+3") = .error .assertEOS := by
  refine ⟨?_, ?_, rfl, by decide, by decide⟩
  · exact rejected_of_not_wellFormed stdin (fun hw => h (newline_mem_of_wellFormed hw))
  · intro hc
    rw [scanToken_token] at hc
    obtain ⟨b, inp2, rfl⟩ := nextToken_inv_newline stdin hc
    exact h (by simp)

/-- Witness of C19: the input `(2+3)*4` with no newline. -/
theorem no_newline_rejected_witness :
    (main (bytes "(2+3)*4") = .error .factorExit ∨ main (bytes "(2+3)*4") = .error .matchExit
        ∨ main (bytes "(2+3)*4") = .error .assertEOS)
      ∧ (scanToken 0 (bytes "(2+3)*4")).1 ≠ EOS
      ∧ scanToken 0 [] = (EOF, 0, [])
      ∧ parseLine (bytes "2+3")
          = .ok (mktree 43 (.node NUM (some 2) .NULL .NULL) (.node NUM (some 3) .NULL .NULL),
            ⟨EOF, 3, []⟩)
      ∧ main (bytes "2+3") = .error .assertEOS :=
  no_newline_rejected (bytes "(2+3)*4") 0 (by decide)

theorem treeE_parenthesized (k : Nat) (e : Expression) :
    treeE (parenthesized k e) = treeE e := by
  induction k with
  | zero => rfl
  | succ k ih => rw [parenthesized, treeE, treeET, treeT, treeTT, treeF, ih]

theorem renderE_parenthesized (k : Nat) (e : Expression) :
    renderE (parenthesized (k + 1) e) = 40 :: (renderE (parenthesized k e) ++ [41]) := by
  rw [parenthesized, renderE, renderET, renderT, renderTT, renderF]
  simp [blanks]

/-- C20: parentheses add no node. When the lookahead is `(` and `expr`, run
after it, returns a tree with `)` as lookahead, `factor` returns exactly that
tree; so for every well-formed expression `e`, with blanks allowed before each
parenthesis, `factor` on `( e )` returns the tree that `expr` returns on `e`;
and wrapping the expression of a line in any number of parenthesis pairs
leaves the parsed tree and the result of `main` unchanged. -/
theorem parentheses_add_no_node (e : Expression) (b b2 b3 : List Blank) (k n : Nat)
    (a : Int) (inp rest : List Byte) (hn : 3 * (renderE e).length + 3 ≤ n) :
    (∀ t s1, expr n (look a inp) = .ok (t, s1) → s1.curToken = 41 →
        factor (n + 1) ⟨40, a, inp⟩ = .ok (t, advance s1))
      ∧ (∃ a2, expr n (look a (renderE e ++ (blanks b2 ++ 41 :: rest)))
            = .ok (treeE e, ⟨41, a2, rest⟩)
          ∧ factor (n + 1) (look a (blanks b ++ 40 :: (renderE e ++ (blanks b2 ++ 41 :: rest))))
            = .ok (treeE e, look a2 rest))
      ∧ renderE (parenthesized (k + 1) e) = 40 :: (renderE (parenthesized k e) ++ [41])
      ∧ (∃ a2 a3, parseLine (renderE (parenthesized k e) ++ (blanks b3 ++ 10 :: rest))
            = .ok (treeE e, ⟨EOS, a2, rest⟩)
          ∧ parseLine (renderE e ++ (blanks b3 ++ 10 :: rest))
            = .ok (treeE e, ⟨EOS, a3, rest⟩))
      ∧ main (renderE (parenthesized k e) ++ (blanks b3 ++ 10 :: rest))
          = main (renderE e ++ (blanks b3 ++ 10 :: rest))
      ∧ main (bytes "((2+3))\n") = .ok 5 ∧ main (bytes "2+3\n") = .ok 5 := by
  have hstep : ∀ inp2 t s1, expr n (look a inp2) = .ok (t, s1) → s1.curToken = 41 →
      factor (n + 1) ⟨40, a, inp2⟩ = .ok (t, advance s1) := by
    intro inp2 t s1 h1 h41
    rw [factor_succ]
    simp only [if_true, advance_mk, h1, h41]
  obtain ⟨a2, h2⟩ := expr_complete e n a (blanks b2 ++ 41 :: rest)
    (le_trans (needE_le e) hn) (stopE_close b2 rest)
  rw [look_paren_close] at h2
  obtain ⟨a4, h4⟩ := parseLine_complete (parenthesized k e) b3 rest
  obtain ⟨a5, h5⟩ := parseLine_complete e b3 rest
  rw [treeE_parenthesized] at h4
  refine ⟨hstep inp, ⟨a2, h2, ?_⟩, renderE_parenthesized k e, ⟨a4, a5, h4, h5⟩, ?_,
    by decide, by decide⟩
  · rw [look_paren_open, hstep _ _ _ h2 rfl, advance_mk]
  · rw [main_of_parseLine h4, main_of_parseLine h5]

/-- Witness of C20: the expression `2 + 3*4` in two pairs of parentheses. -/
theorem parentheses_add_no_node_witness :
    renderE (parenthesized 2 sampleSum) ++ (blanks [] ++ 10 :: []) = bytes "((2 + 3*4))\n"
      ∧ main (renderE (parenthesized 2 sampleSum) ++ (blanks [] ++ 10 :: []))
          = main (renderE sampleSum ++ (blanks [] ++ 10 :: [])) :=
  ⟨by decide,
    (parentheses_add_no_node sampleSum [] [] [] 2 30 0 [] [] (by decide)).2.2.2.2.1⟩

/-! ## The outcome does not depend on the recursion budget -/

theorem expr_succ_bind (n : Nat) (st : State) :
    expr (n + 1) st = (term n st).bind (fun r => expr_loop n r.1 r.2) := by
  rw [expr_succ]
  cases term n st <;> rfl

theorem term_succ_bind (n : Nat) (st : State) :
    term (n + 1) st = (factor n st).bind (fun r => term_loop n r.1 r.2) := by
  rw [term_succ]
  cases factor n st <;> rfl

theorem expr_loop_succ_bind (n : Nat) (value : tree_t) (st : State) :
    expr_loop (n + 1) value st
      = if st.curToken = 43 then
          (term n (advance st)).bind (fun r => expr_loop n (mktree 43 value r.1) r.2)
        else if st.curToken = 45 then
          (term n (advance st)).bind (fun r => expr_loop n (mktree 45 value r.1) r.2)
        else .ok (value, st) := by
  rw [expr_loop_succ]
  cases term n (advance st) <;> rfl

theorem term_loop_succ_bind (n : Nat) (value : tree_t) (st : State) :
    term_loop (n + 1) value st
      = if st.curToken = 42 then
          (factor n (advance st)).bind (fun r => term_loop n (mktree 42 value r.1) r.2)
        else if st.curToken = 47 then
          (factor n (advance st)).bind (fun r => term_loop n (mktree 47 value r.1) r.2)
        else .ok (value, st) := by
  rw [term_loop_succ]
  cases factor n (advance st) <;> rfl

theorem factor_succ_bind (n : Nat) (st : State) :
    factor (n + 1) st
      = if st.curToken = 40 then
          (expr n (advance st)).bind (fun r =>
            if r.2.curToken = 41 then .ok (r.1, advance r.2) else .error .matchExit)
        else if st.curToken = 45 then
          (factor n (advance st)).bind (fun r => .ok (mktree 45 r.1 .NULL, r.2))
        else if st.curToken = NUM then
          .ok (.node NUM (some st.curAttribute) .NULL .NULL, advance st)
        else .error .factorExit := by
  rw [factor_succ]
  cases expr n (advance st) <;> cases factor n (advance st) <;> rfl

theorem bind_fuel {α β : Type} {r r2 : Except Fault α} {f f2 : α → Except Fault β}
    (h : r.bind f ≠ .error .outOfFuel) (hr : r ≠ .error .outOfFuel → r2 = r)
    (hf : ∀ p, f p ≠ .error .outOfFuel → f2 p = f p) : r2.bind f2 = r.bind f := by
  have hne : r ≠ .error .outOfFuel := by
    intro hc
    rw [hc] at h
    exact h rfl
  rw [hr hne]
  cases r with
  | error e => rfl
  | ok p => exact hf p h

theorem fuel_step (n : Nat) :
    (∀ st, expr n st ≠ .error .outOfFuel → expr (n + 1) st = expr n st)
      ∧ (∀ value st, expr_loop n value st ≠ .error .outOfFuel →
          expr_loop (n + 1) value st = expr_loop n value st)
      ∧ (∀ st, term n st ≠ .error .outOfFuel → term (n + 1) st = term n st)
      ∧ (∀ value st, term_loop n value st ≠ .error .outOfFuel →
          term_loop (n + 1) value st = term_loop n value st)
      ∧ (∀ st, factor n st ≠ .error .outOfFuel → factor (n + 1) st = factor n st) := by
  induction n with
  | zero =>
    refine ⟨?_, ?_, ?_, ?_, ?_⟩
    · intro st h
      exact absurd (expr_zero st) h
    · intro value st h
      exact absurd (expr_loop_zero value st) h
    · intro st h
      exact absurd (term_zero st) h
    · intro value st h
      exact absurd (term_loop_zero value st) h
    · intro st h
      exact absurd (factor_zero st) h
  | succ n ih =>
    obtain ⟨ihE, ihEL, ihT, ihTL, ihF⟩ := ih
    refine ⟨?_, ?_, ?_, ?_, ?_⟩
    · intro st h
      rw [expr_succ_bind n st] at h
      rw [expr_succ_bind n st, expr_succ_bind (n + 1) st]
      exact bind_fuel h (ihT st) (fun p hp => ihEL p.1 p.2 hp)
    · intro value st h
      rw [expr_loop_succ_bind n value st] at h
      rw [expr_loop_succ_bind n value st, expr_loop_succ_bind (n + 1) value st]
      split_ifs at h ⊢
      · exact bind_fuel h (ihT _) (fun p hp => ihEL _ p.2 hp)
      · exact bind_fuel h (ihT _) (fun p hp => ihEL _ p.2 hp)
      · rfl
    · intro st h
      rw [term_succ_bind n st] at h
      rw [term_succ_bind n st, term_succ_bind (n + 1) st]
      exact bind_fuel h (ihF st) (fun p hp => ihTL p.1 p.2 hp)
    · intro value st h
      rw [term_loop_succ_bind n value st] at h
      rw [term_loop_succ_bind n value st, term_loop_succ_bind (n + 1) value st]
      split_ifs at h ⊢
      · exact bind_fuel h (ihF _) (fun p hp => ihTL _ p.2 hp)
      · exact bind_fuel h (ihF _) (fun p hp => ihTL _ p.2 hp)
      · rfl
    · intro st h
      rw [factor_succ_bind n st] at h
      rw [factor_succ_bind n st, factor_succ_bind (n + 1) st]
      split_ifs at h ⊢
      · exact bind_fuel h (ihE _) (fun p _ => rfl)
      · exact bind_fuel h (ihF _) (fun p _ => rfl)
      · rfl
      · rfl

theorem expr_fuel_add (k n : Nat) (st : State) (h : expr n st ≠ .error .outOfFuel) :
    expr (n + k) st = expr n st := by
  induction k with
  | zero => rfl
  | succ k ih =>
    have h2 : expr (n + k) st ≠ .error .outOfFuel := by
      rw [ih]
      exact h
    rw [← ih]
    exact (fuel_step (n + k)).1 st h2

theorem expr_fuel_le {n m : Nat} (st : State) (hnm : n ≤ m)
    (h : expr n st ≠ .error .outOfFuel) : expr m st = expr n st := by
  obtain ⟨k, rfl⟩ := Nat.exists_eq_add_of_le hnm
  exact expr_fuel_add k n st h

theorem expr_fuel_irrelevant {n m : Nat} (st : State)
    (hn : expr n st ≠ .error .outOfFuel) (hm : expr m st ≠ .error .outOfFuel) :
    expr n st = expr m st := by
  rcases Nat.le_total n m with h | h
  · exact (expr_fuel_le st h hn).symm
  · exact expr_fuel_le st h hm

theorem tree_eval_faults (t : tree_t) :
    ∀ e, tree_eval t = .error e →
      e = .assertRoot ∨ e = .divideFault ∨ e = .indeterminate := by
  induction t with
  | NULL =>
    intro e h
    rw [tree_eval] at h
    cases h
    exact Or.inl rfl
  | node ty av l r ihl ihr =>
    intro e h
    have hdiv : ∀ x y, div32 x y = .error e → e = .divideFault := by
      intro x y hd
      unfold div32 at hd
      split_ifs at hd <;> cases hd <;> rfl
    cases hl : tree_eval l with
    | error el =>
      have h1 := ihl el hl
      cases av <;> rw [tree_eval] at h <;> split_ifs at h <;>
        simp [hl, bind, Except.bind, pure, Except.pure] at h <;>
        first
          | (subst h; exact h1)
          | (rw [← h]; exact Or.inr (Or.inr rfl))
    | ok x =>
      cases hr : tree_eval r with
      | error er =>
        have h2 := ihr er hr
        cases r with
        | NULL =>
          cases av <;> rw [tree_eval] at h <;> split_ifs at h <;>
            simp [hl, hr, bind, Except.bind, pure, Except.pure] at h <;>
            first
              | (subst h; exact h2)
              | (rw [← h]; exact Or.inr (Or.inr rfl))
        | node rt ra rl rr =>
          cases av <;> rw [tree_eval] at h <;> split_ifs at h <;>
            simp [hl, hr, bind, Except.bind, pure, Except.pure] at h <;>
            first
              | (subst h; exact h2)
              | (rw [← h]; exact Or.inr (Or.inr rfl))
      | ok y =>
        cases r with
        | NULL =>
          cases av <;> rw [tree_eval] at h <;> split_ifs at h <;>
            simp [hl, hr, bind, Except.bind, pure, Except.pure] at h <;>
            first
              | exact Or.inr (Or.inl (hdiv _ _ h))
              | (rw [← h]; exact Or.inr (Or.inr rfl))
        | node rt ra rl rr =>
          cases av <;> rw [tree_eval] at h <;> split_ifs at h <;>
            simp [hl, hr, bind, Except.bind, pure, Except.pure] at h <;>
            first
              | exact Or.inr (Or.inl (hdiv _ _ h))
              | (rw [← h]; exact Or.inr (Or.inr rfl))

theorem main_fuel_eq (n : Nat) (stdin : List Byte) :
    main_fuel n stdin = (expr n (look 0 stdin)).bind
      (fun r => if r.2.curToken = EOS then tree_eval r.1 else .error .assertEOS) := rfl

theorem main_ne_outOfFuel (stdin : List Byte) : main stdin ≠ .error .outOfFuel := by
  rw [main_eq]
  have hw := (parseLine_within stdin).1
  cases hp : parseLine stdin with
  | error e =>
    rw [hp] at hw
    intro hc
    have hc2 : (Except.error e : Except Fault Int) = .error .outOfFuel := hc
    cases hc2
    exact hw rfl
  | ok r =>
    show (if r.2.curToken = EOS then tree_eval r.1 else Except.error Fault.assertEOS) ≠ _
    split_ifs
    · intro hc
      rcases tree_eval_faults _ _ hc with h | h | h <;> cases h
    · intro hc
      cases hc

/-- C17: the run terminates on every finite input, with or without a newline:
the recursion budget that `main` supplies is never used up, and every larger
budget gives the same outcome; a call of the scanner leaves no more input than
it found (its loops run over the input once); every successful `match` of a
token other than the end-of-file value, the only kind the parser matches,
leaves strictly less to parse, and so does every successful call of `expr`;
`tree_eval`, defined by recursion on the subtrees, uses no budget. -/
theorem pipeline_terminates (stdin : List Byte) (n : Nat) (a token : Int) (st st1 : State)
    (hn : 3 * stdin.length + 3 ≤ n) (hm : match_ token st = .ok st1)
    (htok : token ≠ EOF) :
    main stdin ≠ .error .outOfFuel
      ∧ main_fuel n stdin = main stdin
      ∧ (scanToken a stdin).2.2.length ≤ stdin.length
      ∧ remaining st1 + 1 ≤ remaining st
      ∧ (∀ t st2, parseLine stdin = .ok (t, st2) → remaining st2 + 1 ≤ stdin.length)
      ∧ (∀ t, tree_eval t ≠ .error .outOfFuel)
      ∧ main [] = .error .factorExit
      ∧ main (bytes "((((") = .error .factorExit := by
  refine ⟨main_ne_outOfFuel stdin, ?_, ?_, ?_, (parseLine_within stdin).2, ?_,
    by decide, by decide⟩
  · have hw := (parseLine_within stdin).1
    rw [parseLine_eq] at hw
    rw [main_fuel_eq, expr_fuel_le (look 0 stdin) hn hw]
    rfl
  · have h := scanToken_remaining a stdin
    omega
  · rw [match_eq] at hm
    split_ifs at hm with heq
    cases hm
    exact remaining_advance st (by rw [heq]; exact htok)
  · intro t hc
    rcases tree_eval_faults t _ hc with h | h | h <;> cases h

/-- Witness of C17: the input `2+3` with no newline, budget 100, and the match
of `NUM` in the state that `main` starts the parser in. -/
theorem pipeline_terminates_witness :
    main (bytes "2+3") ≠ .error .outOfFuel
      ∧ main_fuel 100 (bytes "2+3") = main (bytes "2+3")
      ∧ (scanToken 0 (bytes "2+3")).2.2.length ≤ (bytes "2+3").length
      ∧ remaining ⟨43, 2, bytes "3"⟩ + 1 ≤ remaining ⟨NUM, 2, bytes "+3"⟩
      ∧ (∀ t st2, parseLine (bytes "2+3") = .ok (t, st2) →
          remaining st2 + 1 ≤ (bytes "2+3").length)
      ∧ (∀ t, tree_eval t ≠ .error .outOfFuel)
      ∧ main [] = .error .factorExit
      ∧ main (bytes "((((") = .error .factorExit :=
  pipeline_terminates (bytes "2+3") 100 0 NUM ⟨NUM, 2, bytes "+3"⟩ ⟨43, 2, bytes "3"⟩
    (by decide) (by decide) (by decide)

/-! ## Runs on related inputs -/

theorem sim_error (R : State → State → Prop) (e : Fault) :
    Sim R (.error e) (.error e) := rfl

theorem sim_ok (R : State → State → Prop) (t : tree_t) (s s2 : State) (h : R s s2) :
    Sim R (.ok (t, s)) (.ok (t, s2)) := ⟨rfl, h⟩

theorem sim_bind {R : State → State → Prop} {r r2 : Except Fault (tree_t × State)}
    {f f2 : tree_t × State → Except Fault (tree_t × State)} (h : Sim R r r2)
    (hf : ∀ t s s2, R s s2 → Sim R (f (t, s)) (f2 (t, s2))) :
    Sim R (r.bind f) (r2.bind f2) := by
  cases r with
  | error e =>
    cases r2 with
    | error e2 => exact h
    | ok q => exact h.elim
  | ok p =>
    cases r2 with
    | error e2 => exact h.elim
    | ok q =>
      obtain ⟨t, s⟩ := p
      obtain ⟨t2, s2⟩ := q
      obtain ⟨ht, hs⟩ := h
      have ht2 : t = t2 := ht
      subst ht2
      exact hf t s s2 hs

theorem parse_simulation (R : State → State → Prop)
    (htok : ∀ s s2, R s s2 → s.curToken = s2.curToken ∧ s.curAttribute = s2.curAttribute)
    (hadv : ∀ s s2, R s s2 → s.curToken ≠ EOS → R (advance s) (advance s2)) (n : Nat) :
    (∀ s s2, R s s2 → Sim R (expr n s) (expr n s2))
      ∧ (∀ value s s2, R s s2 → Sim R (expr_loop n value s) (expr_loop n value s2))
      ∧ (∀ s s2, R s s2 → Sim R (term n s) (term n s2))
      ∧ (∀ value s s2, R s s2 → Sim R (term_loop n value s) (term_loop n value s2))
      ∧ (∀ s s2, R s s2 → Sim R (factor n s) (factor n s2)) := by
  induction n with
  | zero =>
    refine ⟨?_, ?_, ?_, ?_, ?_⟩
    · intro s s2 _
      rw [expr_zero, expr_zero]
      exact sim_error R _
    · intro value s s2 _
      rw [expr_loop_zero, expr_loop_zero]
      exact sim_error R _
    · intro s s2 _
      rw [term_zero, term_zero]
      exact sim_error R _
    · intro value s s2 _
      rw [term_loop_zero, term_loop_zero]
      exact sim_error R _
    · intro s s2 _
      rw [factor_zero, factor_zero]
      exact sim_error R _
  | succ n ih =>
    obtain ⟨ihE, ihEL, ihT, ihTL, ihF⟩ := ih
    refine ⟨?_, ?_, ?_, ?_, ?_⟩
    · intro s s2 h
      rw [expr_succ_bind n s, expr_succ_bind n s2]
      exact sim_bind (ihT s s2 h) (fun t a a2 ha => ihEL t a a2 ha)
    · intro value s s2 h
      have hc := (htok s s2 h).1
      rw [expr_loop_succ_bind n value s, expr_loop_succ_bind n value s2, ← hc]
      split_ifs with h43 h45
      · exact sim_bind (ihT _ _ (hadv s s2 h (by rw [h43]; decide)))
          (fun t a a2 ha => ihEL _ a a2 ha)
      · exact sim_bind (ihT _ _ (hadv s s2 h (by rw [h45]; decide)))
          (fun t a a2 ha => ihEL _ a a2 ha)
      · exact sim_ok R value s s2 h
    · intro s s2 h
      rw [term_succ_bind n s, term_succ_bind n s2]
      exact sim_bind (ihF s s2 h) (fun t a a2 ha => ihTL t a a2 ha)
    · intro value s s2 h
      have hc := (htok s s2 h).1
      rw [term_loop_succ_bind n value s, term_loop_succ_bind n value s2, ← hc]
      split_ifs with h42 h47
      · exact sim_bind (ihF _ _ (hadv s s2 h (by rw [h42]; decide)))
          (fun t a a2 ha => ihTL _ a a2 ha)
      · exact sim_bind (ihF _ _ (hadv s s2 h (by rw [h47]; decide)))
          (fun t a a2 ha => ihTL _ a a2 ha)
      · exact sim_ok R value s s2 h
    · intro s s2 h
      have hc := (htok s s2 h).1
      have ha := (htok s s2 h).2
      rw [factor_succ_bind n s, factor_succ_bind n s2, ← hc, ← ha]
      split_ifs with h40 h45 hnum
      · refine sim_bind (ihE _ _ (hadv s s2 h (by rw [h40]; decide))) ?_
        intro t a a2 haa
        have hc2 := (htok a a2 haa).1
        show Sim R (if a.curToken = 41 then _ else _) (if a2.curToken = 41 then _ else _)
        rw [← hc2]
        split_ifs with h41
        · exact sim_ok R t _ _ (hadv a a2 haa (by rw [h41]; decide))
        · exact sim_error R _
      · exact sim_bind (ihF _ _ (hadv s s2 h (by rw [h45]; decide)))
          (fun t a a2 haa => sim_ok R _ a a2 haa)
      · exact sim_ok R _ _ _ (hadv s s2 h (by rw [hnum]; decide))
      · exact sim_error R _

theorem parseLine_simulation (R : State → State → Prop)
    (htok : ∀ s s2, R s s2 → s.curToken = s2.curToken ∧ s.curAttribute = s2.curAttribute)
    (hadv : ∀ s s2, R s s2 → s.curToken ≠ EOS → R (advance s) (advance s2))
    (inp inp2 : List Byte) (h0 : R (look 0 inp) (look 0 inp2)) :
    Sim R (parseLine inp) (parseLine inp2) := by
  have hs := (parse_simulation R htok hadv (3 * inp.length + 3)).1 _ _ h0
  have h1 := (parseLine_within inp).1
  have h2 := (parseLine_within inp2).1
  rw [parseLine_eq] at h1 h2
  have h3 : expr (3 * inp.length + 3) (look 0 inp2) ≠ .error .outOfFuel := by
    intro hc
    rw [hc] at hs
    cases hr : expr (3 * inp.length + 3) (look 0 inp) with
    | error e =>
      rw [hr] at hs h1
      have he : e = Fault.outOfFuel := hs
      exact h1 (by rw [he])
    | ok p =>
      rw [hr] at hs
      exact hs.elim
  rw [parseLine_eq, parseLine_eq, ← expr_fuel_irrelevant (look 0 inp2) h3 h2]
  exact hs

theorem main_of_sim {R : State → State → Prop}
    (htok : ∀ s s2, R s s2 → s.curToken = s2.curToken ∧ s.curAttribute = s2.curAttribute)
    {inp inp2 : List Byte} (h : Sim R (parseLine inp) (parseLine inp2)) :
    main inp = main inp2 := by
  rw [main_eq, main_eq]
  cases h1 : parseLine inp with
  | error e =>
    cases h2 : parseLine inp2 with
    | error e2 =>
      rw [h1, h2] at h
      have he : e = e2 := h
      rw [he]
    | ok q =>
      rw [h1, h2] at h
      exact h.elim
  | ok p =>
    cases h2 : parseLine inp2 with
    | error e2 =>
      rw [h1, h2] at h
      exact h.elim
    | ok q =>
      rw [h1, h2] at h
      obtain ⟨ht, hs⟩ := h
      show (if p.2.curToken = EOS then tree_eval p.1 else Except.error Fault.assertEOS)
        = (if q.2.curToken = EOS then tree_eval q.1 else Except.error Fault.assertEOS)
      rw [ht, (htok _ _ hs).1]

/-! ## Nothing after the first newline is read -/

theorem scanToken_cons_eq (a : Int) (y : Byte) (ys : List Byte) :
    scanToken a (y :: ys)
      = if (y.val : Int) = 32 ∨ (y.val : Int) = 9 then scanToken a ys
        else if (y.val : Int) = 10 then (EOS, a, ys)
        else if isdigit y.val = true then
          (NUM, wrap (accumulate 0 (y :: ys.takeWhile isDigitByte)),
            ys.dropWhile isDigitByte)
        else ((y.val : Int), a, ys) := by
  rcases scanToken_cons_cases a y ys with ⟨hb, he⟩ | ⟨hn, he⟩ | ⟨hd, he⟩ | ⟨hd, he⟩
  · rw [if_pos hb, he]
  · have hb : ¬ ((y.val : Int) = 32 ∨ (y.val : Int) = 9) := by omega
    rw [if_neg hb, if_pos hn, he]
  · have hv : (48 : Int) ≤ y.val ∧ (y.val : Int) ≤ 57 := by
      simpa [isdigit] using hd
    have hb : ¬ ((y.val : Int) = 32 ∨ (y.val : Int) = 9) := by omega
    have hn : ¬ ((y.val : Int) = 10) := by omega
    rw [if_neg hb, if_neg hn, if_pos hd, he]
  · by_cases hb : (y.val : Int) = 32 ∨ (y.val : Int) = 9
    · rw [if_pos hb]
      rw [scanToken]
      simp only [hb, if_true]
    · by_cases hn : (y.val : Int) = 10
      · have hb2 : ¬ ((10 : Int) = 32 ∨ (10 : Int) = 9) := by decide
        rw [if_neg hb, if_pos hn, scanToken]
        simp only [hn, hb2, if_true, if_false]
      · have hd2 : ¬ (isdigit y.val = true) := by
          rw [hd]
          decide
        rw [if_neg hb, if_neg hn, if_neg hd2, he]

theorem takeWhile_append_stop (ys : List Byte) (x : Byte) (rest : List Byte)
    (hx : isDigitByte x = false) :
    (ys ++ x :: rest).takeWhile isDigitByte = ys.takeWhile isDigitByte := by
  induction ys with
  | nil => exact List.takeWhile_cons_of_neg (by rw [hx]; decide)
  | cons z zs ih =>
    by_cases hz : isDigitByte z = true
    · rw [List.cons_append, List.takeWhile_cons_of_pos hz, List.takeWhile_cons_of_pos hz, ih]
    · rw [List.cons_append, List.takeWhile_cons_of_neg hz, List.takeWhile_cons_of_neg hz]

theorem dropWhile_append_stop (ys : List Byte) (x : Byte) (rest : List Byte)
    (hx : isDigitByte x = false) :
    (ys ++ x :: rest).dropWhile isDigitByte = ys.dropWhile isDigitByte ++ x :: rest := by
  induction ys with
  | nil => exact List.dropWhile_cons_of_neg (by rw [hx]; decide)
  | cons z zs ih =>
    by_cases hz : isDigitByte z = true
    · rw [List.cons_append, List.dropWhile_cons_of_pos hz, List.dropWhile_cons_of_pos hz, ih]
    · rw [List.cons_append, List.dropWhile_cons_of_neg hz, List.dropWhile_cons_of_neg hz]
      rfl

theorem scanToken_line (a : Int) (u : List Byte) (hu : (10 : Byte) ∉ u) :
    (∀ rest, scanToken a (u ++ 10 :: rest) = (EOS, a, rest))
      ∨ ∃ tok a2 u2, (10 : Byte) ∉ u2
          ∧ ∀ rest, scanToken a (u ++ 10 :: rest) = (tok, a2, u2 ++ 10 :: rest) := by
  induction u with
  | nil => exact Or.inl (fun rest => scanToken_newline a rest)
  | cons y ys ih =>
    have hy : ¬ ((y.val : Int) = 10) := by
      intro hc
      exact hu (by rw [byte_eq_of_val (x := 10) hc]; exact List.mem_cons_self _ _)
    have hys : (10 : Byte) ∉ ys := fun hc => hu (List.mem_cons_of_mem _ hc)
    by_cases hb : (y.val : Int) = 32 ∨ (y.val : Int) = 9
    · rcases ih hys with h | ⟨tok, a2, u2, hu2, h⟩
      · left
        intro rest
        rw [List.cons_append, scanToken_cons_eq, if_pos hb, h]
      · right
        refine ⟨tok, a2, u2, hu2, ?_⟩
        intro rest
        rw [List.cons_append, scanToken_cons_eq, if_pos hb, h]
    · right
      by_cases hd : isdigit y.val = true
      · refine ⟨NUM, wrap (accumulate 0 (y :: ys.takeWhile isDigitByte)),
          ys.dropWhile isDigitByte, ?_, ?_⟩
        · exact fun hc => hys ((List.dropWhile_sublist _).subset hc)
        · intro rest
          rw [List.cons_append, scanToken_cons_eq, if_neg hb, if_neg hy, if_pos hd,
            takeWhile_append_stop ys 10 rest rfl, dropWhile_append_stop ys 10 rest rfl]
      · refine ⟨(y.val : Int), a, ys, hys, ?_⟩
        intro rest
        rw [List.cons_append, scanToken_cons_eq, if_neg hb, if_neg hy, if_neg hd]

theorem sameLine_tokens (rest1 rest2 : List Byte) (s s2 : State)
    (h : SameLine rest1 rest2 s s2) :
    s.curToken = s2.curToken ∧ s.curAttribute = s2.curAttribute := ⟨h.1, h.2.1⟩

theorem sameLine_advance (rest1 rest2 : List Byte) (s s2 : State)
    (h : SameLine rest1 rest2 s s2) (hne : s.curToken ≠ EOS) :
    SameLine rest1 rest2 (advance s) (advance s2) := by
  obtain ⟨c, a, inp⟩ := s
  obtain ⟨c2, a2, inp2⟩ := s2
  obtain ⟨hc, ha, hin⟩ := h
  have hc1 : c = c2 := hc
  have ha1 : a = a2 := ha
  subst hc1
  subst ha1
  rcases hin with ⟨u, hu, h1, h2⟩ | ⟨heos, _, _⟩
  · have h1b : inp = u ++ 10 :: rest1 := h1
    have h2b : inp2 = u ++ 10 :: rest2 := h2
    subst h1b
    subst h2b
    rw [advance_mk, advance_mk, look_eq, look_eq]
    rcases scanToken_line a u hu with hl | ⟨tok, a3, u2, hu2, hl⟩
    · rw [hl rest1, hl rest2]
      exact ⟨rfl, rfl, Or.inr ⟨rfl, rfl, rfl⟩⟩
    · rw [hl rest1, hl rest2]
      exact ⟨rfl, rfl, Or.inl ⟨u2, hu2, rfl, rfl⟩⟩
  · exact absurd heos hne

theorem sameLine_initial (line rest1 rest2 : List Byte) (h : (10 : Byte) ∉ line) :
    SameLine rest1 rest2 (look 0 (line ++ 10 :: rest1)) (look 0 (line ++ 10 :: rest2)) :=
  sameLine_advance rest1 rest2 ⟨0, 0, line ++ 10 :: rest1⟩ ⟨0, 0, line ++ 10 :: rest2⟩
    ⟨rfl, rfl, Or.inl ⟨line, h, rfl, rfl⟩⟩ (show (0 : Int) ≠ EOS by decide)

theorem parseLine_sameLine (line rest1 rest2 : List Byte) (h : (10 : Byte) ∉ line) :
    Sim (SameLine rest1 rest2) (parseLine (line ++ 10 :: rest1))
      (parseLine (line ++ 10 :: rest2)) :=
  parseLine_simulation (SameLine rest1 rest2) (sameLine_tokens rest1 rest2)
    (sameLine_advance rest1 rest2) _ _ (sameLine_initial line rest1 rest2 h)

/-- C18: two inputs that agree up to and including their first newline give
the same outcome of `main` (the same value or the same fault): the parser
returns the same tree or stops with the same fault on both; what follows the
newline is still unread when the parser returns; and once `EOS` is the
lookahead no `match` of another token succeeds, so the scanner is not called
again. The input `2+3` followed by a second line `4+5` yields 5. -/
theorem nothing_after_newline (line rest1 rest2 : List Byte) (token : Int) (st : State)
    (h : (10 : Byte) ∉ line) (heos : st.curToken = EOS) (htok : token ≠ EOS) :
    main (line ++ 10 :: rest1) = main (line ++ 10 :: rest2)
      ∧ Sim (SameLine rest1 rest2) (parseLine (line ++ 10 :: rest1))
          (parseLine (line ++ 10 :: rest2))
      ∧ (∀ t s, parseLine (line ++ 10 :: rest1) = .ok (t, s) → ∃ u, s.stdin = u ++ rest1)
      ∧ match_ token st = .error .matchExit
      ∧ parseLine (bytes "2+3\n4+5\n")
          = .ok (mktree 43 (.node NUM (some 2) .NULL .NULL) (.node NUM (some 3) .NULL .NULL),
            ⟨EOS, 3, bytes "4+5\n"⟩)
      ∧ main (bytes "2+3\n4+5\n") = .ok 5 := by
  refine ⟨?_, parseLine_sameLine line rest1 rest2 h, ?_, ?_, by decide, by decide⟩
  · exact main_of_sim (sameLine_tokens rest1 rest2) (parseLine_sameLine line rest1 rest2 h)
  · intro t s hp
    have hs := parseLine_sameLine line rest1 rest1 h
    rw [hp] at hs
    obtain ⟨_, _, _, hin⟩ := hs
    rcases hin with ⟨u, _, h1, _⟩ | ⟨_, h1, _⟩
    · exact ⟨u ++ [10], by rw [h1]; simp⟩
    · exact ⟨[], by rw [h1]; rfl⟩
  · rw [match_eq, if_neg (by rw [heos]; exact fun hc => htok hc.symm)]

/-- Witness of C18: the line `2+3` followed by `4+5` or by `)))`. -/
theorem nothing_after_newline_witness :
    main (bytes "2+3" ++ 10 :: bytes "4+5\n") = main (bytes "2+3" ++ 10 :: bytes ")))")
      ∧ Sim (SameLine (bytes "4+5\n") (bytes ")))"))
          (parseLine (bytes "2+3" ++ 10 :: bytes "4+5\n"))
          (parseLine (bytes "2+3" ++ 10 :: bytes ")))"))
      ∧ (∀ t s, parseLine (bytes "2+3" ++ 10 :: bytes "4+5\n") = .ok (t, s) →
          ∃ u, s.stdin = u ++ bytes "4+5\n")
      ∧ match_ 43 ⟨EOS, 3, bytes "4+5\n"⟩ = .error .matchExit
      ∧ parseLine (bytes "2+3\n4+5\n")
          = .ok (mktree 43 (.node NUM (some 2) .NULL .NULL) (.node NUM (some 3) .NULL .NULL),
            ⟨EOS, 3, bytes "4+5\n"⟩)
      ∧ main (bytes "2+3\n4+5\n") = .ok 5 :=
  nothing_after_newline (bytes "2+3") (bytes "4+5\n") (bytes ")))") 43
    ⟨EOS, 3, bytes "4+5\n"⟩ (by decide) rfl (by decide)

/-! ## Blanks before a token are skipped -/

theorem scan_of_not_startsWithDigit (l : List Byte) (h : startsWithDigit l = false) :
    l.takeWhile isDigitByte = [] ∧ l.dropWhile isDigitByte = l := by
  cases l with
  | nil => exact ⟨rfl, rfl⟩
  | cons x xs =>
    have hx : ¬ (isDigitByte x = true) := by
      have h2 : isDigitByte x = false := h
      rw [h2]
      decide
    exact ⟨List.takeWhile_cons_of_neg hx, List.dropWhile_cons_of_neg hx⟩

theorem startsWithDigit_blanks_append (b : List Blank) (q : List Byte)
    (h : startsWithDigit q = false) : startsWithDigit (blanks b ++ q) = false := by
  cases b with
  | nil => exact h
  | cons x xs => exact isdigit_blankByte x

theorem digits_insert (b : List Blank) (p q : List Byte) (h : boundaryAfter true p q) :
    (p ++ q).takeWhile isDigitByte = (p ++ (blanks b ++ q)).takeWhile isDigitByte
      ∧ ∃ p2 q2, Boundary p2 q2 ∧ (p ++ q).dropWhile isDigitByte = p2 ++ q2
          ∧ (p ++ (blanks b ++ q)).dropWhile isDigitByte = p2 ++ (blanks b ++ q2) := by
  induction p with
  | nil =>
    have hq : startsWithDigit q = false := by
      cases hs : startsWithDigit q with
      | false => rfl
      | true => exact absurd ⟨rfl, hs⟩ h
    have h1 := scan_of_not_startsWithDigit q hq
    have h2 := scan_of_not_startsWithDigit (blanks b ++ q) (startsWithDigit_blanks_append b q hq)
    refine ⟨?_, [], q, ?_, ?_, ?_⟩
    · rw [List.nil_append, List.nil_append, h1.1, h2.1]
    · exact fun hc => absurd hc.1 (by decide)
    · exact h1.2
    · exact h2.2
  | cons z zs ih =>
    by_cases hz : isDigitByte z = true
    · have hz2 : isdigit z.val = true := hz
      have h2 : boundaryAfter true zs q := by
        have h3 : boundaryAfter (isdigit z.val) zs q := h
        rw [hz2] at h3
        exact h3
      obtain ⟨ht, p2, q2, hb, hd1, hd2⟩ := ih h2
      refine ⟨?_, p2, q2, hb, ?_, ?_⟩
      · rw [List.cons_append, List.cons_append, List.takeWhile_cons_of_pos hz,
          List.takeWhile_cons_of_pos hz, ht]
      · rw [List.cons_append, List.dropWhile_cons_of_pos hz, hd1]
      · rw [List.cons_append, List.dropWhile_cons_of_pos hz, hd2]
    · refine ⟨?_, z :: zs, q, h, ?_, ?_⟩
      · rw [List.cons_append, List.cons_append, List.takeWhile_cons_of_neg hz,
          List.takeWhile_cons_of_neg hz]
      · rw [List.cons_append, List.dropWhile_cons_of_neg hz]
      · rw [List.cons_append, List.dropWhile_cons_of_neg hz]

theorem scanToken_insert (b : List Blank) (a : Int) (p q : List Byte) (h : Boundary p q) :
    (scanToken a (p ++ q)).1 = (scanToken a (p ++ (blanks b ++ q))).1
      ∧ (scanToken a (p ++ q)).2.1 = (scanToken a (p ++ (blanks b ++ q))).2.1
      ∧ Inserted b (scanToken a (p ++ q)).2.2 (scanToken a (p ++ (blanks b ++ q))).2.2 := by
  induction p with
  | nil =>
    rw [List.nil_append, List.nil_append, scanToken_blanks]
    exact ⟨rfl, rfl, Or.inl rfl⟩
  | cons y ys ih =>
    have hb0 : boundaryAfter (isdigit y.val) ys q := h
    rw [List.cons_append, List.cons_append, scanToken_cons_eq a y (ys ++ q),
      scanToken_cons_eq a y (ys ++ (blanks b ++ q))]
    by_cases hd : isdigit y.val = true
    · have hv : (48 : Int) ≤ y.val ∧ (y.val : Int) ≤ 57 := by
        simpa [isdigit] using hd
      have hb : ¬ ((y.val : Int) = 32 ∨ (y.val : Int) = 9) := by omega
      have hn : ¬ ((y.val : Int) = 10) := by omega
      rw [hd] at hb0
      obtain ⟨ht, p2, q2, hbd, hd1, hd2⟩ := digits_insert b ys q hb0
      rw [if_neg hb, if_neg hn, if_pos hd, if_neg hb, if_neg hn, if_pos hd, ht]
      exact ⟨rfl, rfl, Or.inr ⟨p2, q2, hbd, hd1, hd2⟩⟩
    · have hd2 : isdigit y.val = false := by simpa using hd
      rw [hd2] at hb0
      by_cases hb : (y.val : Int) = 32 ∨ (y.val : Int) = 9
      · rw [if_pos hb, if_pos hb]
        exact ih hb0
      · by_cases hn : (y.val : Int) = 10
        · rw [if_neg hb, if_pos hn, if_neg hb, if_pos hn]
          exact ⟨rfl, rfl, Or.inr ⟨ys, q, hb0, rfl, rfl⟩⟩
        · rw [if_neg hb, if_neg hn, if_neg hd, if_neg hb, if_neg hn, if_neg hd]
          exact ⟨rfl, rfl, Or.inr ⟨ys, q, hb0, rfl, rfl⟩⟩

theorem scanToken_inserted (b : List Blank) (a : Int) (inp inp2 : List Byte)
    (h : Inserted b inp inp2) :
    (scanToken a inp).1 = (scanToken a inp2).1
      ∧ (scanToken a inp).2.1 = (scanToken a inp2).2.1
      ∧ Inserted b (scanToken a inp).2.2 (scanToken a inp2).2.2 := by
  rcases h with rfl | ⟨p, q, hb, rfl, rfl⟩
  · exact ⟨rfl, rfl, Or.inl rfl⟩
  · exact scanToken_insert b a p q hb

theorem insertedState_tokens (b : List Blank) (s s2 : State) (h : InsertedState b s s2) :
    s.curToken = s2.curToken ∧ s.curAttribute = s2.curAttribute := ⟨h.1, h.2.1⟩

theorem insertedState_advance (b : List Blank) (s s2 : State) (h : InsertedState b s s2) :
    InsertedState b (advance s) (advance s2) := by
  obtain ⟨c, a, inp⟩ := s
  obtain ⟨c2, a2, inp2⟩ := s2
  obtain ⟨hc, ha, hin⟩ := h
  have ha1 : a = a2 := ha
  subst ha1
  have hin2 : Inserted b inp inp2 := hin
  rw [advance_mk, advance_mk, look_eq, look_eq]
  exact scanToken_inserted b a inp inp2 hin2

theorem tokenStream_inserted (b : List Blank) (k : Nat) :
    ∀ s s2 : State, s.curAttribute = s2.curAttribute → Inserted b s.stdin s2.stdin →
      tokenStream k s = tokenStream k s2 := by
  induction k with
  | zero =>
    intro s s2 _ _
    rfl
  | succ k ih =>
    intro s s2 ha hin
    have h := scanToken_inserted b s.curAttribute s.stdin s2.stdin hin
    rw [tokenStream, tokenStream, getNextToken_token, getNextToken_token,
      getNextToken_curAttribute, getNextToken_curAttribute, ← ha, ← h.1, ← h.2.1]
    congr 1
    apply ih
    · rw [getNextToken_curAttribute, getNextToken_curAttribute, ← ha]
      exact h.2.1
    · rw [getNextToken_stdin, getNextToken_stdin, ← ha]
      exact h.2.2

theorem parseLine_inserted (b : List Blank) (p q : List Byte) (h : Boundary p q) :
    Sim (InsertedState b) (parseLine (p ++ q)) (parseLine (p ++ (blanks b ++ q))) :=
  parseLine_simulation (InsertedState b) (insertedState_tokens b)
    (fun s s2 hs _ => insertedState_advance b s s2 hs) _ _
    (insertedState_advance b ⟨0, 0, p ++ q⟩ ⟨0, 0, p ++ (blanks b ++ q)⟩
      ⟨rfl, rfl, Or.inr ⟨p, q, h, rfl, rfl⟩⟩)

/-- C11: inserting any number of spaces and tabs at a place of the input that
is not inside a run of digits leaves unchanged the sequence of tokens, with
their attributes, that successive calls of `getNextToken` return, the tree
that the parser returns or the fault it stops with, and the outcome of `main`;
the line `2+3` with blanks before each token evaluates as without them. -/
theorem blanks_skipped (b : List Blank) (p q : List Byte) (k : Nat) (c a : Int)
    (h : Boundary p q) :
    tokenStream k ⟨c, a, p ++ (blanks b ++ q)⟩ = tokenStream k ⟨c, a, p ++ q⟩
      ∧ Sim (InsertedState b) (parseLine (p ++ q)) (parseLine (p ++ (blanks b ++ q)))
      ∧ main (p ++ (blanks b ++ q)) = main (p ++ q)
      ∧ main (bytes " 2\t+  3 \n") = main (bytes "2+3\n")
      ∧ tokenStream 4 ⟨0, 0, bytes " 2\t+  3 \n"⟩ = [(NUM, 2), (43, 2), (NUM, 3), (EOS, 3)]
      ∧ tokenStream 4 ⟨0, 0, bytes "2+3\n"⟩ = [(NUM, 2), (43, 2), (NUM, 3), (EOS, 3)] := by
  refine ⟨?_, parseLine_inserted b p q h, ?_, by decide, by decide, by decide⟩
  · exact (tokenStream_inserted b k ⟨c, a, p ++ q⟩ ⟨c, a, p ++ (blanks b ++ q)⟩ rfl
      (Or.inr ⟨p, q, h, rfl, rfl⟩)).symm
  · exact (main_of_sim (insertedState_tokens b) (parseLine_inserted b p q h)).symm

/-- Witness of C11: a space and a tab inserted before the `3` of `2+3`. -/
theorem blanks_skipped_witness :
    bytes "2+" ++ (blanks [.space, .tab] ++ bytes "3\n") = bytes "2+ \t3\n"
      ∧ tokenStream 5 ⟨0, 0, bytes "2+" ++ (blanks [.space, .tab] ++ bytes "3\n")⟩
          = tokenStream 5 ⟨0, 0, bytes "2+" ++ bytes "3\n"⟩
      ∧ Sim (InsertedState [.space, .tab]) (parseLine (bytes "2+" ++ bytes "3\n"))
          (parseLine (bytes "2+" ++ (blanks [.space, .tab] ++ bytes "3\n")))
      ∧ main (bytes "2+" ++ (blanks [.space, .tab] ++ bytes "3\n"))
          = main (bytes "2+" ++ bytes "3\n")
      ∧ main (bytes " 2\t+  3 \n") = main (bytes "2+3\n")
      ∧ tokenStream 4 ⟨0, 0, bytes " 2\t+  3 \n"⟩ = [(NUM, 2), (43, 2), (NUM, 3), (EOS, 3)]
      ∧ tokenStream 4 ⟨0, 0, bytes "2+3\n"⟩ = [(NUM, 2), (43, 2), (NUM, 3), (EOS, 3)] :=
  ⟨by decide, blanks_skipped [.space, .tab] (bytes "2+") (bytes "3\n") 5 0 0
    (fun hc => absurd hc.1 (by decide))⟩

/-! ## The control flow of the evaluator -/

theorem flowBind_error (a : Bool × Except Fault Int) (f : Int → Bool × Except Fault Int)
    (e : Fault) (h : a.2 = .error e) : flowBind a f = (a.1, .error e) := by
  rw [flowBind, h]

theorem flowBind_ok (a : Bool × Except Fault Int) (f : Int → Bool × Except Fault Int)
    (v : Int) (h : a.2 = .ok v) : flowBind a f = (a.1 || (f v).1, (f v).2) := by
  rw [flowBind, h]

theorem tree_eval_flow_add (av : Option Int) (l r : tree_t) :
    tree_eval_flow (.node 43 av l r)
      = flowBind (tree_eval_flow l) fun x => flowBind (tree_eval_flow r) fun y =>
          (false, .ok (add32 x y)) := by
  cases av <;> rw [tree_eval_flow] <;> simp

theorem tree_eval_flow_mul (av : Option Int) (l r : tree_t) :
    tree_eval_flow (.node 42 av l r)
      = flowBind (tree_eval_flow l) fun x => flowBind (tree_eval_flow r) fun y =>
          (false, .ok (mul32 x y)) := by
  cases av <;> rw [tree_eval_flow] <;> simp

theorem tree_eval_flow_div (av : Option Int) (l r : tree_t) :
    tree_eval_flow (.node 47 av l r)
      = flowBind (tree_eval_flow l) fun x => flowBind (tree_eval_flow r) fun y =>
          (false, div32 x y) := by
  cases av <;> rw [tree_eval_flow] <;> simp

theorem tree_eval_flow_sub (av : Option Int) (l : tree_t) (rt : Int) (ra : Option Int)
    (rl rr : tree_t) :
    tree_eval_flow (.node 45 av l (.node rt ra rl rr))
      = flowBind (tree_eval_flow l) fun x =>
          flowBind (tree_eval_flow (.node rt ra rl rr)) fun y => (false, .ok (sub32 x y)) := by
  cases av <;> rw [tree_eval_flow] <;> simp

theorem tree_eval_flow_neg (av : Option Int) (l : tree_t) :
    tree_eval_flow (.node 45 av l .NULL)
      = flowBind (tree_eval_flow l) fun x => (false, .ok (neg32 x)) := by
  cases av <;> rw [tree_eval_flow] <;> simp

theorem tree_eval_flow_num (av : Option Int) (l r : tree_t) :
    (tree_eval_flow (.node NUM av l r)).1 = false := by
  cases av <;> rw [tree_eval_flow] <;> simp [NUM]

theorem tree_eval_flow_default (ty : Int) (av : Option Int) (l r : tree_t)
    (h : ¬ KnownType ty) : tree_eval_flow (.node ty av l r) = (true, .ok (-1000000)) := by
  have h43 : ty ≠ 43 := fun hc => h (Or.inl hc)
  have h45 : ty ≠ 45 := fun hc => h (Or.inr (Or.inl hc))
  have h42 : ty ≠ 42 := fun hc => h (Or.inr (Or.inr (Or.inl hc)))
  have h47 : ty ≠ 47 := fun hc => h (Or.inr (Or.inr (Or.inr (Or.inl hc))))
  have hnum : ty ≠ NUM := fun hc => h (Or.inr (Or.inr (Or.inr (Or.inr hc))))
  cases av <;> rw [tree_eval_flow] <;> simp [h43, h45, h42, h47, hnum]

theorem flowBind_snd (a : Bool × Except Fault Int) (f : Int → Bool × Except Fault Int) :
    (flowBind a f).2 = a.2.bind fun v => (f v).2 := by
  cases h : a.2 with
  | error e => rw [flowBind_error a f e h]; rfl
  | ok v => rw [flowBind_ok a f v h]; rfl

theorem flowBind_flag_left (a : Bool × Except Fault Int) (f : Int → Bool × Except Fault Int)
    (h : a.1 = true) : (flowBind a f).1 = true := by
  cases h2 : a.2 with
  | error e => rw [flowBind_error a f e h2]; exact h
  | ok v => rw [flowBind_ok a f v h2]; simp [h]

theorem flowBind_flag_right (a : Bool × Except Fault Int) (f : Int → Bool × Except Fault Int)
    (v : Int) (h : a.2 = .ok v) (h2 : (f v).1 = true) : (flowBind a f).1 = true := by
  rw [flowBind_ok a f v h]
  simp [h2]

theorem flowBind_flag_inv (a : Bool × Except Fault Int) (f : Int → Bool × Except Fault Int)
    (h : (flowBind a f).1 = true) :
    a.1 = true ∨ ∃ v, a.2 = .ok v ∧ (f v).1 = true := by
  cases h2 : a.2 with
  | error e =>
    rw [flowBind_error a f e h2] at h
    exact Or.inl h
  | ok v =>
    rw [flowBind_ok a f v h2] at h
    simp only [Bool.or_eq_true] at h
    rcases h with h3 | h3
    · exact Or.inl h3
    · exact Or.inr ⟨v, rfl, h3⟩

theorem tree_eval_bind_add (av : Option Int) (l r : tree_t) :
    tree_eval (.node 43 av l r)
      = (tree_eval l).bind fun x => (tree_eval r).bind fun y => .ok (add32 x y) := by
  cases av <;> rw [tree_eval] <;> rfl

theorem tree_eval_bind_mul (av : Option Int) (l r : tree_t) :
    tree_eval (.node 42 av l r)
      = (tree_eval l).bind fun x => (tree_eval r).bind fun y => .ok (mul32 x y) := by
  cases av <;> rw [tree_eval] <;> rfl

theorem tree_eval_bind_div (av : Option Int) (l r : tree_t) :
    tree_eval (.node 47 av l r)
      = (tree_eval l).bind fun x => (tree_eval r).bind fun y => div32 x y := by
  cases av <;> rw [tree_eval] <;> rfl

theorem tree_eval_bind_sub (av : Option Int) (l : tree_t) (rt : Int) (ra : Option Int)
    (rl rr : tree_t) :
    tree_eval (.node 45 av l (.node rt ra rl rr))
      = (tree_eval l).bind fun x =>
          (tree_eval (.node rt ra rl rr)).bind fun y => .ok (sub32 x y) := by
  cases av <;> rw [tree_eval] <;> rfl

theorem tree_eval_bind_neg (av : Option Int) (l : tree_t) :
    tree_eval (.node 45 av l .NULL) = (tree_eval l).bind fun x => .ok (neg32 x) := by
  cases av <;> rw [tree_eval] <;> rfl

theorem tree_eval_default (ty : Int) (av : Option Int) (l r : tree_t)
    (h : ¬ KnownType ty) : tree_eval (.node ty av l r) = .ok (-1000000) := by
  have h43 : ty ≠ 43 := fun hc => h (Or.inl hc)
  have h45 : ty ≠ 45 := fun hc => h (Or.inr (Or.inl hc))
  have h42 : ty ≠ 42 := fun hc => h (Or.inr (Or.inr (Or.inl hc)))
  have h47 : ty ≠ 47 := fun hc => h (Or.inr (Or.inr (Or.inr (Or.inl hc))))
  have hnum : ty ≠ NUM := fun hc => h (Or.inr (Or.inr (Or.inr (Or.inr hc))))
  cases av <;> rw [tree_eval] <;> simp [h43, h45, h42, h47, hnum, pure, Except.pure]

theorem bind_flow_congr (a : Bool × Except Fault Int) (r : Except Fault Int)
    (f : Int → Bool × Except Fault Int) (g : Int → Except Fault Int) (h : a.2 = r)
    (hf : ∀ x, (f x).2 = g x) : (flowBind a f).2 = r.bind g := by
  rw [flowBind_snd, h]
  cases r with
  | error e => rfl
  | ok v => exact hf v

theorem tree_eval_flow_value (t : tree_t) : (tree_eval_flow t).2 = tree_eval t := by
  induction t with
  | NULL => rfl
  | node ty av l r ihl ihr =>
    by_cases hk : KnownType ty
    · rcases hk with rfl | rfl | rfl | rfl | rfl
      · rw [tree_eval_flow_add, tree_eval_bind_add]
        exact bind_flow_congr _ _ _ _ ihl (fun x => bind_flow_congr _ _ _ _ ihr (fun y => rfl))
      · cases r with
        | NULL =>
          rw [tree_eval_flow_neg, tree_eval_bind_neg]
          exact bind_flow_congr _ _ _ _ ihl (fun x => rfl)
        | node rt ra rl rr =>
          rw [tree_eval_flow_sub, tree_eval_bind_sub]
          exact bind_flow_congr _ _ _ _ ihl
            (fun x => bind_flow_congr _ _ _ _ ihr (fun y => rfl))
      · rw [tree_eval_flow_mul, tree_eval_bind_mul]
        exact bind_flow_congr _ _ _ _ ihl (fun x => bind_flow_congr _ _ _ _ ihr (fun y => rfl))
      · rw [tree_eval_flow_div, tree_eval_bind_div]
        exact bind_flow_congr _ _ _ _ ihl (fun x => bind_flow_congr _ _ _ _ ihr (fun y => rfl))
      · cases av <;> rw [tree_eval_flow, tree_eval] <;> simp [NUM, pure, Except.pure]
    · rw [tree_eval_flow_default ty av l r hk, tree_eval_default ty av l r hk]

theorem tree_eval_flow_null : (tree_eval_flow .NULL).1 = false := rfl

theorem flow_flag_left (ty : Int) (av : Option Int) (l r : tree_t)
    (hty : ty = 43 ∨ ty = 45 ∨ ty = 42 ∨ ty = 47) (h : (tree_eval_flow l).1 = true) :
    (tree_eval_flow (.node ty av l r)).1 = true := by
  rcases hty with rfl | rfl | rfl | rfl
  · rw [tree_eval_flow_add]
    exact flowBind_flag_left _ _ h
  · cases r with
    | NULL =>
      rw [tree_eval_flow_neg]
      exact flowBind_flag_left _ _ h
    | node rt ra rl rr =>
      rw [tree_eval_flow_sub]
      exact flowBind_flag_left _ _ h
  · rw [tree_eval_flow_mul]
    exact flowBind_flag_left _ _ h
  · rw [tree_eval_flow_div]
    exact flowBind_flag_left _ _ h

theorem flow_flag_right (ty : Int) (av : Option Int) (l r : tree_t) (x : Int)
    (hty : ty = 43 ∨ ty = 45 ∨ ty = 42 ∨ ty = 47) (hl : tree_eval l = .ok x)
    (hn : IsNode r) (h : (tree_eval_flow r).1 = true) :
    (tree_eval_flow (.node ty av l r)).1 = true := by
  have hl2 : (tree_eval_flow l).2 = .ok x := (tree_eval_flow_value l).trans hl
  rcases hty with rfl | rfl | rfl | rfl
  · rw [tree_eval_flow_add]
    exact flowBind_flag_right _ _ x hl2 (flowBind_flag_left _ _ h)
  · cases r with
    | NULL => exact absurd hn (by simp [IsNode])
    | node rt ra rl rr =>
      rw [tree_eval_flow_sub]
      exact flowBind_flag_right _ _ x hl2 (flowBind_flag_left _ _ h)
  · rw [tree_eval_flow_mul]
    exact flowBind_flag_right _ _ x hl2 (flowBind_flag_left _ _ h)
  · rw [tree_eval_flow_div]
    exact flowBind_flag_right _ _ x hl2 (flowBind_flag_left _ _ h)

theorem flow_flag_binary_inv (a b : Bool × Except Fault Int) (g : Int → Int → Except Fault Int)
    (h : (flowBind a fun x => flowBind b fun y => (false, g x y)).1 = true) :
    a.1 = true ∨ ((∃ x, a.2 = .ok x) ∧ b.1 = true) := by
  rcases flowBind_flag_inv _ _ h with h1 | ⟨v, hv, h2⟩
  · exact Or.inl h1
  · rcases flowBind_flag_inv _ _ h2 with h3 | ⟨w, _, h4⟩
    · exact Or.inr ⟨⟨v, hv⟩, h3⟩
    · cases h4

theorem flow_flag_inv (ty : Int) (av : Option Int) (l r : tree_t)
    (hty : ty = 43 ∨ ty = 45 ∨ ty = 42 ∨ ty = 47)
    (h : (tree_eval_flow (.node ty av l r)).1 = true) :
    (tree_eval_flow l).1 = true
      ∨ ((∃ x, tree_eval l = .ok x) ∧ IsNode r ∧ (tree_eval_flow r).1 = true) := by
  have key : ∀ g : Int → Int → Except Fault Int,
      (flowBind (tree_eval_flow l) fun x => flowBind (tree_eval_flow r) fun y =>
        (false, g x y)).1 = true →
      (tree_eval_flow l).1 = true
        ∨ ((∃ x, tree_eval l = .ok x) ∧ IsNode r ∧ (tree_eval_flow r).1 = true) := by
    intro g hg
    rcases flow_flag_binary_inv _ _ g hg with h1 | ⟨⟨x, hx⟩, h2⟩
    · exact Or.inl h1
    · refine Or.inr ⟨⟨x, (tree_eval_flow_value l).symm.trans hx⟩, ?_, h2⟩
      cases r with
      | NULL => cases h2
      | node rt ra rl rr => trivial
  rcases hty with rfl | rfl | rfl | rfl
  · rw [tree_eval_flow_add] at h
    exact key _ h
  · cases r with
    | NULL =>
      rw [tree_eval_flow_neg] at h
      rcases flowBind_flag_inv _ _ h with h1 | ⟨v, _, h2⟩
      · exact Or.inl h1
      · cases h2
    | node rt ra rl rr =>
      rw [tree_eval_flow_sub] at h
      exact key _ h
  · rw [tree_eval_flow_mul] at h
    exact key _ h
  · rw [tree_eval_flow_div] at h
    exact key (fun x y => div32 x y) h

theorem flow_flag_reaches (t : tree_t) (h : (tree_eval_flow t).1 = true) :
    ∃ s ty av l r, Reaches t s ∧ s = .node ty av l r ∧ ¬ KnownType ty := by
  induction t with
  | NULL => cases h
  | node ty av l r ihl ihr =>
    by_cases hk : KnownType ty
    · by_cases hty : ty = 43 ∨ ty = 45 ∨ ty = 42 ∨ ty = 47
      · rcases flow_flag_inv ty av l r hty h with h1 | ⟨⟨x, hx⟩, hn, h2⟩
        · obtain ⟨s, ty2, av2, l2, r2, hs, he, hnk⟩ := ihl h1
          exact ⟨s, ty2, av2, l2, r2, Reaches.left ty av l r s hty hs, he, hnk⟩
        · obtain ⟨s, ty2, av2, l2, r2, hs, he, hnk⟩ := ihr h2
          exact ⟨s, ty2, av2, l2, r2, Reaches.right ty av l r s x hty hx hn hs, he, hnk⟩
      · have hnum : ty = NUM := by
          rcases hk with h1 | h1 | h1 | h1 | h1
          · exact absurd (Or.inl h1) hty
          · exact absurd (Or.inr (Or.inl h1)) hty
          · exact absurd (Or.inr (Or.inr (Or.inl h1))) hty
          · exact absurd (Or.inr (Or.inr (Or.inr h1))) hty
          · exact h1
        subst hnum
        rw [tree_eval_flow_num] at h
        cases h
    · exact ⟨_, ty, av, l, r, Reaches.here _, rfl, hk⟩

theorem reaches_flow_flag {t s : tree_t} (h : Reaches t s) (ty : Int) (av : Option Int)
    (l r : tree_t) (he : s = .node ty av l r) (hk : ¬ KnownType ty) :
    (tree_eval_flow t).1 = true := by
  induction h with
  | here t =>
    rw [he, tree_eval_flow_default ty av l r hk]
  | left ty2 av2 l2 r2 s hty _ ih =>
    exact flow_flag_left ty2 av2 l2 r2 hty (ih he)
  | right ty2 av2 l2 r2 s x hty hl hn _ ih =>
    exact flow_flag_right ty2 av2 l2 r2 x hty hl hn (ih he)

theorem flow_flag_wellShaped (t : tree_t) (hn : IsNode t) (hw : WellShaped t) :
    (tree_eval_flow t).1 = false := by
  cases hf : (tree_eval_flow t).1 with
  | false => rfl
  | true =>
    obtain ⟨s, ty, av, l, r, hs, he, hnk⟩ := flow_flag_reaches t hf
    obtain ⟨_, hws⟩ := wellShaped_reaches hs hn hw
    rw [he] at hws
    exact absurd (knownType_of_nodeShape hws.1) hnk

set_option maxRecDepth 100000 in
/-- C15: for the tree of a successful parse (`expr` returned and the lookahead
is `EOS`), `main` reports what `tree_eval` returns for it; that evaluation
never fails the check `root != NULL`, and the run of `tree_eval` on it, followed
with a record of its control flow, never leaves the `switch` by the `default`
branch: every call it makes is on a node whose type is one of `+`, `-`, `*`,
`/`, `NUM`. On any tree the record is set exactly when the run reaches a node
of another type, a tree with such a root does run into the `default` branch
and returns the sentinel, and -1000000 does arise as the value of the line
`-1000000`. -/
theorem evaluation_safe (stdin : List Byte) (t : tree_t) (st : State)
    (hp : parseLine stdin = .ok (t, st)) (heos : st.curToken = EOS) :
    main stdin = tree_eval t
      ∧ tree_eval t ≠ .error .assertRoot
      ∧ tree_eval_flow t = (false, tree_eval t)
      ∧ (∀ s, Reaches t s → ∃ ty av l r, s = .node ty av l r ∧ KnownType ty)
      ∧ (∀ u, (tree_eval_flow u).2 = tree_eval u
          ∧ ((tree_eval_flow u).1 = true
              ↔ ∃ s ty av l r, Reaches u s ∧ s = .node ty av l r ∧ ¬ KnownType ty))
      ∧ tree_eval_flow strayNode = (true, .ok (-1000000))
      ∧ tree_eval strayNode = .ok (-1000000)
      ∧ main (bytes "-1000000\n") = .ok (-1000000) := by
  obtain ⟨hn, hw⟩ := parseLine_shape hp
  refine ⟨?_, tree_eval_no_assert t hn hw, ?_, ?_, ?_, by decide, by decide, by decide⟩
  · rw [main_eq, hp]
    simp [Except.bind, heos]
  · exact Prod.ext (flow_flag_wellShaped t hn hw) (tree_eval_flow_value t)
  · intro s hs
    obtain ⟨hns, hws⟩ := wellShaped_reaches hs hn hw
    cases s with
    | NULL => exact absurd hns (by simp [IsNode])
    | node ty av l r => exact ⟨ty, av, l, r, rfl, knownType_of_nodeShape hws.1⟩
  · intro u
    refine ⟨tree_eval_flow_value u, flow_flag_reaches u, ?_⟩
    rintro ⟨s, ty, av, l, r, hs, he, hk⟩
    exact reaches_flow_flag hs ty av l r he hk

set_option maxRecDepth 100000 in
/-- Witness of C15: the line `2*(3-4)`. -/
theorem evaluation_safe_witness :
    parseLine (bytes "2*(3-4)\n")
        = .ok (mktree 42 (.node NUM (some 2) .NULL .NULL)
            (mktree 45 (.node NUM (some 3) .NULL .NULL) (.node NUM (some 4) .NULL .NULL)),
          ⟨EOS, 4, []⟩)
      ∧ main (bytes "2*(3-4)\n") = .ok (-2)
      ∧ tree_eval_flow (mktree 42 (.node NUM (some 2) .NULL .NULL)
            (mktree 45 (.node NUM (some 3) .NULL .NULL) (.node NUM (some 4) .NULL .NULL)))
          = (false, .ok (-2)) := by
  have h := evaluation_safe (bytes "2*(3-4)\n")
    (mktree 42 (.node NUM (some 2) .NULL .NULL)
      (mktree 45 (.node NUM (some 3) .NULL .NULL) (.node NUM (some 4) .NULL .NULL)))
    ⟨EOS, 4, []⟩ (by decide) rfl
  have hv : tree_eval (mktree 42 (.node NUM (some 2) .NULL .NULL)
      (mktree 45 (.node NUM (some 3) .NULL .NULL) (.node NUM (some 4) .NULL .NULL)))
      = .ok (-2) := by decide
  refine ⟨by decide, ?_, ?_⟩
  · rw [h.1, hv]
  · rw [h.2.2.1, hv]

end Calc
